import Mathlib

/-
Shallow embedding of the BFSandDFS repository core (Go) in Lean 4.

Conventions used throughout:
* Go `int` is modelled as `Int`; Go `float64` is modelled as `ℚ` for finite
  values and as `WithTop ℚ` where `math.Inf(1)` can occur.  Every weight and
  every arithmetic operation appearing in the verified claims is exact in
  `ℚ` (small integers), so no rounding discrepancy with IEEE doubles arises.
* A Go `map[int]V` is modelled as an insertion-ordered association list
  `List (Int × V)`: `mapGet` reads a key (returning Go's zero value for the
  type when the key is absent, exactly as a Go map read does), `mapSet`
  updates in place or appends.  Go's map iteration order is unspecified;
  wherever the source ranges over a map we iterate the association list in
  insertion order and note at the use site why the claim is insensitive to
  that choice.
* Go slices are modelled as `List`.
* Loops whose bound is not structural are compiled to fuel-indexed
  recursion, with the fuel chosen at the call site to exceed any possible
  iteration count; comments at the definitions justify the bounds.
-/

/-- Go map read: returns the stored value, or the type's zero value `d` when
the key is absent (Go semantics for reading a missing key). -/
def mapGet {α : Type} (m : List (Int × α)) (k : Int) (d : α) : α :=
  match m.lookup k with
  | some v => v
  | none => d

/-- Go map lookup with ok-flag: `v, ok := m[k]`. -/
def mapFind {α : Type} (m : List (Int × α)) (k : Int) : Option α :=
  m.lookup k

/-- Go map write `m[k] = v`: replaces the binding in place if the key is
present, otherwise appends it.  (Insertion-ordered stand-in for a Go map.) -/
def mapSet {α : Type} : List (Int × α) → Int → α → List (Int × α)
  | [], k, v => [(k, v)]
  | (k0, v0) :: rest, k, v =>
    if k0 = k then (k, v) :: rest else (k0, v0) :: mapSet rest k v

namespace algorithms

/-- TraversalMode from internal/algorithms.  The stepping engine source file
declares ModeIdle, ModeBFS and ModeDFS; the remaining constructors are the
batch/AVL modes referenced by the simulator (their iota declarations live in
the same package; they are pairwise distinct tags and carry no other data). -/
inductive TraversalMode where
  | ModeIdle
  | ModeBFS
  | ModeDFS
  | ModeAVL
  | ModeDijkstra
  | ModeAStar
  | ModeTopological
  | ModeKruskal
  | ModePrim
  | ModeTarjan
  | ModeKosaraju
deriving DecidableEq, Repr

export TraversalMode (ModeIdle ModeBFS ModeDFS ModeAVL ModeDijkstra ModeAStar
  ModeTopological ModeKruskal ModePrim ModeTarjan ModeKosaraju)

/-- BFSStep from internal/algorithms: one step of BFS.  Dequeues the front of
the queue; a visited id is skipped; otherwise every neighbor that is not yet
visited is appended to the queue (no check against the queue itself) and the
dequeued node is reported.  Reports -1 when no node is newly visited; the
third component is the done flag (true only on an empty queue). -/
def BFSStep (queue : List Int) (visited : List (Int × Bool))
    (neighbors : List (Int × List Int)) : List Int × Int × Bool :=
  match queue with
  | [] => ([], -1, true)
  | n :: rest =>
    if mapGet visited n false then
      (rest, -1, false)
    else
      (rest ++ (mapGet neighbors n []).filter (fun nb => !mapGet visited nb false),
        n, false)

/-- DFSStep from internal/algorithms: one step of DFS.  Pops the top (last
element) of the stack; otherwise identical in structure to BFSStep. -/
def DFSStep (stack : List Int) (visited : List (Int × Bool))
    (neighbors : List (Int × List Int)) : List Int × Int × Bool :=
  match stack.getLast? with
  | none => ([], -1, true)
  | some n =>
    let rest := stack.dropLast
    if mapGet visited n false then
      (rest, -1, false)
    else
      (rest ++ (mapGet neighbors n []).filter (fun nb => !mapGet visited nb false),
        n, false)

/-- Edge from internal/algorithms/graph_algorithms.go. -/
structure Edge where
  From : Int
  To : Int
  Weight : ℚ
deriving DecidableEq, Repr

/-- PriorityQueueItem: node id, priority, and the heap index maintained by
container/heap via Swap/Push/Pop.  The priority is a float64 in the source;
`WithTop ℚ` models it with `⊤` for `math.Inf(1)` (every priority actually
pushed by the algorithms below is finite). -/
structure PriorityQueueItem where
  Node : Int
  Priority : WithTop ℚ
  Index : Int
deriving DecidableEq, Repr

/-- Default item used for (unreachable) out-of-range slice reads. -/
def pqDummy : PriorityQueueItem := { Node := 0, Priority := 0, Index := 0 }

/-- PriorityQueue.Less: strict comparison of priorities. -/
def pqLess (h : List PriorityQueueItem) (i j : Nat) : Bool :=
  decide ((h.getD i pqDummy).Priority < (h.getD j pqDummy).Priority)

/-- PriorityQueue.Swap: exchanges two slots and writes each item's Index. -/
def pqSwap (h : List PriorityQueueItem) (i j : Nat) : List PriorityQueueItem :=
  let a := h.getD i pqDummy
  let b := h.getD j pqDummy
  (h.set i { b with Index := (i : Int) }).set j { a with Index := (j : Int) }

/-- container/heap up-sift, fuel-indexed so that the recursion is structural
(the kernel can then evaluate it): the slot index strictly decreases on each
iteration, so fuel j + 1 never runs out. -/
def heapUpAux (fuel : Nat) (h : List PriorityQueueItem) (j : Nat) :
    List PriorityQueueItem :=
  match fuel with
  | 0 => h
  | fuel + 1 =>
    let i := (j - 1) / 2
    if i = j ∨ ¬ pqLess h j i then h
    else heapUpAux fuel (pqSwap h i j) i

/-- container/heap up-sift: bubble slot j toward the root while it is
strictly smaller than its parent. -/
def heapUp (h : List PriorityQueueItem) (j : Nat) : List PriorityQueueItem :=
  heapUpAux (j + 1) h j

/-- container/heap down-sift, fuel-indexed for the same reason as heapUpAux:
the slot index strictly increases and stays below n, so fuel n suffices. -/
def heapDownAux (fuel : Nat) (h : List PriorityQueueItem) (i n : Nat) :
    List PriorityQueueItem :=
  match fuel with
  | 0 => h
  | fuel + 1 =>
    let j1 := 2 * i + 1
    if n ≤ j1 then h
    else
      let j := if j1 + 1 < n ∧ pqLess h (j1 + 1) j1 then j1 + 1 else j1
      if ¬ pqLess h j i then h
      else heapDownAux fuel (pqSwap h i j) j n

/-- container/heap down-sift over the first n slots, starting at slot i. -/
def heapDown (h : List PriorityQueueItem) (i n : Nat) : List PriorityQueueItem :=
  heapDownAux n h i n

/-- heap.Push: the interface Push appends the item (setting its Index to the
old length), then up-sifts the last slot. -/
def heapPush (h : List PriorityQueueItem) (node : Int) (priority : WithTop ℚ) :
    List PriorityQueueItem :=
  let h1 := h ++ [{ Node := node, Priority := priority, Index := (h.length : Int) }]
  heapUp h1 (h1.length - 1)

/-- heap.Pop: swap root with the last slot, down-sift the root over the
shortened prefix, then remove and return the last slot (its Index set to -1).
The source never pops an empty queue (all loops guard on pq.Len() > 0); for
totality an empty heap returns the dummy item. -/
def heapPop (h : List PriorityQueueItem) :
    PriorityQueueItem × List PriorityQueueItem :=
  match h with
  | [] => (pqDummy, [])
  | _ :: _ =>
    let n := h.length - 1
    let h1 := pqSwap h 0 n
    let h2 := heapDown h1 0 n
    let item := h2.getD (h2.length - 1) pqDummy
    ({ item with Index := -1 }, h2.dropLast)

/-- State threaded through Dijkstra's main loop.  `expanded` is a ghost field
recording the order in which nodes are finalized (marked visited); it is
write-only and influences no branch, and exists so that theorems can speak
about how often a node is expanded. -/
structure DijkstraState where
  dist : List (Int × WithTop ℚ)
  prev : List (Int × Int)
  visited : List (Int × Bool)
  pq : List PriorityQueueItem
  expanded : List Int
deriving DecidableEq, Repr

/-- Relaxation loop of Dijkstra: for every outgoing edge of the node just
finalized, skip visited targets, otherwise relax and push on improvement.
Reads of the dist map use Go's zero value 0 for a missing key. -/
def dijkstraRelaxEdges (cur : Int) : List Edge → DijkstraState → DijkstraState
  | [], st => st
  | e :: rest, st =>
    if mapGet st.visited e.To false then dijkstraRelaxEdges cur rest st
    else
      let newDist := mapGet st.dist cur 0 + (e.Weight : WithTop ℚ)
      if newDist < mapGet st.dist e.To 0 then
        dijkstraRelaxEdges cur rest
          { st with
            dist := mapSet st.dist e.To newDist
            prev := mapSet st.prev e.To cur
            pq := heapPush st.pq e.To newDist }
      else dijkstraRelaxEdges cur rest st

/-- Main loop of Dijkstra (`for pq.Len() > 0`), fuel-indexed.  Each iteration
pops exactly one item, and the total number of pushes is at most
1 + (sum of all adjacency-list lengths): a push happens only when a
relaxation succeeds, each node's edge list is relaxed at most once (the
visited guard), so the fuel used at the call site is never exhausted. -/
def dijkstraLoop (neighbors : List (Int × List Edge)) :
    Nat → DijkstraState → DijkstraState
  | 0, st => st
  | fuel + 1, st =>
    if st.pq.isEmpty then st
    else
      let current := (heapPop st.pq).1
      let st1 := { st with pq := (heapPop st.pq).2 }
      if mapGet st1.visited current.Node false then
        dijkstraLoop neighbors fuel st1
      else
        let st2 := { st1 with
          visited := mapSet st1.visited current.Node true
          expanded := st1.expanded ++ [current.Node] }
        dijkstraLoop neighbors fuel
          (dijkstraRelaxEdges current.Node (mapGet neighbors current.Node []) st2)

/-- Fuel bound for dijkstraLoop: exceeds 1 + total adjacency length, the
maximum possible number of heap pushes (hence of loop iterations). -/
def dijkstraFuel (neighbors : List (Int × List Edge)) : Nat :=
  (neighbors.map (fun p => p.2.length)).sum + 2

/-- Dijkstra from graph_algorithms.go, including initialization: all
distances +Inf and all predecessors -1 for ids 0..numNodes-1, then
dist[source] = 0 and the source pushed with priority 0. -/
def DijkstraRun (neighbors : List (Int × List Edge)) (source : Int)
    (numNodes : Int) : DijkstraState :=
  let dist0 := (List.range numNodes.toNat).map fun i => ((i : Int), (⊤ : WithTop ℚ))
  let prev0 := (List.range numNodes.toNat).map fun i => ((i : Int), (-1 : Int))
  dijkstraLoop neighbors (dijkstraFuel neighbors)
    { dist := mapSet dist0 source 0
      prev := prev0
      visited := []
      pq := heapPush [] source 0
      expanded := [] }

/-- The pair the Go function returns: the distance map and predecessor map. -/
def Dijkstra (neighbors : List (Int × List Edge)) (source : Int)
    (numNodes : Int) : List (Int × WithTop ℚ) × List (Int × Int) :=
  let st := DijkstraRun neighbors source numNodes
  (st.dist, st.prev)

/-- Position from graph_algorithms.go (int coordinates). -/
structure Position where
  X : Int
  Y : Int
deriving DecidableEq, Repr

/-- Euclidean heuristic for A*.  math.Sqrt over float64 is modelled by
Rat.sqrt, which agrees with the real square root whenever the radicand is a
perfect square; in every run considered in this development the radicand is
0, where both are exactly 0. -/
def heuristic (a b : Position) : ℚ :=
  Rat.sqrt (((a.X - b.X : Int) : ℚ) ^ 2 + ((a.Y - b.Y : Int) : ℚ) ^ 2)

/-- State threaded through the A* main loop; `expanded` is the same kind of
write-only ghost log as in DijkstraState, recording every pop that enters
the neighbor-relaxation loop (A* has no visited set). -/
structure AStarState where
  gScore : List (Int × WithTop ℚ)
  fScore : List (Int × WithTop ℚ)
  cameFrom : List (Int × Int)
  openSet : List PriorityQueueItem
  expanded : List Int
deriving DecidableEq, Repr

/-- Path reconstruction of A*: prepend the current node, follow cameFrom
while an entry exists.  The source loop can cycle if cameFrom were cyclic;
the fuel (number of cameFrom entries + 2) covers every acyclic chain, and
the loop also stops at the -1 sentinel as in the source. -/
def aStarReconstruct : Nat → List (Int × Int) → Int → List Int → List Int
  | 0, _, _, path => path
  | fuel + 1, cameFrom, current, path =>
    if current = -1 then path
    else
      let path1 := current :: path
      match mapFind cameFrom current with
      | some prev => aStarReconstruct fuel cameFrom prev path1
      | none => path1

/-- Relaxation loop of A*: rescoring with f = g + heuristic(neighbor, goal);
no visited filter, only the strict gScore improvement guard. -/
def aStarRelaxEdges (cur goal : Int) (positions : List (Int × Position)) :
    List Edge → AStarState → AStarState
  | [], st => st
  | e :: rest, st =>
    let tentative := mapGet st.gScore cur 0 + (e.Weight : WithTop ℚ)
    if tentative < mapGet st.gScore e.To 0 then
      let f := tentative +
        ((heuristic (mapGet positions e.To ⟨0, 0⟩) (mapGet positions goal ⟨0, 0⟩) : ℚ)
          : WithTop ℚ)
      aStarRelaxEdges cur goal positions rest
        { st with
          cameFrom := mapSet st.cameFrom e.To cur
          gScore := mapSet st.gScore e.To tentative
          fScore := mapSet st.fScore e.To f
          openSet := heapPush st.openSet e.To f }
    else aStarRelaxEdges cur goal positions rest st

/-- Main loop of A*.  Unlike Dijkstra/Prim there is no visited set, so a
stale pop re-enters the relaxation loop; the loop is fuel-indexed and the
fuel at the call site exceeds the iteration count of every run appearing in
this development (all concrete runs below drain the queue well within it). -/
def aStarLoop (neighbors : List (Int × List Edge)) (goal : Int)
    (positions : List (Int × Position)) :
    Nat → AStarState → Option (List Int × WithTop ℚ) × AStarState
  | 0, st => (none, st)
  | fuel + 1, st =>
    if st.openSet.isEmpty then (none, st)
    else
      let current := (heapPop st.openSet).1.Node
      let st1 := { st with openSet := (heapPop st.openSet).2 }
      if current = goal then
        (some (aStarReconstruct (st1.cameFrom.length + 2) st1.cameFrom current [],
          mapGet st1.gScore goal 0), st1)
      else
        let st2 := { st1 with expanded := st1.expanded ++ [current] }
        aStarLoop neighbors goal positions fuel
          (aStarRelaxEdges current goal positions (mapGet neighbors current []) st2)

/-- Full A* state after running, used by theorems about the expansion log. -/
def AStarRun (neighbors : List (Int × List Edge)) (start goal : Int)
    (positions : List (Int × Position)) :
    Option (List Int × WithTop ℚ) × AStarState :=
  let init0 : AStarState :=
    { gScore := neighbors.map fun p => (p.1, (⊤ : WithTop ℚ))
      fScore := neighbors.map fun p => (p.1, (⊤ : WithTop ℚ))
      cameFrom := []
      openSet := []
      expanded := [] }
  let fStart : WithTop ℚ :=
    ((heuristic (mapGet positions start ⟨0, 0⟩) (mapGet positions goal ⟨0, 0⟩) : ℚ)
      : WithTop ℚ)
  let st : AStarState :=
    { init0 with
      gScore := mapSet init0.gScore start 0
      fScore := mapSet init0.fScore start fStart
      openSet := heapPush [] start fStart }
  let fuel := ((neighbors.map (fun p => p.2.length)).sum + 2) ^ 2 + 8
  aStarLoop neighbors goal positions fuel st

/-- AStar from graph_algorithms.go: returns (path, cost), with (nil, +Inf)
when the queue empties without reaching the goal. -/
def AStar (neighbors : List (Int × List Edge)) (start goal : Int)
    (positions : List (Int × Position)) : List Int × WithTop ℚ :=
  match (AStarRun neighbors start goal positions).1 with
  | some r => r
  | none => ([], ⊤)

/-- Recursive dfs of TopologicalSort: mark the node visited, recurse into
every not-yet-visited neighbor, then prepend the node to the result stack
(reverse postorder).  Fuel-indexed: dfs is only ever invoked on an unvisited
node and marks it at once, so the nesting depth never exceeds the number of
distinct ids reachable through the adjacency map; the fuel at the call site
exceeds that number. -/
def topoDfs (neighbors : List (Int × List Int)) :
    Nat → Int → List (Int × Bool) × List Int → List (Int × Bool) × List Int
  | 0, _, st => st
  | fuel + 1, node, st =>
    let st1 := (mapSet st.1 node true, st.2)
    let st2 := (mapGet neighbors node []).foldl
      (fun (acc : List (Int × Bool) × List Int) nb =>
        if mapGet acc.1 nb false then acc else topoDfs neighbors fuel nb acc)
      st1
    (st2.1, node :: st2.2)

/-- TopologicalSort from graph_algorithms.go: dfs over every unvisited node
in id order, collecting reverse postorder.  No cycle detection. -/
def TopologicalSort (neighbors : List (Int × List Int)) (numNodes : Int) :
    List Int :=
  let fuel := numNodes.toNat + (neighbors.map (fun p => p.2.length)).sum + 2
  let final := (List.range numNodes.toNat).foldl
    (fun (acc : List (Int × Bool) × List Int) i =>
      if mapGet acc.1 (i : Int) false then acc else topoDfs neighbors fuel (i : Int) acc)
    ([], [])
  final.2

/-- Union-find `find` with path compression, from Kruskal.  The parent array
is a slice indexed by node id; the chain from any node reaches a
self-parenting root in at most (array length) steps, which the fuel at the
call sites covers. -/
def ufFind : Nat → List Int → Int → List Int × Int
  | 0, parent, x => (parent, parent.getD x.toNat 0)
  | fuel + 1, parent, x =>
    let px := parent.getD x.toNat 0
    if px = x then (parent, x)
    else
      let (parent1, root) := ufFind fuel parent px
      (parent1.set x.toNat root, root)

/-- Union by rank from Kruskal: returns the updated parent and rank arrays
and whether a union happened (false when the endpoints were already in the
same component). -/
def ufUnion (parent rank : List Int) (x y : Int) :
    List Int × List Int × Bool :=
  let fuel := parent.length + 1
  let (parent1, px) := ufFind fuel parent x
  let (parent2, py) := ufFind fuel parent1 y
  if px = py then (parent2, rank, false)
  else
    let (px1, py1) :=
      if rank.getD px.toNat 0 < rank.getD py.toNat 0 then (py, px) else (px, py)
    let parent3 := parent2.set py1.toNat px1
    let rank1 :=
      if rank.getD px1.toNat 0 = rank.getD py1.toNat 0 then
        rank.set px1.toNat (rank.getD px1.toNat 0 + 1)
      else rank
    (parent3, rank1, true)

/-- The edge-sorting step of Kruskal.  The source calls sort.Slice on the
caller's slice (an in-place, unstable sort by ascending weight); it is
modelled by mergeSort, one specific weight-ascending permutation.  All
theorems below depend only on the result being a weight-ascending
permutation of the input, except concrete evaluations, which use pairwise
distinct weights so that every weight-ascending permutation coincides. -/
def kruskalSortedEdges (edges : List Edge) : List Edge :=
  edges.insertionSort (fun a b => a.Weight ≤ b.Weight)

/-- Acceptance loop of Kruskal over the sorted edges, stopping once
numNodes - 1 edges are accepted. -/
def kruskalLoop (numNodes : Int) :
    List Edge → List Int → List Int → List Edge → List Edge
  | [], _, _, mst => mst
  | e :: rest, parent, rank, mst =>
    let (parent1, rank1, ok) := ufUnion parent rank e.From e.To
    if ok then
      let mst1 := mst ++ [e]
      if (mst1.length : Int) = numNodes - 1 then mst1
      else kruskalLoop numNodes rest parent1 rank1 mst1
    else kruskalLoop numNodes rest parent1 rank1 mst

/-- Kruskal from graph_algorithms.go.  The returned value is the MST edge
list; the in-place reordering of the caller's edge slice is modelled
separately by kruskalSortedEdges (see StartKruskal). -/
def Kruskal (edges : List Edge) (numNodes : Int) : List Edge :=
  let parent0 := (List.range numNodes.toNat).map fun i => (i : Int)
  let rank0 := (List.range numNodes.toNat).map fun _ => (0 : Int)
  kruskalLoop numNodes (kruskalSortedEdges edges) parent0 rank0 []

/-- State threaded through Prim's main loop; `expanded` is the same
write-only ghost log as in DijkstraState. -/
structure PrimState where
  visited : List (Int × Bool)
  mst : List Edge
  pq : List PriorityQueueItem
  expanded : List Int
deriving DecidableEq, Repr

/-- Edge re-scan of Prim: find, among edges leaving an already-visited node,
the first one entering the popped node with exactly the popped weight.  The
source ranges over the visited map (whose iteration order Go leaves
unspecified); the insertion-ordered key list is used here, and no theorem
below depends on which matching edge is found. -/
def primFindEdge (neighbors : List (Int × List Edge)) (visitedKeys : List Int)
    (node : Int) (weight : WithTop ℚ) : Option Edge :=
  match visitedKeys with
  | [] => none
  | vn :: rest =>
    if vn = node then primFindEdge neighbors rest node weight
    else
      match (mapGet neighbors vn []).find?
          (fun e => e.To = node ∧ (e.Weight : WithTop ℚ) = weight) with
      | some e => some { From := vn, To := node, Weight := e.Weight }
      | none => primFindEdge neighbors rest node weight

/-- The push loop at the end of each Prim expansion: every edge of the newly
visited node whose other endpoint is not yet visited enters the queue. -/
def primPushEdges : List Edge → PrimState → PrimState
  | [], st => st
  | e :: rest, st =>
    if mapGet st.visited e.To false then primPushEdges rest st
    else primPushEdges rest { st with pq := heapPush st.pq e.To (e.Weight : WithTop ℚ) }

/-- Main loop of Prim (`for pq.Len() > 0 && len(mst) < numNodes-1`).  As in
Dijkstra, pops are bounded by pushes, and each node's edge list is pushed at
most once (only when the node is first visited), so the fuel at the call
site is never exhausted. -/
def primLoop (neighbors : List (Int × List Edge)) (numNodes : Int) :
    Nat → PrimState → PrimState
  | 0, st => st
  | fuel + 1, st =>
    if st.pq.isEmpty ∨ ¬ ((st.mst.length : Int) < numNodes - 1) then st
    else
      let node := (heapPop st.pq).1.Node
      let weight := (heapPop st.pq).1.Priority
      let st1 := { st with pq := (heapPop st.pq).2 }
      if mapGet st1.visited node false then primLoop neighbors numNodes fuel st1
      else
        let st2 := { st1 with
          visited := mapSet st1.visited node true
          expanded := st1.expanded ++ [node] }
        let st3 :=
          match primFindEdge neighbors (st2.visited.map Prod.fst) node weight with
          | some e => { st2 with mst := st2.mst ++ [e] }
          | none => st2
        primLoop neighbors numNodes fuel
          (primPushEdges (mapGet neighbors node []) st3)

/-- Full Prim state after running, used by theorems about the expansion
log. -/
def PrimRun (neighbors : List (Int × List Edge)) (numNodes : Int) : PrimState :=
  if numNodes = 0 then { visited := [], mst := [], pq := [], expanded := [] }
  else
    let st0 : PrimState :=
      { visited := mapSet [] 0 true
        mst := []
        pq := (mapGet neighbors 0 []).foldl
          (fun pq e => heapPush pq e.To (e.Weight : WithTop ℚ)) []
        expanded := [] }
    primLoop neighbors numNodes ((neighbors.map (fun p => p.2.length)).sum + 2) st0

/-- Prim from graph_algorithms.go: the MST edge list. -/
def Prim (neighbors : List (Int × List Edge)) (numNodes : Int) : List Edge :=
  (PrimRun neighbors numNodes).mst

/-- State threaded through Tarjan's strongConnect: running index, explicit
stack (top at the end), on-stack markers, discovery indices, lowlinks, and
the components emitted so far. -/
structure TarjanState where
  index : Int
  stack : List Int
  onStack : List (Int × Bool)
  indices : List (Int × Int)
  lowlinks : List (Int × Int)
  sccs : List (List Int)
deriving DecidableEq, Repr

/-- Pop loop of Tarjan: pop the stack down to and including v, unmarking
on-stack and collecting one component.  Fuel = stack length (v is on the
stack whenever the source reaches this loop). -/
def tarjanPopLoop (v : Int) :
    Nat → TarjanState → List Int → TarjanState × List Int
  | 0, st, scc => (st, scc)
  | fuel + 1, st, scc =>
    match st.stack.getLast? with
    | none => (st, scc)
    | some w =>
      let st1 := { st with
        stack := st.stack.dropLast
        onStack := mapSet st.onStack w false }
      let scc1 := scc ++ [w]
      if w = v then (st1, scc1) else tarjanPopLoop v fuel st1 scc1

/-- strongConnect of Tarjan.  Fuel-indexed recursion: strongConnect is only
invoked on nodes without a discovery index and assigns one immediately, so
the nesting depth never exceeds the number of distinct ids; the fuel at the
call site exceeds that number. -/
def strongConnect (neighbors : List (Int × List Int)) :
    Nat → Int → TarjanState → TarjanState
  | 0, _, st => st
  | fuel + 1, v, st =>
    let st1 := { st with
      indices := mapSet st.indices v st.index
      lowlinks := mapSet st.lowlinks v st.index
      index := st.index + 1
      stack := st.stack ++ [v]
      onStack := mapSet st.onStack v true }
    let st2 := (mapGet neighbors v []).foldl
      (fun (acc : TarjanState) w =>
        match mapFind acc.indices w with
        | none =>
          let acc1 := strongConnect neighbors fuel w acc
          if mapGet acc1.lowlinks w 0 < mapGet acc1.lowlinks v 0 then
            { acc1 with lowlinks := mapSet acc1.lowlinks v (mapGet acc1.lowlinks w 0) }
          else acc1
        | some wIndex =>
          if mapGet acc.onStack w false then
            if wIndex < mapGet acc.lowlinks v 0 then
              { acc with lowlinks := mapSet acc.lowlinks v wIndex }
            else acc
          else acc)
      st1
    if mapGet st2.lowlinks v 0 = mapGet st2.indices v 0 then
      let (st3, scc) := tarjanPopLoop v st2.stack.length st2 []
      { st3 with sccs := st3.sccs ++ [scc] }
    else st2

/-- Tarjan from graph_algorithms.go: strongConnect from every node without a
discovery index, in id order. -/
def Tarjan (neighbors : List (Int × List Int)) (numNodes : Int) :
    List (List Int) :=
  let fuel := numNodes.toNat + (neighbors.map (fun p => p.2.length)).sum + 2
  let final := (List.range numNodes.toNat).foldl
    (fun (st : TarjanState) (i : Nat) =>
      match mapFind st.indices (i : Int) with
      | none => strongConnect neighbors fuel (i : Int) st
      | some _ => st)
    { index := 0, stack := [], onStack := [], indices := [], lowlinks := [], sccs := [] }
  final.sccs

/-- First dfs pass of Kosaraju: push each node onto the finish stack (at the
end) after all its unvisited successors.  Same fuel discipline as topoDfs. -/
def kosarajuDfs1 (neighbors : List (Int × List Int)) :
    Nat → Int → List (Int × Bool) × List Int → List (Int × Bool) × List Int
  | 0, _, st => st
  | fuel + 1, v, st =>
    let st1 := (mapSet st.1 v true, st.2)
    let st2 := (mapGet neighbors v []).foldl
      (fun (acc : List (Int × Bool) × List Int) w =>
        if mapGet acc.1 w false then acc else kosarajuDfs1 neighbors fuel w acc)
      st1
    (st2.1, st2.2 ++ [v])

/-- Transpose construction of Kosaraju: empty lists for ids 0..numNodes-1,
then every edge reversed.  The source ranges over the adjacency map (order
unspecified in Go); insertion order is used here, which only affects the
order of entries inside the transposed lists. -/
def kosarajuTranspose (neighbors : List (Int × List Int)) (numNodes : Int) :
    List (Int × List Int) :=
  let t0 := (List.range numNodes.toNat).map fun i : Nat => ((i : Int), ([] : List Int))
  neighbors.foldl
    (fun t p =>
      p.2.foldl (fun t dst => mapSet t dst (mapGet t dst [] ++ [p.1])) t)
    t0

/-- Second dfs pass of Kosaraju, on the transpose, collecting one full
component. -/
def kosarajuDfs2 (transpose : List (Int × List Int)) :
    Nat → Int → List (Int × Bool) × List Int → List (Int × Bool) × List Int
  | 0, _, st => st
  | fuel + 1, v, st =>
    let st1 := (mapSet st.1 v true, st.2 ++ [v])
    (mapGet transpose v []).foldl
      (fun (acc : List (Int × Bool) × List Int) w =>
        if mapGet acc.1 w false then acc else kosarajuDfs2 transpose fuel w acc)
      st1

/-- Kosaraju from graph_algorithms.go: finish-order stack on the original
graph, then dfs on the transpose popping that stack (from its end). -/
def Kosaraju (neighbors : List (Int × List Int)) (numNodes : Int) :
    List (List Int) :=
  let fuel := numNodes.toNat + (neighbors.map (fun p => p.2.length)).sum + 2
  let pass1 := (List.range numNodes.toNat).foldl
    (fun (acc : List (Int × Bool) × List Int) (i : Nat) =>
      if mapGet acc.1 (i : Int) false then acc else kosarajuDfs1 neighbors fuel (i : Int) acc)
    ([], [])
  let transpose := kosarajuTranspose neighbors numNodes
  let final := pass1.2.reverse.foldl
    (fun (acc : List (Int × Bool) × List (List Int)) v =>
      if mapGet acc.1 v false then acc
      else
        let r := kosarajuDfs2 transpose fuel v (acc.1, [])
        (r.1, acc.2 ++ [r.2]))
    ([], [])
  final.2

/-- AVLNode from internal/algorithms/avl.go, as a value tree.  The Parent
back-reference is a navigation aid (derivable from the tree shape) and the
Position field is a display annotation; neither influences values, links,
or cached heights, which are what the claims concern, so both are omitted
from the embedding. -/
inductive AVLNode where
  | nil : AVLNode
  | node (Value : Int) (Left : AVLNode) (Right : AVLNode) (Height : Int) : AVLNode
deriving DecidableEq, Repr

/-- getHeight: 0 for nil, otherwise the cached Height field. -/
def getHeight : AVLNode → Int
  | .nil => 0
  | .node _ _ _ h => h

/-- getBalance: cached height of the left child minus that of the right. -/
def getBalance : AVLNode → Int
  | .nil => 0
  | .node _ l r _ => getHeight l - getHeight r

/-- Value stored at the root.  The source reads node.Value only on non-nil
nodes (a nil dereference would panic); the nil default is never reached from
the call sites under the tree invariant. -/
def rootValue : AVLNode → Int
  | .nil => 0
  | .node v _ _ _ => v

/-- rightRotate from avl.go: y with left child x; x.Right becomes y, y.Left
becomes x's old right subtree; y's height is recomputed first, then x's.
The source dereferences y.Left unconditionally; every call site passes a
node whose left child is non-nil, so the fallback case is unreachable. -/
def rightRotate : AVLNode → AVLNode
  | .node yv (.node xv xl xr _) yr _ =>
    let y1 := AVLNode.node yv xr yr (max (getHeight xr) (getHeight yr) + 1)
    AVLNode.node xv xl y1 (max (getHeight xl) (getHeight y1) + 1)
  | t => t

/-- leftRotate from avl.go, mirror image of rightRotate: x's height is
recomputed first, then y's. -/
def leftRotate : AVLNode → AVLNode
  | .node xv xl (.node yv yl yr _) _ =>
    let x1 := AVLNode.node xv xl yl (max (getHeight xl) (getHeight yl) + 1)
    AVLNode.node yv x1 yr (max (getHeight x1) (getHeight yr) + 1)
  | t => t

/-- The unwind portion of insertNode: recompute the height, read the balance
factor, and apply the LL / RR / LR / RL case determined by comparing the
inserted value with the child's value (the insert-side tie-break strategy of
the source).  In the LR and RL cases the node keeps the height computed
before its child was rotated, exactly as the source writes node.Height
before rotating. -/
def insertRebalance (v : Int) (l r : AVLNode) (value : Int) : AVLNode :=
  let h1 := 1 + max (getHeight l) (getHeight r)
  let balance := getHeight l - getHeight r
  if 1 < balance ∧ value < rootValue l then rightRotate (.node v l r h1)
  else if balance < -1 ∧ rootValue r < value then leftRotate (.node v l r h1)
  else if 1 < balance ∧ rootValue l < value then
    rightRotate (.node v (leftRotate l) r h1)
  else if balance < -1 ∧ value < rootValue r then
    leftRotate (.node v l (rightRotate r) h1)
  else .node v l r h1

/-- insertNode from avl.go: BST descent; duplicates are returned unchanged
(with their old cached height); on the unwind path the height is recomputed
and the tree rebalanced. -/
def insertNode : AVLNode → Int → AVLNode
  | .nil, value => .node value .nil .nil 1
  | .node v l r h, value =>
    if value < v then insertRebalance v (insertNode l value) r value
    else if v < value then insertRebalance v l (insertNode r value) value
    else .node v l r h

/-- getMinValueNode from avl.go: follow Left links to the leftmost node.
Only called on non-nil subtrees. -/
def getMinValueNode : AVLNode → AVLNode
  | .node v .nil r h => .node v .nil r h
  | .node _ l _ _ => getMinValueNode l
  | .nil => .nil

/-- The unwind portion of deleteNode: recompute the height, then apply the
case determined by the child's balance factor (the delete-side tie-break
strategy of the source): LL, LR, RR, RL in source order. -/
def deleteRebalance (v : Int) (l r : AVLNode) : AVLNode :=
  let h1 := 1 + max (getHeight l) (getHeight r)
  let balance := getHeight l - getHeight r
  if 1 < balance ∧ 0 ≤ getBalance l then rightRotate (.node v l r h1)
  else if 1 < balance ∧ getBalance l < 0 then
    rightRotate (.node v (leftRotate l) r h1)
  else if balance < -1 ∧ getBalance r ≤ 0 then leftRotate (.node v l r h1)
  else if balance < -1 ∧ 0 < getBalance r then
    leftRotate (.node v l (rightRotate r) h1)
  else .node v l r h1

/-- deleteNode from avl.go.  A node with at most one child is replaced by
that child directly (no rebalancing at this level, as in the source, whose
early return skips the unwind code); a node with two children takes the
in-order successor's value and deletes that value from the right subtree.
The source's `if node == nil` after the else-branch is dead code (the match
already guarantees a non-nil node) and has no counterpart here. -/
def deleteNode : AVLNode → Int → AVLNode
  | .nil, _ => .nil
  | .node v l r _, value =>
    if value < v then deleteRebalance v (deleteNode l value) r
    else if v < value then deleteRebalance v l (deleteNode r value)
    else
      match l, r with
      | .nil, _ => r
      | _, .nil => l
      | _, _ =>
        let m := rootValue (getMinValueNode r)
        deleteRebalance m l (deleteNode r m)

/-- searchNode from avl.go: recursive binary search; nil means not found. -/
def searchNode : AVLNode → Int → AVLNode
  | .nil, _ => .nil
  | .node v l r h, value =>
    if v = value then .node v l r h
    else if value < v then searchNode l value
    else searchNode r value

/-- AVLTree from avl.go: owns the root.  UpdatePositions is a coordinate
annotation for rendering and touches no modelled field. -/
structure AVLTree where
  Root : AVLNode
deriving DecidableEq, Repr

/-- NewAVLTree: the empty tree. -/
def NewAVLTree : AVLTree := { Root := .nil }

/-- AVLTree.Insert. -/
def AVLTree.Insert (t : AVLTree) (value : Int) : AVLTree :=
  { Root := insertNode t.Root value }

/-- AVLTree.Delete. -/
def AVLTree.Delete (t : AVLTree) (value : Int) : AVLTree :=
  { Root := deleteNode t.Root value }

/-- AVLTree.Search. -/
def AVLTree.Search (t : AVLTree) (value : Int) : AVLNode :=
  searchNode t.Root value

end algorithms

namespace graph

/-- Node from internal/graph/graph.go: position, adjacency, per-neighbor
weights. -/
structure Node where
  X : Int
  Y : Int
  Neighbors : List Int
  Weights : List ℚ
deriving DecidableEq, Repr

/-- Graph from internal/graph/graph.go.  NewRandomGraph and the JSON
persistence functions are randomness/IO collaborators and are not embedded;
concrete graphs are constructed directly in the theorems. -/
structure Graph where
  Nodes : List Node
  Edges : List (Int × Int)
  WeightedEdges : List algorithms.Edge
deriving DecidableEq, Repr

/-- The per-node body of GetWeightedNeighbors: one Edge per adjacency entry,
with weight defaulting to 1 when the Weights slice is shorter. -/
def nodeEdges (i : Int) (nd : Node) : List algorithms.Edge :=
  nd.Neighbors.enum.map fun p =>
    { From := i, To := p.2, Weight := nd.Weights.getD p.1 1 }

/-- GetWeightedNeighbors: the weighted adjacency map, one binding per node
index (the Go loop assigns each key exactly once, in index order). -/
def Graph.GetWeightedNeighbors (g : Graph) : List (Int × List algorithms.Edge) :=
  g.Nodes.enum.map fun p => ((p.1 : Int), nodeEdges (p.1 : Int) p.2)

/-- GetUnweightedNeighbors: the unweighted adjacency map. -/
def Graph.GetUnweightedNeighbors (g : Graph) : List (Int × List Int) :=
  g.Nodes.enum.map fun p => ((p.1 : Int), p.2.Neighbors)

/-- GetPositions: the position map consumed by the A* heuristic. -/
def Graph.GetPositions (g : Graph) : List (Int × algorithms.Position) :=
  g.Nodes.enum.map fun p => ((p.1 : Int), { X := p.2.X, Y := p.2.Y })

end graph

namespace simulator

open algorithms

/-- Simulator from internal/simulator (the full version with batch
algorithm results).  avlTree is a nilable pointer in the source, modelled
with Option. -/
structure Simulator where
  Graph : graph.Graph
  Order : List Int
  Queue : List Int
  Stack : List Int
  Visited : List (Int × Bool)
  Current : Int
  LastActive : Int
  Mode : TraversalMode
  Step : Int
  Done : Bool
  avlTree : Option AVLTree
  avlValue : Int
  avlAction : String
  ShortestPaths : List (Int × WithTop ℚ)
  Predecessors : List (Int × Int)
  Path : List Int
  MST : List Edge
  SCCs : List (List Int)
  TopOrder : List Int
deriving DecidableEq, Repr

/-- StartBFS: unconditionally switches to BFS mode with the frontier seeded
with the start id (no mode guard and no id validation appear in the
source). -/
def Simulator.StartBFS (s : Simulator) (start : Int) : Simulator :=
  { s with
    Mode := ModeBFS, Queue := [start], Stack := [], Order := []
    Visited := [], Current := -1, LastActive := -1, Done := false }

/-- StartDFS: as StartBFS with the stack seeded instead. -/
def Simulator.StartDFS (s : Simulator) (start : Int) : Simulator :=
  { s with
    Mode := ModeDFS, Stack := [start], Queue := [], Order := []
    Visited := [], Current := -1, LastActive := -1, Done := false }

/-- StartAVL: switches to AVL mode and creates a fresh empty tree. -/
def Simulator.StartAVL (s : Simulator) : Simulator :=
  { s with
    Mode := ModeAVL, Queue := [], Stack := [], Order := []
    Visited := [], Current := -1, LastActive := -1, Done := false
    avlTree := some NewAVLTree, avlValue := 0, avlAction := "insert" }

/-- StartDijkstra: switches mode, then runs Dijkstra synchronously over the
weighted adjacency view and stores the result maps, ending done. -/
def Simulator.StartDijkstra (s : Simulator) (source : Int) : Simulator :=
  let neighbors := s.Graph.GetWeightedNeighbors
  let result := Dijkstra neighbors source (s.Graph.Nodes.length : Int)
  { s with
    Mode := ModeDijkstra, Queue := [], Stack := [], Order := []
    Visited := [], Current := source, LastActive := -1
    ShortestPaths := result.1, Predecessors := result.2, Done := true }

/-- StartAStar: switches mode, runs A* synchronously, stores the path. -/
def Simulator.StartAStar (s : Simulator) (source goal : Int) : Simulator :=
  let neighbors := s.Graph.GetWeightedNeighbors
  let positions := s.Graph.GetPositions
  let result := AStar neighbors source goal positions
  { s with
    Mode := ModeAStar, Queue := [], Stack := [], Order := []
    Visited := [], Current := source, LastActive := -1
    Path := result.1, Done := true }

/-- StartTopological: switches mode, runs the sort synchronously. -/
def Simulator.StartTopological (s : Simulator) : Simulator :=
  let neighbors := s.Graph.GetUnweightedNeighbors
  { s with
    Mode := ModeTopological, Queue := [], Stack := [], Order := []
    Visited := [], Current := -1, LastActive := -1
    TopOrder := TopologicalSort neighbors (s.Graph.Nodes.length : Int)
    Done := true }

/-- StartKruskal: switches mode and runs Kruskal on the session's
WeightedEdges slice.  Kruskal's sort.Slice reorders that very slice in
place, so after the call the graph's WeightedEdges hold the weight-sorted
permutation; the embedding makes that aliasing explicit. -/
def Simulator.StartKruskal (s : Simulator) : Simulator :=
  let mst := Kruskal s.Graph.WeightedEdges (s.Graph.Nodes.length : Int)
  { s with
    Mode := ModeKruskal, Queue := [], Stack := [], Order := []
    Visited := [], Current := -1, LastActive := -1
    Graph := { s.Graph with WeightedEdges := kruskalSortedEdges s.Graph.WeightedEdges }
    MST := mst, Done := true }

/-- StartPrim: switches mode, runs Prim on a freshly built adjacency map. -/
def Simulator.StartPrim (s : Simulator) : Simulator :=
  let neighbors := s.Graph.GetWeightedNeighbors
  { s with
    Mode := ModePrim, Queue := [], Stack := [], Order := []
    Visited := [], Current := -1, LastActive := -1
    MST := Prim neighbors (s.Graph.Nodes.length : Int), Done := true }

/-- StartTarjan: switches mode, runs Tarjan synchronously. -/
def Simulator.StartTarjan (s : Simulator) : Simulator :=
  let neighbors := s.Graph.GetUnweightedNeighbors
  { s with
    Mode := ModeTarjan, Queue := [], Stack := [], Order := []
    Visited := [], Current := -1, LastActive := -1
    SCCs := Tarjan neighbors (s.Graph.Nodes.length : Int), Done := true }

/-- StartKosaraju: switches mode, runs Kosaraju synchronously. -/
def Simulator.StartKosaraju (s : Simulator) : Simulator :=
  let neighbors := s.Graph.GetUnweightedNeighbors
  { s with
    Mode := ModeKosaraju, Queue := [], Stack := [], Order := []
    Visited := [], Current := -1, LastActive := -1
    SCCs := Kosaraju neighbors (s.Graph.Nodes.length : Int), Done := true }

/-- Update from the simulator: one step of the selected algorithm.  The
source declares nextNode and isDone with Go zero values (0 and false); in
modes other than BFS/DFS/AVL neither is assigned, and in AVL mode only
isDone is set (to true) - the embedding reproduces those defaults exactly,
including the quirk that a nextNode of 0 is then treated as a visit. -/
def Simulator.Update (s : Simulator) : Simulator :=
  if s.Done ∨ s.Mode = ModeIdle then s
  else
    let neighbors := s.Graph.Nodes.enum.map fun p => ((p.1 : Int), p.2.Neighbors)
    let lastActive := s.Current
    let step :=
      if s.Mode = ModeBFS then
        let r := BFSStep s.Queue s.Visited neighbors
        (r.1, s.Stack, r.2.1, r.2.2)
      else if s.Mode = ModeDFS then
        let r := DFSStep s.Stack s.Visited neighbors
        (s.Queue, r.1, r.2.1, r.2.2)
      else if s.Mode = ModeAVL then
        (s.Queue, s.Stack, 0, true)
      else
        (s.Queue, s.Stack, 0, false)
    let s1 := { s with
      LastActive := lastActive, Queue := step.1, Stack := step.2.1
      Done := step.2.2.2 }
    if step.2.2.1 ≠ -1 then
      { s1 with
        Current := step.2.2.1
        Visited := mapSet s1.Visited step.2.2.1 true
        Order := s1.Order ++ [step.2.2.1] }
    else s1

/-- Reset from the simulator: back to Idle, clearing frontier, visited,
order and every batch result.  The AVL tree pointer is not touched by the
source and is preserved here. -/
def Simulator.Reset (s : Simulator) : Simulator :=
  { s with
    Mode := ModeIdle, Queue := [], Stack := [], Order := []
    Visited := [], Current := -1, LastActive := -1, Done := false
    ShortestPaths := [], Predecessors := [], Path := [], MST := []
    SCCs := [], TopOrder := [] }

/-- UpdateAVL recomputes on-screen coordinates of the AVL nodes (a display
annotation the spec excludes); it alters no field of the embedded state, so
it is the identity here. -/
def Simulator.UpdateAVL (s : Simulator) : Simulator := s

/-- InsertAVL: when no tree exists yet, StartAVL is called first (switching
the mode to AVL and creating the fresh empty tree); then the value is
inserted. -/
def Simulator.InsertAVL (s : Simulator) (value : Int) : Simulator :=
  let s1 := if s.avlTree = none then s.StartAVL else s
  match s1.avlTree with
  | some t => ({ s1 with avlTree := some (t.Insert value) }).UpdateAVL
  | none => s1

/-- DeleteAVL: a complete no-op when no tree exists. -/
def Simulator.DeleteAVL (s : Simulator) (value : Int) : Simulator :=
  match s.avlTree with
  | none => s
  | some t => ({ s with avlTree := some (t.Delete value) }).UpdateAVL

/-- SearchAVL: returns the found node, or nil both when the value is absent
and when no tree exists; the session state is not modified. -/
def Simulator.SearchAVL (s : Simulator) (value : Int) : AVLNode :=
  match s.avlTree with
  | none => .nil
  | some t => t.Search value

end simulator

open algorithms

/-- The session state NewSimulator builds, with the randomly generated graph
replaced by an explicit one (Go zero values for every field the constructor
does not list). -/
def blankSim (g : graph.Graph) : simulator.Simulator :=
  { Graph := g, Order := [], Queue := [], Stack := [], Visited := []
    Current := -1, LastActive := -1, Mode := ModeIdle, Step := 0, Done := false
    avlTree := none, avlValue := 0, avlAction := ""
    ShortestPaths := [], Predecessors := [], Path := [], MST := []
    SCCs := [], TopOrder := [] }

/-- Repeated stepping: apply Update n times. -/
def runTraversal : Nat → simulator.Simulator → simulator.Simulator
  | 0, s => s
  | n + 1, s => runTraversal n s.Update

/-- The five-node undirected example graph of the spec, with A..E as ids
0..4: adjacency A:[B,C], B:[A,D], C:[A,D], D:[B,C,E], E:[D]. -/
def sampleGraph5 : graph.Graph :=
  { Nodes :=
      [ { X := 0, Y := 0, Neighbors := [1, 2], Weights := [] }
      , { X := 0, Y := 0, Neighbors := [0, 3], Weights := [] }
      , { X := 0, Y := 0, Neighbors := [0, 3], Weights := [] }
      , { X := 0, Y := 0, Neighbors := [1, 2, 4], Weights := [] }
      , { X := 0, Y := 0, Neighbors := [3], Weights := [] } ]
    Edges := [], WeightedEdges := [] }

/-- The three-node weighted path graph 0 -(1)- 1 -(2)- 2, with both
directions materialized in the adjacency lists. -/
def pathGraph3 : graph.Graph :=
  { Nodes :=
      [ { X := 0, Y := 0, Neighbors := [1], Weights := [1] }
      , { X := 0, Y := 0, Neighbors := [0, 2], Weights := [1, 2] }
      , { X := 0, Y := 0, Neighbors := [1], Weights := [2] } ]
    Edges := [], WeightedEdges := [] }

/-- Looking up a key just written returns the written value. -/
theorem lookup_mapSet_self {α : Type} (m : List (Int × α)) (k : Int) (v : α) :
    (mapSet m k v).lookup k = some v := by
  induction m with
  | nil => simp [mapSet, List.lookup]
  | cons p rest ih =>
    rcases p with ⟨k0, v0⟩
    by_cases h : k0 = k
    · subst h
      simp [mapSet, List.lookup]
    · have hbeq : (k == k0) = false := beq_eq_false_iff_ne.mpr (Ne.symm h)
      simp [mapSet, h, List.lookup, hbeq, ih]

/-- Writing one key leaves lookups of any other key unchanged. -/
theorem lookup_mapSet_ne {α : Type} (m : List (Int × α)) (k x : Int) (v : α)
    (h : x ≠ k) : (mapSet m k v).lookup x = m.lookup x := by
  have hbeq : (x == k) = false := beq_eq_false_iff_ne.mpr h
  induction m with
  | nil => simp [mapSet, List.lookup, hbeq]
  | cons p rest ih =>
    rcases p with ⟨k0, v0⟩
    by_cases hk : k0 = k
    · subst hk
      simp [mapSet, List.lookup, hbeq]
    · by_cases hx : x = k0
      · subst hx
        simp [mapSet, hk, List.lookup]
      · have hbx : (x == k0) = false := beq_eq_false_iff_ne.mpr hx
        simp [mapSet, hk, List.lookup, hbx, ih]

/-- Reading a key just written returns the written value. -/
theorem mapGet_mapSet_self {α : Type} (m : List (Int × α)) (k : Int) (v d : α) :
    mapGet (mapSet m k v) k d = v := by
  simp [mapGet, lookup_mapSet_self]

/-- Writing one key leaves reads of any other key unchanged. -/
theorem mapGet_mapSet_ne {α : Type} (m : List (Int × α)) (k x : Int) (v d : α)
    (h : x ≠ k) : mapGet (mapSet m k v) x d = mapGet m x d := by
  simp [mapGet, lookup_mapSet_ne m k x v h]

/-- C5: On the five-node graph with adjacency A:[B,C], B:[A,D], C:[A,D],
D:[B,C,E], E:[D] (ids 0..4), repeatedly stepping BFS from A visits the
nodes in the order A, B, C, D, E, and repeatedly stepping DFS from A
(neighbors pushed in listed order, last pushed explored first) visits them
in the order A, C, D, E, B; both runs reach done. -/
theorem bfs_dfs_sample_orders :
    (runTraversal 10 ((blankSim sampleGraph5).StartBFS 0)).Order = [0, 1, 2, 3, 4] ∧
    (runTraversal 10 ((blankSim sampleGraph5).StartBFS 0)).Done = true ∧
    (runTraversal 10 ((blankSim sampleGraph5).StartDFS 0)).Order = [0, 2, 3, 4, 1] ∧
    (runTraversal 10 ((blankSim sampleGraph5).StartDFS 0)).Done = true := by
  decide

/-- C6: On the path graph 0 -(1)- 1 -(2)- 2, Dijkstra from source 0 returns
the distance map with 0 at 0, 1 at 1 and 3 at 2, and the predecessor map
with predecessor 0 for node 1 and predecessor 1 for node 2. -/
theorem dijkstra_path_graph :
    (Dijkstra pathGraph3.GetWeightedNeighbors 0 3).1.lookup 0 = some 0 ∧
    (Dijkstra pathGraph3.GetWeightedNeighbors 0 3).1.lookup 1 = some 1 ∧
    (Dijkstra pathGraph3.GetWeightedNeighbors 0 3).1.lookup 2 = some 3 ∧
    (Dijkstra pathGraph3.GetWeightedNeighbors 0 3).2.lookup 1 = some 0 ∧
    (Dijkstra pathGraph3.GetWeightedNeighbors 0 3).2.lookup 2 = some 1 := by
  with_unfolding_all decide

/-- A session that is busy in BFS mode, used to exhibit that StartX calls
are not guarded by the mode. -/
def busySim : simulator.Simulator :=
  { blankSim sampleGraph5 with Mode := ModeBFS, Queue := [0] }

/-- C1 counterexample: in a session whose mode is BFS (not Idle), StartDFS
is not a no-op - the state changes. -/
theorem start_in_busy_mode_not_noop :
    busySim.Mode ≠ ModeIdle ∧ busySim.StartDFS 0 ≠ busySim := by
  decide

/-- C1 amended: no StartX call consults the current mode.  Whatever the
session state, each StartX unconditionally reinitializes: the mode becomes
the algorithm's mode, the stepwise starters seed their frontier with done
false, StartAVL creates a fresh empty tree, and every batch starter runs its
algorithm at once, ending done. -/
theorem start_reinitializes_in_any_mode (s : simulator.Simulator)
    (src goal : Int) :
    (s.StartBFS src).Mode = ModeBFS ∧ (s.StartBFS src).Queue = [src] ∧
    (s.StartBFS src).Done = false ∧
    (s.StartDFS src).Mode = ModeDFS ∧ (s.StartDFS src).Stack = [src] ∧
    (s.StartDFS src).Done = false ∧
    s.StartAVL.Mode = ModeAVL ∧ s.StartAVL.avlTree = some NewAVLTree ∧
    (s.StartDijkstra src).Mode = ModeDijkstra ∧ (s.StartDijkstra src).Done = true ∧
    (s.StartAStar src goal).Mode = ModeAStar ∧ (s.StartAStar src goal).Done = true ∧
    s.StartTopological.Mode = ModeTopological ∧ s.StartTopological.Done = true ∧
    s.StartKruskal.Mode = ModeKruskal ∧ s.StartKruskal.Done = true ∧
    s.StartPrim.Mode = ModePrim ∧ s.StartPrim.Done = true ∧
    s.StartTarjan.Mode = ModeTarjan ∧ s.StartTarjan.Done = true ∧
    s.StartKosaraju.Mode = ModeKosaraju ∧ s.StartKosaraju.Done = true :=
  ⟨rfl, rfl, rfl, rfl, rfl, rfl, rfl, rfl, rfl, rfl, rfl,
   rfl, rfl, rfl, rfl, rfl, rfl, rfl, rfl, rfl, rfl, rfl⟩

/-- The weight-ascending order on edges used by Kruskal's sort is total. -/
instance : IsTotal Edge (fun a b => a.Weight ≤ b.Weight) :=
  ⟨fun a b => le_total a.Weight b.Weight⟩

/-- The weight-ascending order on edges used by Kruskal's sort is
transitive. -/
instance : IsTrans Edge (fun a b => a.Weight ≤ b.Weight) :=
  ⟨fun _ _ _ h1 h2 => le_trans h1 h2⟩

/-- A session over a three-node graph whose WeightedEdges are deliberately
not in weight order. -/
def kruskalSim : simulator.Simulator :=
  blankSim
    { Nodes :=
        [ { X := 0, Y := 0, Neighbors := [], Weights := [] }
        , { X := 0, Y := 0, Neighbors := [], Weights := [] }
        , { X := 0, Y := 0, Neighbors := [], Weights := [] } ]
      Edges := []
      WeightedEdges := [⟨0, 1, 3⟩, ⟨1, 2, 1⟩] }

/-- C2 counterexample: StartKruskal changes the order of the graph's
WeightedEdges slice (the in-place sort.Slice inside Kruskal reorders the
very slice the session owns): before the call the edges are
[(0,1,3), (1,2,1)], afterwards [(1,2,1), (0,1,3)]. -/
theorem kruskal_reorders_weighted_edges :
    kruskalSim.StartKruskal.Graph.WeightedEdges ≠
      kruskalSim.Graph.WeightedEdges ∧
    kruskalSim.Graph.WeightedEdges = [⟨0, 1, 3⟩, ⟨1, 2, 1⟩] ∧
    kruskalSim.StartKruskal.Graph.WeightedEdges = [⟨1, 2, 1⟩, ⟨0, 1, 3⟩] := by
  with_unfolding_all decide

/-- C2 amended: no algorithm invocation mutates the graph's node set, edge
multiset, or adjacency, and every StartX except StartKruskal leaves the
graph completely unchanged; StartKruskal alone permutes the WeightedEdges
slice into weight-ascending order (the in-place sort), preserving it as a
multiset. -/
theorem algorithms_preserve_graph_except_kruskal_order
    (s : simulator.Simulator) (src goal : Int) :
    (s.StartBFS src).Graph = s.Graph ∧
    (s.StartDFS src).Graph = s.Graph ∧
    s.StartAVL.Graph = s.Graph ∧
    (s.StartDijkstra src).Graph = s.Graph ∧
    (s.StartAStar src goal).Graph = s.Graph ∧
    s.StartTopological.Graph = s.Graph ∧
    s.StartPrim.Graph = s.Graph ∧
    s.StartTarjan.Graph = s.Graph ∧
    s.StartKosaraju.Graph = s.Graph ∧
    s.StartKruskal.Graph.Nodes = s.Graph.Nodes ∧
    s.StartKruskal.Graph.Edges = s.Graph.Edges ∧
    s.StartKruskal.Graph.WeightedEdges.Perm s.Graph.WeightedEdges ∧
    List.Sorted (fun a b : Edge => a.Weight ≤ b.Weight)
      s.StartKruskal.Graph.WeightedEdges := by
  refine ⟨rfl, rfl, rfl, rfl, rfl, rfl, rfl, rfl, rfl, rfl, rfl, ?_, ?_⟩
  · exact List.perm_insertionSort _ _
  · exact List.sorted_insertionSort _ _

/-- A session over a two-node graph (one edge of weight 1), used with
deliberately out-of-range ids. -/
def twoNodeSim : simulator.Simulator :=
  blankSim
    { Nodes :=
        [ { X := 0, Y := 0, Neighbors := [1], Weights := [1] }
        , { X := 0, Y := 0, Neighbors := [0], Weights := [1] } ]
      Edges := [], WeightedEdges := [] }

/-- C9 counterexample: the out-of-range id 5 on a two-node graph raises no
condition anywhere.  StartDijkstra 5 switches the mode, invokes Dijkstra
with source 5 (the id even enters the stored distance map with distance 0),
and completes; StartBFS 5 seeds the frontier with 5 and stepping then
"visits" 5.  No InvalidNode condition exists in the session state. -/
theorem out_of_range_id_reaches_algorithm :
    (twoNodeSim.StartDijkstra 5).Mode = ModeDijkstra ∧
    (twoNodeSim.StartDijkstra 5).Done = true ∧
    (twoNodeSim.StartDijkstra 5).ShortestPaths.lookup 5 = some 0 ∧
    (twoNodeSim.StartBFS 5).Queue = [5] ∧
    (runTraversal 2 (twoNodeSim.StartBFS 5)).Order = [5] ∧
    (runTraversal 2 (twoNodeSim.StartBFS 5)).Done = true := by
  with_unfolding_all decide

/-- C9 amended: the orchestrator performs no validation of externally
supplied ids.  Every StartX accepts any id unchanged: the stepwise starters
put it straight into the frontier, and the batch starters pass it straight
into the algorithm, whose Go-map accesses treat an unknown id as an isolated
node rather than failing. -/
theorem startx_no_id_validation (s : simulator.Simulator) (src goal : Int) :
    (s.StartBFS src).Queue = [src] ∧
    (s.StartBFS src).Mode = ModeBFS ∧
    (s.StartDFS src).Stack = [src] ∧
    (s.StartDijkstra src).ShortestPaths =
      (Dijkstra s.Graph.GetWeightedNeighbors src (s.Graph.Nodes.length : Int)).1 ∧
    (s.StartDijkstra src).Predecessors =
      (Dijkstra s.Graph.GetWeightedNeighbors src (s.Graph.Nodes.length : Int)).2 ∧
    (s.StartAStar src goal).Path =
      (AStar s.Graph.GetWeightedNeighbors src goal s.Graph.GetPositions).1 :=
  ⟨rfl, rfl, rfl, rfl, rfl, rfl⟩

/-- C10: when no AVL tree exists, InsertAVL implicitly starts an AVL session
(fresh empty tree, mode switched to AVL) and then inserts the value, while
DeleteAVL is a complete no-op and SearchAVL returns the not-found result
without creating a tree. -/
theorem avl_implicit_start (s : simulator.Simulator) (v : Int)
    (h : s.avlTree = none) :
    s.InsertAVL v = { s.StartAVL with avlTree := some (NewAVLTree.Insert v) } ∧
    (s.InsertAVL v).Mode = ModeAVL ∧
    (s.InsertAVL v).avlTree = some { Root := AVLNode.node v .nil .nil 1 } ∧
    s.DeleteAVL v = s ∧
    s.SearchAVL v = AVLNode.nil := by
  refine ⟨?_, ?_, ?_, ?_, ?_⟩ <;>
    simp [simulator.Simulator.InsertAVL, simulator.Simulator.DeleteAVL,
      simulator.Simulator.SearchAVL, simulator.Simulator.UpdateAVL, h,
      simulator.Simulator.StartAVL, AVLTree.Insert, NewAVLTree, insertNode]

/-- C10 witness: the theorem applied to a concrete session with no tree and
the value 7. -/
theorem avl_implicit_start_witness :
    (blankSim sampleGraph5).InsertAVL 7 =
      { (blankSim sampleGraph5).StartAVL with
        avlTree := some (NewAVLTree.Insert 7) } ∧
    ((blankSim sampleGraph5).InsertAVL 7).Mode = ModeAVL ∧
    ((blankSim sampleGraph5).InsertAVL 7).avlTree =
      some { Root := AVLNode.node 7 .nil .nil 1 } ∧
    (blankSim sampleGraph5).DeleteAVL 7 = blankSim sampleGraph5 ∧
    (blankSim sampleGraph5).SearchAVL 7 = AVLNode.nil :=
  avl_implicit_start (blankSim sampleGraph5) 7 rfl

/-- C3: case analysis of one BFS/DFS step.  An empty frontier yields done
with no node reported and no other change; removing an already-visited id
reports no node, leaves done false, and changes neither visited set nor
order (a skip step); otherwise the removed node is reported, marked visited
and appended to the discovery order, and exactly the neighbors not in the
visited set are pushed - with no check against the frontier itself, so the
same id can occupy the frontier twice (final conjuncts).  Node ids are
non-negative (dense ids in [0,n)), which keeps them distinct from the -1
no-node sentinel in the Update-level parts. -/
theorem traversal_step_cases :
    (∀ v nb, BFSStep [] v nb = ([], -1, true)) ∧
    (∀ v nb, DFSStep [] v nb = ([], -1, true)) ∧
    (∀ x q v nb, mapGet v x false = true →
      BFSStep (x :: q) v nb = (q, -1, false)) ∧
    (∀ x q v nb, mapGet v x false = true →
      DFSStep (q ++ [x]) v nb = (q, -1, false)) ∧
    (∀ x q v nb, mapGet v x false = false →
      BFSStep (x :: q) v nb =
        (q ++ (mapGet nb x []).filter (fun y => !mapGet v y false), x, false)) ∧
    (∀ x q v nb, mapGet v x false = false →
      DFSStep (q ++ [x]) v nb =
        (q ++ (mapGet nb x []).filter (fun y => !mapGet v y false), x, false)) ∧
    (∀ s : simulator.Simulator, s.Done = false → s.Mode = ModeBFS →
      s.Queue = [] →
      s.Update.Done = true ∧ s.Update.Order = s.Order ∧
        s.Update.Visited = s.Visited) ∧
    (∀ s : simulator.Simulator, s.Done = false → s.Mode = ModeDFS →
      s.Stack = [] →
      s.Update.Done = true ∧ s.Update.Order = s.Order ∧
        s.Update.Visited = s.Visited) ∧
    (∀ (s : simulator.Simulator) x q, s.Done = false → s.Mode = ModeBFS →
      s.Queue = x :: q → mapGet s.Visited x false = true →
      s.Update.Done = false ∧ s.Update.Order = s.Order ∧
        s.Update.Visited = s.Visited ∧ s.Update.Queue = q) ∧
    (∀ (s : simulator.Simulator) x q, s.Done = false → s.Mode = ModeDFS →
      s.Stack = q ++ [x] → mapGet s.Visited x false = true →
      s.Update.Done = false ∧ s.Update.Order = s.Order ∧
        s.Update.Visited = s.Visited ∧ s.Update.Stack = q) ∧
    (∀ (s : simulator.Simulator) x q, s.Done = false → s.Mode = ModeBFS →
      s.Queue = x :: q → mapGet s.Visited x false = false → 0 ≤ x →
      s.Update.Done = false ∧ s.Update.Order = s.Order ++ [x] ∧
        s.Update.Visited = mapSet s.Visited x true ∧
        mapGet s.Update.Visited x false = true ∧
        s.Update.Queue =
          q ++ (mapGet s.Graph.GetUnweightedNeighbors x []).filter
            (fun y => !mapGet s.Visited y false)) ∧
    (∀ (s : simulator.Simulator) x q, s.Done = false → s.Mode = ModeDFS →
      s.Stack = q ++ [x] → mapGet s.Visited x false = false → 0 ≤ x →
      s.Update.Done = false ∧ s.Update.Order = s.Order ++ [x] ∧
        s.Update.Visited = mapSet s.Visited x true ∧
        mapGet s.Update.Visited x false = true ∧
        s.Update.Stack =
          q ++ (mapGet s.Graph.GetUnweightedNeighbors x []).filter
            (fun y => !mapGet s.Visited y false)) ∧
    (BFSStep [2, 3] [(0, true), (1, true)] [(2, [0, 3])]).1 = [3, 3] ∧
    ¬ (BFSStep [2, 3] [(0, true), (1, true)] [(2, [0, 3])]).1.Nodup ∧
    (DFSStep [3, 2] [(0, true), (1, true)] [(2, [0, 3])]).1 = [3, 3] ∧
    ¬ (DFSStep [3, 2] [(0, true), (1, true)] [(2, [0, 3])]).1.Nodup := by
  refine ⟨fun v nb => rfl, fun v nb => rfl, ?_, ?_, ?_, ?_, ?_, ?_, ?_, ?_,
    ?_, ?_, by decide, by decide, by decide, by decide⟩
  · intro x q v nb h
    simp [BFSStep, h]
  · intro x q v nb h
    simp [DFSStep, List.getLast?_concat, List.dropLast_concat, h]
  · intro x q v nb h
    simp [BFSStep, h]
  · intro x q v nb h
    simp [DFSStep, List.getLast?_concat, List.dropLast_concat, h]
  · intro s h1 h2 h3
    refine ⟨?_, ?_, ?_⟩ <;>
      simp [simulator.Simulator.Update, h1, h2, h3, BFSStep]
  · intro s h1 h2 h3
    refine ⟨?_, ?_, ?_⟩ <;>
      simp [simulator.Simulator.Update, h1, h2, h3, DFSStep]
  · intro s x q h1 h2 h3 h4
    refine ⟨?_, ?_, ?_, ?_⟩ <;>
      simp [simulator.Simulator.Update, h1, h2, h3, h4, BFSStep]
  · intro s x q h1 h2 h3 h4
    refine ⟨?_, ?_, ?_, ?_⟩ <;>
      simp [simulator.Simulator.Update, h1, h2, h3, h4, DFSStep,
        List.getLast?_concat, List.dropLast_concat]
  · intro s x q h1 h2 h3 h4 h5
    have hx : ¬ x = -1 := by omega
    refine ⟨?_, ?_, ?_, ?_, ?_⟩ <;>
      simp [simulator.Simulator.Update, h1, h2, h3, h4, hx, BFSStep,
        graph.Graph.GetUnweightedNeighbors, mapGet_mapSet_self]
  · intro s x q h1 h2 h3 h4 h5
    have hx : ¬ x = -1 := by omega
    refine ⟨?_, ?_, ?_, ?_, ?_⟩ <;>
      simp [simulator.Simulator.Update, h1, h2, h3, h4, hx, DFSStep,
        graph.Graph.GetUnweightedNeighbors, mapGet_mapSet_self,
        List.getLast?_concat, List.dropLast_concat]

/-- A BFS-mode session whose frontier is empty. -/
def emptyBfsSim : simulator.Simulator :=
  { blankSim sampleGraph5 with Mode := ModeBFS, Queue := [], Order := [0, 1] }

/-- A DFS-mode session whose frontier is empty. -/
def emptyDfsSim : simulator.Simulator :=
  { blankSim sampleGraph5 with Mode := ModeDFS, Stack := [], Order := [0, 1] }

/-- A BFS-mode session about to dequeue an already-visited id. -/
def skipBfsSim : simulator.Simulator :=
  { blankSim sampleGraph5 with
    Mode := ModeBFS, Queue := [0, 3], Visited := [(0, true)], Order := [0, 1] }

/-- A DFS-mode session about to pop an already-visited id. -/
def skipDfsSim : simulator.Simulator :=
  { blankSim sampleGraph5 with
    Mode := ModeDFS, Stack := [3, 0], Visited := [(0, true)], Order := [0, 1] }

/-- A BFS-mode session about to dequeue the unvisited id 2 (whose neighbors
are 0, visited, and 3, already queued). -/
def bfsMidSim : simulator.Simulator :=
  { blankSim sampleGraph5 with
    Mode := ModeBFS, Queue := [2, 3], Visited := [(0, true), (1, true)]
    Order := [0, 1] }

/-- A DFS-mode session about to pop the unvisited id 2. -/
def dfsMidSim : simulator.Simulator :=
  { blankSim sampleGraph5 with
    Mode := ModeDFS, Stack := [3, 2], Visited := [(0, true), (1, true)]
    Order := [0, 1] }

/-- C3 witness: every hypothesized case of traversal_step_cases applied at a
concrete input - skip steps, visit steps with their frontier push (showing
the duplicate id 3 entering the queue/stack), and empty-frontier steps. -/
theorem traversal_step_cases_witness :
    BFSStep [0] [(0, true)] [] = ([], -1, false) ∧
    DFSStep [0] [(0, true)] [] = ([], -1, false) ∧
    BFSStep [2, 3] [(0, true), (1, true)] [(2, [0, 3])] = ([3, 3], 2, false) ∧
    DFSStep [3, 2] [(0, true), (1, true)] [(2, [0, 3])] = ([3, 3], 2, false) ∧
    emptyBfsSim.Update.Done = true ∧
    emptyDfsSim.Update.Done = true ∧
    skipBfsSim.Update.Order = [0, 1] ∧
    skipDfsSim.Update.Order = [0, 1] ∧
    bfsMidSim.Update.Order = [0, 1, 2] ∧
    bfsMidSim.Update.Queue = [3, 3] ∧
    mapGet bfsMidSim.Update.Visited 2 false = true ∧
    dfsMidSim.Update.Order = [0, 1, 2] ∧
    dfsMidSim.Update.Stack = [3, 3] ∧
    mapGet dfsMidSim.Update.Visited 2 false = true := by
  obtain ⟨-, -, h3, h4, h5, h6, h7, h8, h9, h10, h11, h12, -⟩ :=
    traversal_step_cases
  refine ⟨h3 0 [] [(0, true)] [] (by decide),
    h4 0 [] [(0, true)] [] (by decide),
    (h5 2 [3] [(0, true), (1, true)] [(2, [0, 3])] (by decide)).trans (by decide),
    (h6 2 [3] [(0, true), (1, true)] [(2, [0, 3])] (by decide)).trans (by decide),
    (h7 emptyBfsSim (by decide) (by decide) (by decide)).1,
    (h8 emptyDfsSim (by decide) (by decide) (by decide)).1,
    ((h9 skipBfsSim 0 [3] (by decide) (by decide) (by decide) (by decide)).2.1).trans
      (by decide),
    ((h10 skipDfsSim 0 [3] (by decide) (by decide) (by decide) (by decide)).2.1).trans
      (by decide),
    ?_, ?_, ?_, ?_, ?_, ?_⟩
  · exact ((h11 bfsMidSim 2 [3] (by decide) (by decide) (by decide) (by decide)
      (by decide)).2.1).trans (by decide)
  · exact ((h11 bfsMidSim 2 [3] (by decide) (by decide) (by decide) (by decide)
      (by decide)).2.2.2.2).trans (by decide)
  · exact (h11 bfsMidSim 2 [3] (by decide) (by decide) (by decide) (by decide)
      (by decide)).2.2.2.1
  · exact ((h12 dfsMidSim 2 [3] (by decide) (by decide) (by decide) (by decide)
      (by decide)).2.1).trans (by decide)
  · exact ((h12 dfsMidSim 2 [3] (by decide) (by decide) (by decide) (by decide)
      (by decide)).2.2.2.2).trans (by decide)
  · exact (h12 dfsMidSim 2 [3] (by decide) (by decide) (by decide) (by decide)
      (by decide)).2.2.2.1

/-- Relaxation touches only dist, prev and the queue: the visited set and
the expansion log are unchanged. -/
theorem dijkstraRelaxEdges_fields (cur : Int) :
    ∀ (edges : List Edge) (st : DijkstraState),
      (dijkstraRelaxEdges cur edges st).visited = st.visited ∧
      (dijkstraRelaxEdges cur edges st).expanded = st.expanded := by
  intro edges
  induction edges with
  | nil => exact fun st => ⟨rfl, rfl⟩
  | cons e rest ih =>
    intro st
    simp only [dijkstraRelaxEdges]
    split
    · exact ih st
    · split
      · exact ih _
      · exact ih st

/-- Prim's push loop touches only the queue. -/
theorem primPushEdges_fields :
    ∀ (edges : List Edge) (st : PrimState),
      (primPushEdges edges st).visited = st.visited ∧
      (primPushEdges edges st).expanded = st.expanded := by
  intro edges
  induction edges with
  | nil => exact fun st => ⟨rfl, rfl⟩
  | cons e rest ih =>
    intro st
    simp only [primPushEdges]
    split
    · exact ih st
    · exact ih _

/-- Invariant of Dijkstra's main loop: the expansion log stays duplicate-free
and every logged node stays marked visited. -/
theorem dijkstraLoop_inv (neighbors : List (Int × List Edge)) :
    ∀ (fuel : Nat) (st : DijkstraState),
      st.expanded.Nodup →
      (∀ x ∈ st.expanded, mapGet st.visited x false = true) →
      (dijkstraLoop neighbors fuel st).expanded.Nodup ∧
      (∀ x ∈ (dijkstraLoop neighbors fuel st).expanded,
        mapGet (dijkstraLoop neighbors fuel st).visited x false = true) := by
  intro fuel
  induction fuel with
  | zero => exact fun st h1 h2 => ⟨h1, h2⟩
  | succ n ih =>
    intro st h1 h2
    simp only [dijkstraLoop]
    split
    · exact ⟨h1, h2⟩
    · split
      · exact ih _ h1 h2
      · rename_i hvis
        rw [Bool.not_eq_true] at hvis
        set nd := (heapPop st.pq).1.Node with hnd
        have hnotin : nd ∉ st.expanded := fun hmem => by
          have := h2 nd hmem
          rw [this] at hvis
          exact absurd hvis (by decide)
        have h1' : (st.expanded ++ [nd]).Nodup := by
          rw [List.nodup_append]
          exact ⟨h1, List.nodup_singleton nd,
            fun a ha hb => by
              rw [List.mem_singleton] at hb
              exact hnotin (hb ▸ ha)⟩
        have h2' : ∀ x ∈ st.expanded ++ [nd],
            mapGet (mapSet st.visited nd true) x false = true := by
          intro x hx
          rcases List.mem_append.mp hx with hx | hx
          · by_cases hxe : x = nd
            · rw [hxe, mapGet_mapSet_self]
            · rw [mapGet_mapSet_ne _ _ _ _ _ hxe]
              exact h2 x hx
          · rw [List.mem_singleton] at hx
            rw [hx, mapGet_mapSet_self]
        obtain ⟨hv, he⟩ := dijkstraRelaxEdges_fields nd
          (mapGet neighbors nd [])
          { st with
            pq := (heapPop st.pq).2
            visited := mapSet st.visited nd true
            expanded := st.expanded ++ [nd] }
        have := ih (dijkstraRelaxEdges nd (mapGet neighbors nd [])
          { st with
            pq := (heapPop st.pq).2
            visited := mapSet st.visited nd true
            expanded := st.expanded ++ [nd] })
        rw [hv, he] at this
        exact this h1' h2'

/-- Invariant of Prim's main loop: the expansion log stays duplicate-free
and every logged node stays marked visited. -/
theorem primLoop_inv (neighbors : List (Int × List Edge)) (numNodes : Int) :
    ∀ (fuel : Nat) (st : PrimState),
      st.expanded.Nodup →
      (∀ x ∈ st.expanded, mapGet st.visited x false = true) →
      (primLoop neighbors numNodes fuel st).expanded.Nodup ∧
      (∀ x ∈ (primLoop neighbors numNodes fuel st).expanded,
        mapGet (primLoop neighbors numNodes fuel st).visited x false = true) := by
  intro fuel
  induction fuel with
  | zero => exact fun st h1 h2 => ⟨h1, h2⟩
  | succ n ih =>
    intro st h1 h2
    simp only [primLoop]
    split
    · exact ⟨h1, h2⟩
    · split
      · exact ih _ h1 h2
      · rename_i hvis
        rw [Bool.not_eq_true] at hvis
        set nd := (heapPop st.pq).1.Node with hnd
        have hnotin : nd ∉ st.expanded := fun hmem => by
          have := h2 nd hmem
          rw [this] at hvis
          exact absurd hvis (by decide)
        have h1' : (st.expanded ++ [nd]).Nodup := by
          rw [List.nodup_append]
          exact ⟨h1, List.nodup_singleton nd,
            fun a ha hb => by
              rw [List.mem_singleton] at hb
              exact hnotin (hb ▸ ha)⟩
        have h2' : ∀ x ∈ st.expanded ++ [nd],
            mapGet (mapSet st.visited nd true) x false = true := by
          intro x hx
          rcases List.mem_append.mp hx with hx | hx
          · by_cases hxe : x = nd
            · rw [hxe, mapGet_mapSet_self]
            · rw [mapGet_mapSet_ne _ _ _ _ _ hxe]
              exact h2 x hx
          · rw [List.mem_singleton] at hx
            rw [hx, mapGet_mapSet_self]
        set st2 : PrimState :=
          { st with
            pq := (heapPop st.pq).2
            visited := mapSet st.visited nd true
            expanded := st.expanded ++ [nd] } with hst2
        have hst3 : ∀ st3 : PrimState,
            st3.visited = st2.visited → st3.expanded = st2.expanded →
            (primLoop neighbors numNodes n (primPushEdges (mapGet neighbors nd []) st3)).expanded.Nodup ∧
            (∀ x ∈ (primLoop neighbors numNodes n (primPushEdges (mapGet neighbors nd []) st3)).expanded,
              mapGet (primLoop neighbors numNodes n (primPushEdges (mapGet neighbors nd []) st3)).visited x false = true) := by
          intro st3 hv3 he3
          obtain ⟨hv, he⟩ := primPushEdges_fields (mapGet neighbors nd []) st3
          have := ih (primPushEdges (mapGet neighbors nd []) st3)
          rw [hv, he, hv3, he3] at this
          exact this h1' h2'
        split
        · exact hst3 _ rfl rfl
        · exact hst3 _ rfl rfl

/-- C8 amended: in Dijkstra and Prim every entry popped from the priority
queue whose node is already visited is skipped with no state change beyond
the pop itself, so no node is ever expanded more than once (the expansion
log of any run is duplicate-free).  A* is NOT covered: it keeps no visited
set (see the counterexample theorem, where a node is expanded twice). -/
theorem dijkstra_prim_no_reexpansion :
    (∀ (neighbors : List (Int × List Edge)) (source numNodes : Int),
      (DijkstraRun neighbors source numNodes).expanded.Nodup) ∧
    (∀ (neighbors : List (Int × List Edge)) (numNodes : Int),
      (PrimRun neighbors numNodes).expanded.Nodup) ∧
    (∀ (neighbors : List (Int × List Edge)) (fuel : Nat) (st : DijkstraState),
      st.pq ≠ [] →
      mapGet st.visited (heapPop st.pq).1.Node false = true →
      dijkstraLoop neighbors (fuel + 1) st =
        dijkstraLoop neighbors fuel { st with pq := (heapPop st.pq).2 }) ∧
    (∀ (neighbors : List (Int × List Edge)) (numNodes : Int) (fuel : Nat)
      (st : PrimState),
      st.pq ≠ [] →
      (st.mst.length : Int) < numNodes - 1 →
      mapGet st.visited (heapPop st.pq).1.Node false = true →
      primLoop neighbors numNodes (fuel + 1) st =
        primLoop neighbors numNodes fuel { st with pq := (heapPop st.pq).2 }) := by
  refine ⟨?_, ?_, ?_, ?_⟩
  · intro neighbors source numNodes
    simp only [DijkstraRun]
    exact (dijkstraLoop_inv neighbors _ _ List.nodup_nil (by simp)).1
  · intro neighbors numNodes
    simp only [PrimRun]
    split
    · exact List.nodup_nil
    · exact (primLoop_inv neighbors numNodes _ _ List.nodup_nil (by simp)).1
  · intro neighbors fuel st hne hvis
    have hempty : st.pq.isEmpty = false := by
      cases h : st.pq with
      | nil => exact absurd h hne
      | cons a t => rfl
    simp only [dijkstraLoop, hempty]
    simp [hvis]
  · intro neighbors numNodes fuel st hne hlen hvis
    have hempty : st.pq.isEmpty = false := by
      cases h : st.pq with
      | nil => exact absurd h hne
      | cons a t => rfl
    simp only [primLoop, hempty]
    simp [hvis, hlen]

/-- A one-item queue whose node is already visited, for the Dijkstra skip
witness. -/
def dijkstraSkipState : DijkstraState :=
  { dist := [], prev := [], visited := [(0, true)]
    pq := [{ Node := 0, Priority := 0, Index := 0 }], expanded := [] }

/-- A one-item queue whose node is already visited, for the Prim skip
witness. -/
def primSkipState : PrimState :=
  { visited := [(0, true)], mst := []
    pq := [{ Node := 0, Priority := 0, Index := 0 }], expanded := [] }

/-- C8 witness: the skip equations applied to concrete one-item queues whose
head is already visited, and the duplicate-freedom statements applied to the
concrete path-graph run. -/
theorem dijkstra_prim_no_reexpansion_witness :
    (DijkstraRun pathGraph3.GetWeightedNeighbors 0 3).expanded.Nodup ∧
    (PrimRun pathGraph3.GetWeightedNeighbors 3).expanded.Nodup ∧
    dijkstraLoop [] 1 dijkstraSkipState =
      dijkstraLoop [] 0
        { dijkstraSkipState with pq := (heapPop dijkstraSkipState.pq).2 } ∧
    primLoop [] 3 1 primSkipState =
      primLoop [] 3 0 { primSkipState with pq := (heapPop primSkipState.pq).2 } :=
  ⟨dijkstra_prim_no_reexpansion.1 pathGraph3.GetWeightedNeighbors 0 3,
   dijkstra_prim_no_reexpansion.2.1 pathGraph3.GetWeightedNeighbors 3,
   dijkstra_prim_no_reexpansion.2.2.1 [] 0 dijkstraSkipState (by decide)
     (by with_unfolding_all decide),
   dijkstra_prim_no_reexpansion.2.2.2 [] 3 0 primSkipState (by decide)
     (by decide) (by with_unfolding_all decide)⟩

/-- Adjacency for the A* re-expansion counterexample: 0 reaches 1 directly
(weight 10) and via 2 (total weight 2); the goal id 3 does not exist, so the
search drains the queue. -/
def astarDupNbrs : List (Int × List Edge) :=
  [(0, [⟨0, 1, 10⟩, ⟨0, 2, 1⟩]), (1, []), (2, [⟨2, 1, 1⟩])]

/-- All nodes at the same position, so the Euclidean heuristic is exactly
0 everywhere (sqrt 0 = 0 exactly, also in float64). -/
def astarDupPos : List (Int × Position) :=
  [(0, ⟨0, 0⟩), (1, ⟨0, 0⟩), (2, ⟨0, 0⟩)]

/-- C8 counterexample: A* pops are not filtered against any visited set.
On the concrete graph above, node 1 is pushed twice (first with f = 10, then
with the better f = 2) and both entries are popped and expanded, so the
expansion log is 0, 2, 1, 1 - node 1 is expanded twice, refuting the claim
for the A* member of the "all three heap-consuming algorithms" statement. -/
theorem astar_reexpands_node :
    (AStarRun astarDupNbrs 0 3 astarDupPos).2.expanded = [0, 2, 1, 1] ∧
    ¬ (AStarRun astarDupNbrs 0 3 astarDupPos).2.expanded.Nodup := by
  with_unfolding_all decide

/-- True height of a tree (nil has height 0), independent of the caches. -/
def heightI : AVLNode → Int
  | .nil => 0
  | .node _ l r _ => 1 + max (heightI l) (heightI r)

/-- Every cached Height field equals 1 + max of the children's cached
heights (hence, recursively, the true height). -/
def HeightsOK : AVLNode → Prop
  | .nil => True
  | .node _ l r h => h = 1 + max (getHeight l) (getHeight r) ∧ HeightsOK l ∧ HeightsOK r

/-- Every node's subtrees differ in true height by at most 1. -/
def BalancedOK : AVLNode → Prop
  | .nil => True
  | .node _ l r _ => |heightI l - heightI r| ≤ 1 ∧ BalancedOK l ∧ BalancedOK r

/-- In-order traversal of the values. -/
def inorder : AVLNode → List Int
  | .nil => []
  | .node v l r _ => inorder l ++ v :: inorder r

/-- Structural BST ordering: left values below the root value, right values
above, recursively. -/
def IsBST : AVLNode → Prop
  | .nil => True
  | .node v l r _ =>
    (∀ y ∈ inorder l, y < v) ∧ (∀ y ∈ inorder r, v < y) ∧ IsBST l ∧ IsBST r

/-- The full AVL invariant of the claim: correct caches, height balance,
BST ordering. -/
def Avl (t : AVLNode) : Prop := HeightsOK t ∧ BalancedOK t ∧ IsBST t

/-- True height of the left child (0 for nil or a leaf slot). -/
def leftH : AVLNode → Int
  | .nil => 0
  | .node _ l _ _ => heightI l

/-- True height of the right child. -/
def rightH : AVLNode → Int
  | .nil => 0
  | .node _ _ r _ => heightI r

theorem heightI_nonneg : ∀ t : AVLNode, 0 ≤ heightI t
  | .nil => le_refl 0
  | .node _ l r _ => by
    have := heightI_nonneg l
    simp only [heightI]
    omega

theorem heightI_pos_ne_nil {t : AVLNode} (h : 0 < heightI t) : t ≠ AVLNode.nil := by
  intro hnil
  rw [hnil] at h
  simp [heightI] at h

/-- Under correct caches the cached height is the true height. -/
theorem getHeight_eq : ∀ t : AVLNode, HeightsOK t → getHeight t = heightI t
  | .nil, _ => rfl
  | .node v l r h, hok => by
    obtain ⟨hh, hl, hr⟩ := hok
    show h = heightI (AVLNode.node v l r h)
    rw [hh, getHeight_eq l hl, getHeight_eq r hr]
    rfl

/-- Structural BST ordering is the same thing as a sorted in-order
traversal. -/
theorem isBST_iff_pairwise :
    ∀ t : AVLNode, IsBST t ↔ (inorder t).Pairwise (· < ·)
  | .nil => by simp [IsBST, inorder]
  | .node v l r h => by
    simp only [IsBST, inorder, List.pairwise_append, List.pairwise_cons,
      isBST_iff_pairwise l, isBST_iff_pairwise r]
    constructor
    · rintro ⟨hlv, hrv, hl, hr⟩
      refine ⟨hl, ⟨fun y hy => hrv y hy, hr⟩, ?_⟩
      intro a ha b hb
      rcases List.mem_cons.mp hb with hb | hb
      · exact hb ▸ hlv a ha
      · exact lt_trans (hlv a ha) (hrv b hb)
    · rintro ⟨hl, ⟨hrv, hr⟩, hcross⟩
      exact ⟨fun y hy => hcross y hy v (List.mem_cons_self v _),
        hrv, hl, hr⟩

/-- Rotations do not change the in-order traversal. -/
theorem inorder_rightRotate : ∀ t : AVLNode, inorder (rightRotate t) = inorder t
  | .nil => rfl
  | .node v .nil r h => rfl
  | .node v (.node lv ll lr hl) r h => by
    simp [rightRotate, inorder, List.append_assoc]

/-- Rotations do not change the in-order traversal. -/
theorem inorder_leftRotate : ∀ t : AVLNode, inorder (leftRotate t) = inorder t
  | .nil => rfl
  | .node v l .nil h => rfl
  | .node v l (.node rv rl rr hr) h => by
    simp [leftRotate, inorder, List.append_assoc]

/-- Explicit form of a right rotation on a node with non-nil left child. -/
theorem rightRotate_node (v lv : Int) (ll lr r : AVLNode) (hl hcache : Int) :
    rightRotate (.node v (.node lv ll lr hl) r hcache) =
      .node lv ll (.node v lr r (max (getHeight lr) (getHeight r) + 1))
        (max (getHeight ll) (max (getHeight lr) (getHeight r) + 1) + 1) := by
  simp [rightRotate, getHeight]

/-- Explicit form of a left rotation on a node with non-nil right child. -/
theorem leftRotate_node (v rv : Int) (l rl rr : AVLNode) (hr hcache : Int) :
    leftRotate (.node v l (.node rv rl rr hr) hcache) =
      .node rv (.node v l rl (max (getHeight l) (getHeight rl) + 1)) rr
        (max (max (getHeight l) (getHeight rl) + 1) (getHeight rr) + 1) := by
  simp [leftRotate, getHeight]

/-- Single right rotation repair: for a node whose left subtree is exactly
two levels taller than the right one and leans left (or is even), the right
rotation restores the AVL shape; the height lands in [r+2, r+3], exactly
r+2 under a strict lean, and the in-order traversal is unchanged. -/
theorem rightRotate_single_spec
    (v lv : Int) (ll lr r : AVLNode) (hl hcache : Int)
    (hok : HeightsOK (.node lv ll lr hl)) (hokr : HeightsOK r)
    (hbal : BalancedOK (.node lv ll lr hl)) (hbalr : BalancedOK r)
    (hbst : IsBST (.node v (.node lv ll lr hl) r hcache))
    (hgap : heightI (.node lv ll lr hl) = heightI r + 2)
    (htilt : heightI lr ≤ heightI ll) :
    Avl (rightRotate (.node v (.node lv ll lr hl) r hcache)) ∧
    heightI r + 2 ≤ heightI (rightRotate (.node v (.node lv ll lr hl) r hcache)) ∧
    heightI (rightRotate (.node v (.node lv ll lr hl) r hcache)) ≤ heightI r + 3 ∧
    (heightI lr < heightI ll →
      heightI (rightRotate (.node v (.node lv ll lr hl) r hcache)) =
        heightI r + 2) ∧
    inorder (rightRotate (.node v (.node lv ll lr hl) r hcache)) =
      inorder (.node v (.node lv ll lr hl) r hcache) := by
  obtain ⟨hcacheL, hokll, hoklr⟩ := hok
  obtain ⟨hball, hballl, hballr⟩ := hbal
  rw [abs_le] at hball
  have ega : getHeight ll = heightI ll := getHeight_eq ll hokll
  have egb : getHeight lr = heightI lr := getHeight_eq lr hoklr
  have egc : getHeight r = heightI r := getHeight_eq r hokr
  have hinor : inorder (rightRotate (.node v (.node lv ll lr hl) r hcache)) =
      inorder (.node v (.node lv ll lr hl) r hcache) :=
    inorder_rightRotate _
  have hbst2 : IsBST (rightRotate (.node v (.node lv ll lr hl) r hcache)) := by
    rw [isBST_iff_pairwise, hinor, ← isBST_iff_pairwise]
    exact hbst
  simp only [heightI] at hgap
  rw [rightRotate_node]
  rw [rightRotate_node] at hbst2
  refine ⟨⟨?_, ?_, hbst2⟩, ?_, ?_, ?_, hinor⟩
  · simp only [HeightsOK, getHeight, ega, egb, egc]
    exact ⟨by omega, hokll, by omega, hoklr, hokr⟩
  · simp only [BalancedOK, heightI]
    refine ⟨?_, hballl, ?_, hballr, hbalr⟩ <;>
      · rw [abs_le]
        omega
  · simp only [heightI]
    omega
  · simp only [heightI]
    omega
  · intro hstrict
    simp only [heightI]
    omega

/-- Single left rotation repair, mirror of rightRotate_single_spec. -/
theorem leftRotate_single_spec
    (v rv : Int) (l rl rr : AVLNode) (hr hcache : Int)
    (hok : HeightsOK (.node rv rl rr hr)) (hokl : HeightsOK l)
    (hbal : BalancedOK (.node rv rl rr hr)) (hball : BalancedOK l)
    (hbst : IsBST (.node v l (.node rv rl rr hr) hcache))
    (hgap : heightI (.node rv rl rr hr) = heightI l + 2)
    (htilt : heightI rl ≤ heightI rr) :
    Avl (leftRotate (.node v l (.node rv rl rr hr) hcache)) ∧
    heightI l + 2 ≤ heightI (leftRotate (.node v l (.node rv rl rr hr) hcache)) ∧
    heightI (leftRotate (.node v l (.node rv rl rr hr) hcache)) ≤ heightI l + 3 ∧
    (heightI rl < heightI rr →
      heightI (leftRotate (.node v l (.node rv rl rr hr) hcache)) =
        heightI l + 2) ∧
    inorder (leftRotate (.node v l (.node rv rl rr hr) hcache)) =
      inorder (.node v l (.node rv rl rr hr) hcache) := by
  obtain ⟨hcacheR, hokrl, hokrr⟩ := hok
  obtain ⟨hbalr, hbalrl, hbalrr⟩ := hbal
  rw [abs_le] at hbalr
  have ega : getHeight rl = heightI rl := getHeight_eq rl hokrl
  have egb : getHeight rr = heightI rr := getHeight_eq rr hokrr
  have egc : getHeight l = heightI l := getHeight_eq l hokl
  have hinor : inorder (leftRotate (.node v l (.node rv rl rr hr) hcache)) =
      inorder (.node v l (.node rv rl rr hr) hcache) :=
    inorder_leftRotate _
  have hbst2 : IsBST (leftRotate (.node v l (.node rv rl rr hr) hcache)) := by
    rw [isBST_iff_pairwise, hinor, ← isBST_iff_pairwise]
    exact hbst
  simp only [heightI] at hgap
  rw [leftRotate_node]
  rw [leftRotate_node] at hbst2
  refine ⟨⟨?_, ?_, hbst2⟩, ?_, ?_, ?_, hinor⟩
  · simp only [HeightsOK, getHeight, ega, egb, egc]
    exact ⟨by omega, ⟨by omega, hokl, hokrl⟩, hokrr⟩
  · simp only [BalancedOK, heightI]
    refine ⟨?_, ⟨?_, hball, hbalrl⟩, hbalrr⟩ <;>
      · rw [abs_le]
        omega
  · simp only [heightI]
    omega
  · simp only [heightI]
    omega
  · intro hstrict
    simp only [heightI]
    omega

/-- Left-right double rotation repair: left subtree two levels taller and
leaning right; rotate the left child left, then the node right.  The result
is AVL with height exactly r+2 and unchanged in-order traversal. -/
theorem rightRotate_double_spec
    (v lv w : Int) (ll d e r : AVLNode) (hl he hcache : Int)
    (hok : HeightsOK (.node lv ll (.node w d e he) hl)) (hokr : HeightsOK r)
    (hbal : BalancedOK (.node lv ll (.node w d e he) hl)) (hbalr : BalancedOK r)
    (hbst : IsBST (.node v (.node lv ll (.node w d e he) hl) r hcache))
    (hgap : heightI (.node lv ll (.node w d e he) hl) = heightI r + 2)
    (htilt : heightI ll < heightI (.node w d e he)) :
    Avl (rightRotate
      (.node v (leftRotate (.node lv ll (.node w d e he) hl)) r hcache)) ∧
    heightI (rightRotate
      (.node v (leftRotate (.node lv ll (.node w d e he) hl)) r hcache)) =
      heightI r + 2 ∧
    inorder (rightRotate
      (.node v (leftRotate (.node lv ll (.node w d e he) hl)) r hcache)) =
      inorder (.node v (.node lv ll (.node w d e he) hl) r hcache) := by
  obtain ⟨hcacheL, hokll, hcacheM, hokd, hoke⟩ := hok
  obtain ⟨hball, hballl, hbalm, hbald, hbale⟩ := hbal
  rw [abs_le] at hball hbalm
  have ega : getHeight ll = heightI ll := getHeight_eq ll hokll
  have egd : getHeight d = heightI d := getHeight_eq d hokd
  have ege : getHeight e = heightI e := getHeight_eq e hoke
  have egc : getHeight r = heightI r := getHeight_eq r hokr
  simp only [heightI] at hball
  have hinor : inorder (rightRotate
      (.node v (leftRotate (.node lv ll (.node w d e he) hl)) r hcache)) =
      inorder (.node v (.node lv ll (.node w d e he) hl) r hcache) := by
    rw [inorder_rightRotate]
    show inorder (leftRotate (.node lv ll (.node w d e he) hl)) ++ _ = _
    rw [inorder_leftRotate]
    rfl
  have hbst2 : IsBST (rightRotate
      (.node v (leftRotate (.node lv ll (.node w d e he) hl)) r hcache)) := by
    rw [isBST_iff_pairwise, hinor, ← isBST_iff_pairwise]
    exact hbst
  simp only [heightI] at hgap htilt
  rw [leftRotate_node, rightRotate_node]
  rw [leftRotate_node, rightRotate_node] at hbst2
  refine ⟨⟨?_, ?_, hbst2⟩, ?_, hinor⟩
  · simp only [HeightsOK, getHeight, ega, egd, ege, egc]
    exact ⟨by omega, ⟨by omega, hokll, hokd⟩, by omega, hoke, hokr⟩
  · simp only [BalancedOK, heightI]
    refine ⟨?_, ⟨?_, hballl, hbald⟩, ?_, hbale, hbalr⟩ <;>
      · rw [abs_le]
        omega
  · simp only [heightI]
    omega

/-- Right-left double rotation repair, mirror of rightRotate_double_spec. -/
theorem leftRotate_double_spec
    (v rv w : Int) (l d e rr : AVLNode) (hr he hcache : Int)
    (hok : HeightsOK (.node rv (.node w d e he) rr hr)) (hokl : HeightsOK l)
    (hbal : BalancedOK (.node rv (.node w d e he) rr hr)) (hball : BalancedOK l)
    (hbst : IsBST (.node v l (.node rv (.node w d e he) rr hr) hcache))
    (hgap : heightI (.node rv (.node w d e he) rr hr) = heightI l + 2)
    (htilt : heightI rr < heightI (.node w d e he)) :
    Avl (leftRotate
      (.node v l (rightRotate (.node rv (.node w d e he) rr hr)) hcache)) ∧
    heightI (leftRotate
      (.node v l (rightRotate (.node rv (.node w d e he) rr hr)) hcache)) =
      heightI l + 2 ∧
    inorder (leftRotate
      (.node v l (rightRotate (.node rv (.node w d e he) rr hr)) hcache)) =
      inorder (.node v l (.node rv (.node w d e he) rr hr) hcache) := by
  obtain ⟨hcacheR, ⟨hcacheM, hokd, hoke⟩, hokrr⟩ := hok
  obtain ⟨hbalr, ⟨hbalm, hbald, hbale⟩, hbalrr⟩ := hbal
  rw [abs_le] at hbalr hbalm
  simp only [heightI] at hbalr
  have egd : getHeight d = heightI d := getHeight_eq d hokd
  have ege : getHeight e = heightI e := getHeight_eq e hoke
  have egrr : getHeight rr = heightI rr := getHeight_eq rr hokrr
  have egl : getHeight l = heightI l := getHeight_eq l hokl
  have hinor : inorder (leftRotate
      (.node v l (rightRotate (.node rv (.node w d e he) rr hr)) hcache)) =
      inorder (.node v l (.node rv (.node w d e he) rr hr) hcache) := by
    rw [inorder_leftRotate]
    show _ ++ v :: inorder (rightRotate (.node rv (.node w d e he) rr hr)) = _
    rw [inorder_rightRotate]
    rfl
  have hbst2 : IsBST (leftRotate
      (.node v l (rightRotate (.node rv (.node w d e he) rr hr)) hcache)) := by
    rw [isBST_iff_pairwise, hinor, ← isBST_iff_pairwise]
    exact hbst
  simp only [heightI] at hgap htilt
  rw [rightRotate_node, leftRotate_node]
  rw [rightRotate_node, leftRotate_node] at hbst2
  refine ⟨⟨?_, ?_, hbst2⟩, ?_, hinor⟩
  · simp only [HeightsOK, getHeight, egd, ege, egrr, egl]
    exact ⟨by omega, ⟨by omega, hokl, hokd⟩, by omega, hoke, hokrr⟩
  · simp only [BalancedOK, heightI]
    refine ⟨?_, ⟨?_, hball, hbald⟩, ?_, hbale, hbalrr⟩ <;>
      · rw [abs_le]
        omega
  · simp only [heightI]
    omega

/-- Behaviour of the insert unwind step when the value went into the left
subtree: given the recursive call's result l' (already AVL, height grown by
at most one over the old height a, with the tilt information supplied by the
induction hypothesis), the rebalanced node is AVL, its height is the old
node height or one more, the in-order traversal is the expected
concatenation, and growth can only happen without rotation. -/
theorem insertRebalance_left_spec (value v : Int) (l' r : AVLNode) (a : Int)
    (hokl' : HeightsOK l') (hokr : HeightsOK r)
    (hball' : BalancedOK l') (hbalr : BalancedOK r)
    (hbstl' : IsBST l') (hbstr : IsBST r)
    (hAllLt : ∀ y ∈ inorder l', y < v)
    (hAllGt : ∀ y ∈ inorder r, v < y)
    (ha1 : a ≤ heightI l') (ha2 : heightI l' ≤ a + 1)
    (hbal0 : -1 ≤ a - heightI r ∧ a - heightI r ≤ 1)
    (hvlt : value < v)
    (htiltIH : heightI l' = a + 1 →
      (value < rootValue l' → leftH l' = rightH l' + 1) ∧
      (rootValue l' < value → rightH l' = leftH l' + 1) ∧
      (value = rootValue l' → heightI l' = 1)) :
    Avl (insertRebalance v l' r value) ∧
    1 + max a (heightI r) ≤ heightI (insertRebalance v l' r value) ∧
    heightI (insertRebalance v l' r value) ≤ 1 + max a (heightI r) + 1 ∧
    inorder (insertRebalance v l' r value) = inorder l' ++ v :: inorder r ∧
    (heightI (insertRebalance v l' r value) = 1 + max a (heightI r) + 1 →
      heightI l' = heightI r + 1 ∧
      insertRebalance v l' r value =
        .node v l' r (1 + max (getHeight l') (getHeight r))) := by
  have egl' : getHeight l' = heightI l' := getHeight_eq _ hokl'
  have egr : getHeight r = heightI r := getHeight_eq _ hokr
  have hrnn : 0 ≤ heightI r := heightI_nonneg r
  by_cases hb2 : 1 < heightI l' - heightI r
  · -- imbalance: the left subtree grew to r + 2
    have ha' : heightI l' = heightI r + 2 := by omega
    have hgrow : heightI l' = a + 1 := by omega
    obtain ⟨tilt1, tilt2, tilt3⟩ := htiltIH hgrow
    cases l' with
    | nil => simp [heightI] at ha'; omega
    | node lv' ll' lr' hlc =>
      have hllnn : 0 ≤ heightI ll' := heightI_nonneg ll'
      have hlrnn : 0 ≤ heightI lr' := heightI_nonneg lr'
      rcases lt_trichotomy value lv' with hvl | hvl | hvl
      · -- LL case: single right rotation
        have htl : heightI ll' = heightI lr' + 1 := tilt1 hvl
        have hc1 : 1 < getHeight (AVLNode.node lv' ll' lr' hlc) - getHeight r ∧
            value < rootValue (AVLNode.node lv' ll' lr' hlc) :=
          ⟨by rw [egl', egr]; omega, hvl⟩
        simp only [insertRebalance]
        rw [if_pos hc1]
        obtain ⟨havl, hge, hle2, hstrict, hinor⟩ :=
          rightRotate_single_spec v lv' ll' lr' r hlc
            (1 + max (getHeight (AVLNode.node lv' ll' lr' hlc)) (getHeight r))
            hokl' hokr hball' hbalr
            ⟨hAllLt, hAllGt, hbstl', hbstr⟩ ha' (by omega)
        have hexact := hstrict (by omega)
        refine ⟨havl, ?_, ?_, ?_, ?_⟩
        · omega
        · omega
        · rw [hinor]; rfl
        · intro hgg
          exfalso
          simp only [heightI] at ha'
          omega
      · -- duplicate root of l' is impossible when the subtree grew this tall
        exfalso
        have hone := tilt3 hvl
        simp only [heightI] at hone ha'
        omega
      · -- LR case: double rotation
        have htl : heightI lr' = heightI ll' + 1 := tilt2 hvl
        cases lr' with
        | nil => simp [heightI] at htl; omega
        | node w d e he =>
          have hc1 : ¬(1 < getHeight (AVLNode.node lv' ll' (.node w d e he) hlc) -
              getHeight r ∧ value < rootValue (AVLNode.node lv' ll' (.node w d e he) hlc)) := by
            rintro ⟨-, hcon⟩
            simp only [rootValue] at hcon
            omega
          have hc2 : ¬(getHeight (AVLNode.node lv' ll' (.node w d e he) hlc) -
              getHeight r < -1 ∧ rootValue r < value) := by
            rintro ⟨hcon, -⟩
            rw [egl', egr] at hcon
            omega
          have hc3 : 1 < getHeight (AVLNode.node lv' ll' (.node w d e he) hlc) -
              getHeight r ∧ rootValue (AVLNode.node lv' ll' (.node w d e he) hlc) < value :=
            ⟨by rw [egl', egr]; omega, hvl⟩
          simp only [insertRebalance]
          rw [if_neg hc1, if_neg hc2, if_pos hc3]
          obtain ⟨havl, hexact, hinor⟩ :=
            rightRotate_double_spec v lv' w ll' d e r hlc he
              (1 + max (getHeight (AVLNode.node lv' ll' (.node w d e he) hlc)) (getHeight r))
              hokl' hokr hball' hbalr
              ⟨hAllLt, hAllGt, hbstl', hbstr⟩ ha'
              (by simp only [heightI] at htl ⊢; omega)
          refine ⟨havl, ?_, ?_, ?_, ?_⟩
          · omega
          · omega
          · rw [hinor]; rfl
          · intro hgg
            exfalso
            simp only [heightI] at ha'
            omega
  · -- no rotation needed
    have hc1 : ¬(1 < getHeight l' - getHeight r ∧ value < rootValue l') := by
      rintro ⟨hcon, -⟩
      rw [egl', egr] at hcon
      omega
    have hc2 : ¬(getHeight l' - getHeight r < -1 ∧ rootValue r < value) := by
      rintro ⟨hcon, -⟩
      rw [egl', egr] at hcon
      omega
    have hc3 : ¬(1 < getHeight l' - getHeight r ∧ rootValue l' < value) := by
      rintro ⟨hcon, -⟩
      rw [egl', egr] at hcon
      omega
    have hc4 : ¬(getHeight l' - getHeight r < -1 ∧ value < rootValue r) := by
      rintro ⟨hcon, -⟩
      rw [egl', egr] at hcon
      omega
    simp only [insertRebalance]
    rw [if_neg hc1, if_neg hc2, if_neg hc3, if_neg hc4]
    refine ⟨⟨⟨rfl, hokl', hokr⟩, ?_, hAllLt, hAllGt, hbstl', hbstr⟩, ?_, ?_, rfl, ?_⟩
    · simp only [BalancedOK]
      exact ⟨by rw [abs_le]; omega, hball', hbalr⟩
    · simp only [heightI]
      omega
    · simp only [heightI]
      omega
    · intro hgg
      simp only [heightI] at hgg
      exact ⟨by omega, rfl⟩

/-- Mirror of insertRebalance_left_spec: the value went into the right
subtree. -/
theorem insertRebalance_right_spec (value v : Int) (l r' : AVLNode) (c : Int)
    (hokl : HeightsOK l) (hokr' : HeightsOK r')
    (hball : BalancedOK l) (hbalr' : BalancedOK r')
    (hbstl : IsBST l) (hbstr' : IsBST r')
    (hAllLt : ∀ y ∈ inorder l, y < v)
    (hAllGt : ∀ y ∈ inorder r', v < y)
    (hc1' : c ≤ heightI r') (hc2' : heightI r' ≤ c + 1)
    (hbal0 : -1 ≤ heightI l - c ∧ heightI l - c ≤ 1)
    (hvgt : v < value)
    (htiltIH : heightI r' = c + 1 →
      (value < rootValue r' → leftH r' = rightH r' + 1) ∧
      (rootValue r' < value → rightH r' = leftH r' + 1) ∧
      (value = rootValue r' → heightI r' = 1)) :
    Avl (insertRebalance v l r' value) ∧
    1 + max (heightI l) c ≤ heightI (insertRebalance v l r' value) ∧
    heightI (insertRebalance v l r' value) ≤ 1 + max (heightI l) c + 1 ∧
    inorder (insertRebalance v l r' value) = inorder l ++ v :: inorder r' ∧
    (heightI (insertRebalance v l r' value) = 1 + max (heightI l) c + 1 →
      heightI r' = heightI l + 1 ∧
      insertRebalance v l r' value =
        .node v l r' (1 + max (getHeight l) (getHeight r'))) := by
  have egl : getHeight l = heightI l := getHeight_eq _ hokl
  have egr' : getHeight r' = heightI r' := getHeight_eq _ hokr'
  have hlnn : 0 ≤ heightI l := heightI_nonneg l
  by_cases hb2 : heightI r' - heightI l > 1
  · -- imbalance: the right subtree grew to l + 2
    have hr2 : heightI r' = heightI l + 2 := by omega
    have hgrow : heightI r' = c + 1 := by omega
    obtain ⟨tilt1, tilt2, tilt3⟩ := htiltIH hgrow
    cases r' with
    | nil => simp [heightI] at hr2; omega
    | node rv' rl' rr' hrc =>
      have hrlnn : 0 ≤ heightI rl' := heightI_nonneg rl'
      have hrrnn : 0 ≤ heightI rr' := heightI_nonneg rr'
      rcases lt_trichotomy value rv' with hvr | hvr | hvr
      · -- RL case: double rotation
        have htr : heightI rl' = heightI rr' + 1 := tilt1 hvr
        cases rl' with
        | nil => simp [heightI] at htr; omega
        | node w d e he =>
          have hc1 : ¬(1 < getHeight l - getHeight (AVLNode.node rv' (.node w d e he) rr' hrc) ∧
              value < rootValue l) := by
            rintro ⟨hcon, -⟩
            rw [egl, egr'] at hcon
            omega
          have hc2 : ¬(getHeight l - getHeight (AVLNode.node rv' (.node w d e he) rr' hrc) < -1 ∧
              rootValue (AVLNode.node rv' (.node w d e he) rr' hrc) < value) := by
            rintro ⟨-, hcon⟩
            simp only [rootValue] at hcon
            omega
          have hc3 : ¬(1 < getHeight l - getHeight (AVLNode.node rv' (.node w d e he) rr' hrc) ∧
              rootValue l < value) := by
            rintro ⟨hcon, -⟩
            rw [egl, egr'] at hcon
            omega
          have hc4 : getHeight l - getHeight (AVLNode.node rv' (.node w d e he) rr' hrc) < -1 ∧
              value < rootValue (AVLNode.node rv' (.node w d e he) rr' hrc) :=
            ⟨by rw [egl, egr']; omega, hvr⟩
          simp only [insertRebalance]
          rw [if_neg hc1, if_neg hc2, if_neg hc3, if_pos hc4]
          obtain ⟨havl, hexact, hinor⟩ :=
            leftRotate_double_spec v rv' w l d e rr' hrc he
              (1 + max (getHeight l) (getHeight (AVLNode.node rv' (.node w d e he) rr' hrc)))
              hokr' hokl hbalr' hball
              ⟨hAllLt, hAllGt, hbstl, hbstr'⟩ hr2
              (by simp only [heightI] at htr ⊢; omega)
          refine ⟨havl, ?_, ?_, ?_, ?_⟩
          · omega
          · omega
          · rw [hinor]; rfl
          · intro hgg
            exfalso
            simp only [heightI] at hr2
            omega
      · -- duplicate root of r' is impossible when the subtree grew this tall
        exfalso
        have hone := tilt3 hvr
        simp only [heightI] at hone hr2
        omega
      · -- RR case: single left rotation
        have htr : heightI rr' = heightI rl' + 1 := tilt2 hvr
        have hc1 : ¬(1 < getHeight l - getHeight (AVLNode.node rv' rl' rr' hrc) ∧
            value < rootValue l) := by
          rintro ⟨hcon, -⟩
          rw [egl, egr'] at hcon
          omega
        have hc2 : getHeight l - getHeight (AVLNode.node rv' rl' rr' hrc) < -1 ∧
            rootValue (AVLNode.node rv' rl' rr' hrc) < value :=
          ⟨by rw [egl, egr']; omega, hvr⟩
        simp only [insertRebalance]
        rw [if_neg hc1, if_pos hc2]
        obtain ⟨havl, hge, hle2, hstrict, hinor⟩ :=
          leftRotate_single_spec v rv' l rl' rr' hrc
            (1 + max (getHeight l) (getHeight (AVLNode.node rv' rl' rr' hrc)))
            hokr' hokl hbalr' hball
            ⟨hAllLt, hAllGt, hbstl, hbstr'⟩ hr2 (by omega)
        have hexact := hstrict (by omega)
        refine ⟨havl, ?_, ?_, ?_, ?_⟩
        · omega
        · omega
        · rw [hinor]; rfl
        · intro hgg
          exfalso
          simp only [heightI] at hr2
          omega
  · -- no rotation needed
    have hc1 : ¬(1 < getHeight l - getHeight r' ∧ value < rootValue l) := by
      rintro ⟨hcon, -⟩
      rw [egl, egr'] at hcon
      omega
    have hc2 : ¬(getHeight l - getHeight r' < -1 ∧ rootValue r' < value) := by
      rintro ⟨hcon, -⟩
      rw [egl, egr'] at hcon
      omega
    have hc3 : ¬(1 < getHeight l - getHeight r' ∧ rootValue l < value) := by
      rintro ⟨hcon, -⟩
      rw [egl, egr'] at hcon
      omega
    have hc4 : ¬(getHeight l - getHeight r' < -1 ∧ value < rootValue r') := by
      rintro ⟨hcon, -⟩
      rw [egl, egr'] at hcon
      omega
    simp only [insertRebalance]
    rw [if_neg hc1, if_neg hc2, if_neg hc3, if_neg hc4]
    refine ⟨⟨⟨rfl, hokl, hokr'⟩, ?_, hAllLt, hAllGt, hbstl, hbstr'⟩, ?_, ?_, rfl, ?_⟩
    · simp only [BalancedOK]
      exact ⟨by rw [abs_le]; omega, hball, hbalr'⟩
    · simp only [heightI]
      omega
    · simp only [heightI]
      omega
    · intro hgg
      simp only [heightI] at hgg
      exact ⟨by omega, rfl⟩

/-- Main insert preservation theorem: insertNode keeps the AVL invariant,
grows the height by at most one, adds no value other than the inserted one,
and when the height did grow, the root's balance leans toward the side of
the inserted value (the fact the source's value-comparison rebalancing
relies on). -/
theorem insert_main (value : Int) :
    ∀ t : AVLNode, Avl t →
    Avl (insertNode t value) ∧
    heightI t ≤ heightI (insertNode t value) ∧
    heightI (insertNode t value) ≤ heightI t + 1 ∧
    (∀ y ∈ inorder (insertNode t value), y ∈ inorder t ∨ y = value) ∧
    (heightI (insertNode t value) = heightI t + 1 →
      (value < rootValue (insertNode t value) →
        leftH (insertNode t value) = rightH (insertNode t value) + 1) ∧
      (rootValue (insertNode t value) < value →
        rightH (insertNode t value) = leftH (insertNode t value) + 1) ∧
      (value = rootValue (insertNode t value) →
        heightI (insertNode t value) = 1))
  | .nil, _ => by
    refine ⟨⟨⟨by simp [getHeight], trivial, trivial⟩, ⟨by simp, trivial, trivial⟩,
      ⟨by simp [inorder], by simp [inorder], trivial, trivial⟩⟩,
      by simp [insertNode, heightI], by simp [insertNode, heightI], ?_, ?_⟩
    · intro y hy
      simp only [insertNode, inorder, List.nil_append, List.mem_singleton] at hy
      exact Or.inr hy
    · intro _
      refine ⟨?_, ?_, fun _ => by simp [insertNode, heightI]⟩
      · intro hcon
        simp only [insertNode, rootValue] at hcon
        omega
      · intro hcon
        simp only [insertNode, rootValue] at hcon
        omega
  | .node v l r h, havl => by
    obtain ⟨⟨hcache, hokl, hokr⟩, ⟨hbal0, hball, hbalr⟩, ⟨hlv, hrv, hbstl, hbstr⟩⟩ :=
      havl
    rw [abs_le] at hbal0
    rcases lt_trichotomy value v with hlt | heq | hgt
    · -- descend left
      have step : insertNode (.node v l r h) value =
          insertRebalance v (insertNode l value) r value := by
        simp [insertNode, hlt]
      obtain ⟨⟨hokl', hball', hbstl'⟩, hge, hle, hmem, htilt⟩ :=
        insert_main value l ⟨hokl, hball, hbstl⟩
      obtain ⟨savl, sge, sle, sinor, sgrow⟩ :=
        insertRebalance_left_spec value v (insertNode l value) r (heightI l)
          hokl' hokr hball' hbalr hbstl' hbstr
          (fun y hy => (hmem y hy).elim (hlv y) (fun he => he ▸ hlt))
          hrv hge hle ⟨hbal0.1, hbal0.2⟩ hlt htilt
      rw [step]
      refine ⟨savl, ?_, ?_, ?_, ?_⟩
      · simp only [heightI]
        omega
      · simp only [heightI]
        omega
      · intro y hy
        rw [sinor] at hy
        simp only [inorder, List.mem_append, List.mem_cons] at hy ⊢
        rcases hy with hy | hy | hy
        · rcases hmem y hy with hm | hm
          · exact Or.inl (Or.inl hm)
          · exact Or.inr hm
        · exact Or.inl (Or.inr (Or.inl hy))
        · exact Or.inl (Or.inr (Or.inr hy))
      · intro hgg
        simp only [heightI] at hgg
        obtain ⟨hl1, hres⟩ := sgrow (by omega)
        rw [hres]
        refine ⟨?_, ?_, ?_⟩
        · intro _
          simp only [leftH, rightH]
          exact hl1
        · intro hcon
          simp only [rootValue] at hcon
          omega
        · intro hcon
          simp only [rootValue] at hcon
          omega
    · -- duplicate: unchanged
      subst heq
      have step : insertNode (.node value l r h) value = .node value l r h := by
        simp [insertNode]
      rw [step]
      refine ⟨⟨⟨hcache, hokl, hokr⟩, ⟨by rw [abs_le]; exact hbal0, hball, hbalr⟩,
        ⟨hlv, hrv, hbstl, hbstr⟩⟩, le_refl _, by omega, fun y hy => Or.inl hy, ?_⟩
      intro hgg
      omega
    · -- descend right
      have step : insertNode (.node v l r h) value =
          insertRebalance v l (insertNode r value) value := by
        have : ¬ value < v := by omega
        simp [insertNode, this, hgt]
      obtain ⟨⟨hokr', hbalr', hbstr'⟩, hge, hle, hmem, htilt⟩ :=
        insert_main value r ⟨hokr, hbalr, hbstr⟩
      obtain ⟨savl, sge, sle, sinor, sgrow⟩ :=
        insertRebalance_right_spec value v l (insertNode r value) (heightI r)
          hokl hokr' hball hbalr' hbstl hbstr'
          hlv
          (fun y hy => (hmem y hy).elim (hrv y) (fun he => he ▸ hgt))
          hge hle ⟨hbal0.1, hbal0.2⟩ hgt htilt
      rw [step]
      refine ⟨savl, ?_, ?_, ?_, ?_⟩
      · simp only [heightI]
        omega
      · simp only [heightI]
        omega
      · intro y hy
        rw [sinor] at hy
        simp only [inorder, List.mem_append, List.mem_cons] at hy ⊢
        rcases hy with hy | hy | hy
        · exact Or.inl (Or.inl hy)
        · exact Or.inl (Or.inr (Or.inl hy))
        · rcases hmem y hy with hm | hm
          · exact Or.inl (Or.inr (Or.inr hm))
          · exact Or.inr hm
      · intro hgg
        simp only [heightI] at hgg
        obtain ⟨hr1, hres⟩ := sgrow (by omega)
        rw [hres]
        refine ⟨?_, ?_, ?_⟩
        · intro hcon
          simp only [rootValue] at hcon
          omega
        · intro _
          simp only [leftH, rightH]
          exact hr1
        · intro hcon
          simp only [rootValue] at hcon
          omega

/-- Behaviour of the delete unwind step: with subtree heights differing by
at most two, the rebalanced node is AVL, its height is the natural height
1 + max or one less, no rotation happens while the difference is within
one, and the in-order traversal is the expected concatenation. -/
theorem deleteRebalance_spec (v : Int) (l r : AVLNode)
    (hokl : HeightsOK l) (hokr : HeightsOK r)
    (hball : BalancedOK l) (hbalr : BalancedOK r)
    (hbstl : IsBST l) (hbstr : IsBST r)
    (hAllLt : ∀ y ∈ inorder l, y < v)
    (hAllGt : ∀ y ∈ inorder r, v < y)
    (hgap : -2 ≤ heightI l - heightI r ∧ heightI l - heightI r ≤ 2) :
    Avl (deleteRebalance v l r) ∧
    max (heightI l) (heightI r) ≤ heightI (deleteRebalance v l r) ∧
    heightI (deleteRebalance v l r) ≤ 1 + max (heightI l) (heightI r) ∧
    (heightI l - heightI r ≤ 1 → heightI r - heightI l ≤ 1 →
      deleteRebalance v l r = .node v l r (1 + max (getHeight l) (getHeight r))) ∧
    (heightI l - heightI r ≤ 1 → heightI r - heightI l ≤ 1 →
      heightI (deleteRebalance v l r) = 1 + max (heightI l) (heightI r)) ∧
    inorder (deleteRebalance v l r) = inorder l ++ v :: inorder r := by
  have egl : getHeight l = heightI l := getHeight_eq _ hokl
  have egr : getHeight r = heightI r := getHeight_eq _ hokr
  have hlnn : 0 ≤ heightI l := heightI_nonneg l
  have hrnn : 0 ≤ heightI r := heightI_nonneg r
  by_cases hb2 : 1 < heightI l - heightI r
  · -- left two taller
    have hl2 : heightI l = heightI r + 2 := by omega
    cases l with
    | nil => simp [heightI] at hl2; omega
    | node lv ll lr hlc =>
      obtain ⟨hcl, hokll, hoklr⟩ := hokl
      obtain ⟨hbl, hblll, hbllr⟩ := hball
      rw [abs_le] at hbl
      have egll : getHeight ll = heightI ll := getHeight_eq _ hokll
      have eglr : getHeight lr = heightI lr := getHeight_eq _ hoklr
      by_cases hlean : 0 ≤ getBalance (AVLNode.node lv ll lr hlc)
      · -- single right rotation
        simp only [getBalance, egll, eglr] at hlean
        have hc1 : 1 < getHeight (AVLNode.node lv ll lr hlc) - getHeight r ∧
            0 ≤ getBalance (AVLNode.node lv ll lr hlc) :=
          ⟨by rw [egl, egr]; omega, by simp only [getBalance, egll, eglr]; omega⟩
        simp only [deleteRebalance]
        rw [if_pos hc1]
        obtain ⟨havl, hge, hle2, hstrict, hinor⟩ :=
          rightRotate_single_spec v lv ll lr r hlc
            (1 + max (getHeight (AVLNode.node lv ll lr hlc)) (getHeight r))
            ⟨hcl, hokll, hoklr⟩ hokr
            ⟨by rw [abs_le]; exact hbl, hblll, hbllr⟩ hbalr
            ⟨hAllLt, hAllGt, hbstl, hbstr⟩ hl2 (by omega)
        refine ⟨havl, by omega, by omega, ?_, ?_, by rw [hinor]; rfl⟩
        · intro hcon _
          omega
        · intro hcon _
          exfalso
          omega
      · -- left-right double rotation
        simp only [getBalance, egll, eglr, not_le] at hlean
        have hlr1 : heightI lr = heightI ll + 1 := by omega
        cases lr with
        | nil => simp [heightI] at hlr1; exact absurd hlr1 (by have := heightI_nonneg ll; omega)
        | node w d e he =>
          have hc1 : ¬(1 < getHeight (AVLNode.node lv ll (.node w d e he) hlc) - getHeight r ∧
              0 ≤ getBalance (AVLNode.node lv ll (.node w d e he) hlc)) := by
            rintro ⟨-, hcon⟩
            simp only [getBalance, egll] at hcon
            rw [show getHeight (AVLNode.node w d e he) = heightI (AVLNode.node w d e he) from
              getHeight_eq _ hoklr] at hcon
            omega
          have hc2 : 1 < getHeight (AVLNode.node lv ll (.node w d e he) hlc) - getHeight r ∧
              getBalance (AVLNode.node lv ll (.node w d e he) hlc) < 0 := by
            refine ⟨by rw [egl, egr]; omega, ?_⟩
            simp only [getBalance, egll]
            rw [show getHeight (AVLNode.node w d e he) = heightI (AVLNode.node w d e he) from
              getHeight_eq _ hoklr]
            omega
          simp only [deleteRebalance]
          rw [if_neg hc1, if_pos hc2]
          obtain ⟨havl, hexact, hinor⟩ :=
            rightRotate_double_spec v lv w ll d e r hlc he
              (1 + max (getHeight (AVLNode.node lv ll (.node w d e he) hlc)) (getHeight r))
              ⟨hcl, hokll, hoklr⟩ hokr
              ⟨by rw [abs_le]; exact hbl, hblll, hbllr⟩ hbalr
              ⟨hAllLt, hAllGt, hbstl, hbstr⟩ hl2 (by omega)
          refine ⟨havl, by omega, by omega, ?_, ?_, by rw [hinor]; rfl⟩
          · intro hcon _
            omega
          · intro hcon _
            exfalso
            omega
  · by_cases hbm2 : heightI l - heightI r < -1
    · -- right two taller
      have hr2 : heightI r = heightI l + 2 := by omega
      cases r with
      | nil => simp [heightI] at hr2; omega
      | node rv rl rr hrc =>
        obtain ⟨hcr, hokrl, hokrr⟩ := hokr
        obtain ⟨hbr, hbrrl, hbrrr⟩ := hbalr
        rw [abs_le] at hbr
        have egrl : getHeight rl = heightI rl := getHeight_eq _ hokrl
        have egrr : getHeight rr = heightI rr := getHeight_eq _ hokrr
        by_cases hlean : getBalance (AVLNode.node rv rl rr hrc) ≤ 0
        · -- single left rotation
          simp only [getBalance, egrl, egrr] at hlean
          have hc1 : ¬(1 < getHeight l - getHeight (AVLNode.node rv rl rr hrc) ∧
              0 ≤ getBalance l) := by
            rintro ⟨hcon, -⟩
            rw [egl, egr] at hcon
            omega
          have hc2 : ¬(1 < getHeight l - getHeight (AVLNode.node rv rl rr hrc) ∧
              getBalance l < 0) := by
            rintro ⟨hcon, -⟩
            rw [egl, egr] at hcon
            omega
          have hc3 : getHeight l - getHeight (AVLNode.node rv rl rr hrc) < -1 ∧
              getBalance (AVLNode.node rv rl rr hrc) ≤ 0 :=
            ⟨by rw [egl, egr]; omega, by simp only [getBalance, egrl, egrr]; omega⟩
          simp only [deleteRebalance]
          rw [if_neg hc1, if_neg hc2, if_pos hc3]
          obtain ⟨havl, hge, hle2, hstrict, hinor⟩ :=
            leftRotate_single_spec v rv l rl rr hrc
              (1 + max (getHeight l) (getHeight (AVLNode.node rv rl rr hrc)))
              ⟨hcr, hokrl, hokrr⟩ hokl
              ⟨by rw [abs_le]; exact hbr, hbrrl, hbrrr⟩ hball
              ⟨hAllLt, hAllGt, hbstl, hbstr⟩ hr2 (by omega)
          refine ⟨havl, by omega, by omega, ?_, ?_, by rw [hinor]; rfl⟩
          · intro _ hcon
            omega
          · intro _ hcon
            exfalso
            omega
        · -- right-left double rotation
          simp only [getBalance, egrl, egrr, not_le] at hlean
          have hrl1 : heightI rl = heightI rr + 1 := by omega
          cases rl with
          | nil =>
            simp [heightI] at hrl1
            exact absurd hrl1 (by have := heightI_nonneg rr; omega)
          | node w d e he =>
            have hc1 : ¬(1 < getHeight l - getHeight (AVLNode.node rv (.node w d e he) rr hrc) ∧
                0 ≤ getBalance l) := by
              rintro ⟨hcon, -⟩
              rw [egl, egr] at hcon
              omega
            have hc2 : ¬(1 < getHeight l - getHeight (AVLNode.node rv (.node w d e he) rr hrc) ∧
                getBalance l < 0) := by
              rintro ⟨hcon, -⟩
              rw [egl, egr] at hcon
              omega
            have hc3 : ¬(getHeight l - getHeight (AVLNode.node rv (.node w d e he) rr hrc) < -1 ∧
                getBalance (AVLNode.node rv (.node w d e he) rr hrc) ≤ 0) := by
              rintro ⟨-, hcon⟩
              simp only [getBalance, egrr] at hcon
              rw [show getHeight (AVLNode.node w d e he) = heightI (AVLNode.node w d e he) from
                getHeight_eq _ hokrl] at hcon
              omega
            have hc4 : getHeight l - getHeight (AVLNode.node rv (.node w d e he) rr hrc) < -1 ∧
                0 < getBalance (AVLNode.node rv (.node w d e he) rr hrc) := by
              refine ⟨by rw [egl, egr]; omega, ?_⟩
              simp only [getBalance, egrr]
              rw [show getHeight (AVLNode.node w d e he) = heightI (AVLNode.node w d e he) from
                getHeight_eq _ hokrl]
              omega
            simp only [deleteRebalance]
            rw [if_neg hc1, if_neg hc2, if_neg hc3, if_pos hc4]
            obtain ⟨havl, hexact, hinor⟩ :=
              leftRotate_double_spec v rv w l d e rr hrc he
                (1 + max (getHeight l) (getHeight (AVLNode.node rv (.node w d e he) rr hrc)))
                ⟨hcr, hokrl, hokrr⟩ hokl
                ⟨by rw [abs_le]; exact hbr, hbrrl, hbrrr⟩ hball
                ⟨hAllLt, hAllGt, hbstl, hbstr⟩ hr2 (by omega)
            refine ⟨havl, by omega, by omega, ?_, ?_, by rw [hinor]; rfl⟩
            · intro _ hcon
              omega
            · intro _ hcon
              exfalso
              omega
    · -- within one: no rotation
      have hc1 : ¬(1 < getHeight l - getHeight r ∧ 0 ≤ getBalance l) := by
        rintro ⟨hcon, -⟩
        rw [egl, egr] at hcon
        omega
      have hc2 : ¬(1 < getHeight l - getHeight r ∧ getBalance l < 0) := by
        rintro ⟨hcon, -⟩
        rw [egl, egr] at hcon
        omega
      have hc3 : ¬(getHeight l - getHeight r < -1 ∧ getBalance r ≤ 0) := by
        rintro ⟨hcon, -⟩
        rw [egl, egr] at hcon
        omega
      have hc4 : ¬(getHeight l - getHeight r < -1 ∧ 0 < getBalance r) := by
        rintro ⟨hcon, -⟩
        rw [egl, egr] at hcon
        omega
      simp only [deleteRebalance]
      rw [if_neg hc1, if_neg hc2, if_neg hc3, if_neg hc4]
      refine ⟨⟨⟨rfl, hokl, hokr⟩, ?_, hAllLt, hAllGt, hbstl, hbstr⟩, ?_, ?_,
        fun _ _ => rfl, fun _ _ => rfl, rfl⟩
      · simp only [BalancedOK]
        exact ⟨by rw [abs_le]; omega, hball, hbalr⟩
      · simp only [heightI]
        omega
      · simp only [heightI]
        omega

/-- getMinValueNode returns the minimum: its value is in the tree and below
every element. -/
theorem getMin_spec : ∀ t : AVLNode, t ≠ .nil → IsBST t →
    rootValue (getMinValueNode t) ∈ inorder t ∧
    ∀ y ∈ inorder t, rootValue (getMinValueNode t) ≤ y
  | .nil, hne, _ => absurd rfl hne
  | .node v .nil r hh, _, hbst => by
    obtain ⟨-, hrv, -, -⟩ := hbst
    constructor
    · simp [getMinValueNode, rootValue, inorder]
    · intro y hy
      simp only [inorder, List.nil_append, List.mem_cons] at hy
      simp only [getMinValueNode, rootValue]
      rcases hy with hy | hy
      · omega
      · exact le_of_lt (hrv y hy)
  | .node v (.node lv la lb lh) r hh, _, hbst => by
    obtain ⟨hlv, hrv, hbstl, -⟩ := hbst
    obtain ⟨hmem, hmin⟩ := getMin_spec (.node lv la lb lh) (by simp) hbstl
    have heq : getMinValueNode (.node v (.node lv la lb lh) r hh) =
        getMinValueNode (.node lv la lb lh) := rfl
    rw [heq]
    constructor
    · show rootValue (getMinValueNode (.node lv la lb lh)) ∈
        inorder (.node lv la lb lh) ++ v :: inorder r
      exact List.mem_append.mpr (Or.inl hmem)
    · intro y hy
      have hy' : y ∈ inorder (.node lv la lb lh) ++ v :: inorder r := hy
      rcases List.mem_append.mp hy' with hy1 | hy1
      · exact hmin y hy1
      · rcases List.mem_cons.mp hy1 with hy2 | hy2
        · subst hy2
          exact le_of_lt (hlv _ hmem)
        · exact le_of_lt (lt_trans (hlv _ hmem) (hrv y hy2))

/-- Main delete preservation theorem: deleteNode keeps the AVL invariant,
shrinks the height by at most one, adds no value, and removes the deleted
value. -/
theorem delete_main : ∀ t : AVLNode, Avl t → ∀ value : Int,
    Avl (deleteNode t value) ∧
    heightI t - 1 ≤ heightI (deleteNode t value) ∧
    heightI (deleteNode t value) ≤ heightI t ∧
    (∀ y ∈ inorder (deleteNode t value), y ∈ inorder t) ∧
    value ∉ inorder (deleteNode t value)
  | .nil, _, value => by
    refine ⟨⟨trivial, trivial, trivial⟩, ?_, ?_, ?_, ?_⟩ <;>
      simp [deleteNode, heightI, inorder]
  | .node v l r h, havl, value => by
    obtain ⟨⟨hcache, hokl, hokr⟩, ⟨hbal0, hball, hbalr⟩, ⟨hlv, hrv, hbstl, hbstr⟩⟩ :=
      havl
    rw [abs_le] at hbal0
    have hlnn := heightI_nonneg l
    have hrnn := heightI_nonneg r
    rcases lt_trichotomy value v with hlt | heq | hgt
    · -- delete inside the left subtree
      have step : deleteNode (.node v l r h) value =
          deleteRebalance v (deleteNode l value) r := by
        simp [deleteNode, hlt]
      obtain ⟨⟨hokl', hball', hbstl'⟩, dge, dle, dmem, dnot⟩ :=
        delete_main l ⟨hokl, hball, hbstl⟩ value
      obtain ⟨savl, sge, sle, -, sheight, sinor⟩ :=
        deleteRebalance_spec v (deleteNode l value) r hokl' hokr hball' hbalr
          hbstl' hbstr (fun y hy => hlv y (dmem y hy)) hrv ⟨by omega, by omega⟩
      rw [step]
      have hteq : heightI (AVLNode.node v l r h) =
          1 + max (heightI l) (heightI r) := rfl
      have hbounds : heightI (AVLNode.node v l r h) - 1 ≤
          heightI (deleteRebalance v (deleteNode l value) r) ∧
          heightI (deleteRebalance v (deleteNode l value) r) ≤
            heightI (AVLNode.node v l r h) := by
        by_cases hno : heightI (deleteNode l value) - heightI r ≤ 1 ∧
            heightI r - heightI (deleteNode l value) ≤ 1
        · have heq2 := sheight hno.1 hno.2
          omega
        · rw [not_and_or, not_le, not_le] at hno
          rcases hno with hno | hno <;> omega
      refine ⟨savl, hbounds.1, hbounds.2, ?_, ?_⟩
      · intro y hy
        rw [sinor] at hy
        show y ∈ inorder l ++ v :: inorder r
        rcases List.mem_append.mp hy with hy1 | hy1
        · exact List.mem_append.mpr (Or.inl (dmem y hy1))
        · exact List.mem_append.mpr (Or.inr hy1)
      · intro hy
        rw [sinor] at hy
        rcases List.mem_append.mp hy with hy1 | hy1
        · exact dnot hy1
        · rcases List.mem_cons.mp hy1 with hy2 | hy2
          · omega
          · exact absurd (hrv value hy2) (by omega)
    · -- value found at this node
      subst heq
      cases l with
      | nil =>
        have step : deleteNode (.node value .nil r h) value = r := by
          simp [deleteNode]
        rw [step]
        have hteq : heightI (AVLNode.node value .nil r h) =
            1 + max (heightI AVLNode.nil) (heightI r) := rfl
        have h0 : heightI AVLNode.nil = 0 := rfl
        refine ⟨⟨hokr, hbalr, hbstr⟩, by omega, by omega, ?_, ?_⟩
        · intro y hy
          show y ∈ inorder AVLNode.nil ++ value :: inorder r
          exact List.mem_append.mpr (Or.inr (List.mem_cons.mpr (Or.inr hy)))
        · intro hy
          exact absurd (hrv value hy) (lt_irrefl value)
      | node lv la lb lh =>
        cases r with
        | nil =>
          have step : deleteNode
              (.node value (.node lv la lb lh) .nil h) value =
              .node lv la lb lh := by
            simp [deleteNode]
          rw [step]
          have hteq : heightI (AVLNode.node value (.node lv la lb lh) .nil h) =
              1 + max (heightI (AVLNode.node lv la lb lh))
                (heightI AVLNode.nil) := rfl
          have h0 : heightI AVLNode.nil = 0 := rfl
          refine ⟨⟨hokl, hball, hbstl⟩, by omega, by omega, ?_, ?_⟩
          · intro y hy
            show y ∈ inorder (AVLNode.node lv la lb lh) ++
              value :: inorder AVLNode.nil
            exact List.mem_append.mpr (Or.inl hy)
          · intro hy
            exact absurd (hlv value hy) (lt_irrefl value)
        | node rv ra rb rh =>
          obtain ⟨hmem, hmin⟩ := getMin_spec (.node rv ra rb rh) (by simp) hbstr
          have hvm : value < rootValue (getMinValueNode (.node rv ra rb rh)) :=
            hrv _ hmem
          obtain ⟨⟨hokr', hbalr', hbstr'⟩, dge, dle, dmem, dnot⟩ :=
            delete_main (.node rv ra rb rh) ⟨hokr, hbalr, hbstr⟩
              (rootValue (getMinValueNode (.node rv ra rb rh)))
          have step : deleteNode
              (.node value (.node lv la lb lh) (.node rv ra rb rh) h) value =
              deleteRebalance (rootValue (getMinValueNode (.node rv ra rb rh)))
                (.node lv la lb lh)
                (deleteNode (.node rv ra rb rh)
                  (rootValue (getMinValueNode (.node rv ra rb rh)))) := by
            simp [deleteNode]
          obtain ⟨savl, sge, sle, -, sheight, sinor⟩ :=
            deleteRebalance_spec (rootValue (getMinValueNode (.node rv ra rb rh)))
              (.node lv la lb lh)
              (deleteNode (.node rv ra rb rh)
                (rootValue (getMinValueNode (.node rv ra rb rh))))
              hokl hokr' hball hbalr' hbstl hbstr'
              (fun y hy => lt_trans (hlv y hy) hvm)
              (fun y hy => lt_of_le_of_ne (hmin y (dmem y hy))
                (fun he => dnot (he.symm ▸ hy)))
              ⟨by omega, by omega⟩
          rw [step]
          have hteq : heightI
              (AVLNode.node value (.node lv la lb lh) (.node rv ra rb rh) h) =
              1 + max (heightI (AVLNode.node lv la lb lh))
                (heightI (AVLNode.node rv ra rb rh)) := rfl
          have hbounds :
              heightI (AVLNode.node value (.node lv la lb lh)
                (.node rv ra rb rh) h) - 1 ≤
              heightI (deleteRebalance
                (rootValue (getMinValueNode (.node rv ra rb rh)))
                (.node lv la lb lh)
                (deleteNode (.node rv ra rb rh)
                  (rootValue (getMinValueNode (.node rv ra rb rh))))) ∧
              heightI (deleteRebalance
                (rootValue (getMinValueNode (.node rv ra rb rh)))
                (.node lv la lb lh)
                (deleteNode (.node rv ra rb rh)
                  (rootValue (getMinValueNode (.node rv ra rb rh))))) ≤
              heightI (AVLNode.node value (.node lv la lb lh)
                (.node rv ra rb rh) h) := by
            by_cases hno : heightI (AVLNode.node lv la lb lh) -
                heightI (deleteNode (.node rv ra rb rh)
                  (rootValue (getMinValueNode (.node rv ra rb rh)))) ≤ 1 ∧
                heightI (deleteNode (.node rv ra rb rh)
                  (rootValue (getMinValueNode (.node rv ra rb rh)))) -
                heightI (AVLNode.node lv la lb lh) ≤ 1
            · have heq2 := sheight hno.1 hno.2
              omega
            · rw [not_and_or, not_le, not_le] at hno
              rcases hno with hno | hno <;> omega
          refine ⟨savl, hbounds.1, hbounds.2, ?_, ?_⟩
          · intro y hy
            rw [sinor] at hy
            show y ∈ inorder (AVLNode.node lv la lb lh) ++
              value :: inorder (AVLNode.node rv ra rb rh)
            rcases List.mem_append.mp hy with hy1 | hy1
            · exact List.mem_append.mpr (Or.inl hy1)
            · rcases List.mem_cons.mp hy1 with hy2 | hy2
              · subst hy2
                exact List.mem_append.mpr (Or.inr (List.mem_cons.mpr (Or.inr hmem)))
              · exact List.mem_append.mpr
                  (Or.inr (List.mem_cons.mpr (Or.inr (dmem y hy2))))
          · intro hy
            rw [sinor] at hy
            rcases List.mem_append.mp hy with hy1 | hy1
            · exact absurd (hlv value hy1) (lt_irrefl value)
            · rcases List.mem_cons.mp hy1 with hy2 | hy2
              · omega
              · exact absurd (hrv value (dmem value hy2)) (lt_irrefl value)
    · -- delete inside the right subtree
      have step : deleteNode (.node v l r h) value =
          deleteRebalance v l (deleteNode r value) := by
        have hnlt : ¬ value < v := by omega
        simp [deleteNode, hnlt, hgt]
      obtain ⟨⟨hokr', hbalr', hbstr'⟩, dge, dle, dmem, dnot⟩ :=
        delete_main r ⟨hokr, hbalr, hbstr⟩ value
      obtain ⟨savl, sge, sle, -, sheight, sinor⟩ :=
        deleteRebalance_spec v l (deleteNode r value) hokl hokr' hball hbalr'
          hbstl hbstr' hlv (fun y hy => hrv y (dmem y hy)) ⟨by omega, by omega⟩
      rw [step]
      have hteq : heightI (AVLNode.node v l r h) =
          1 + max (heightI l) (heightI r) := rfl
      have hbounds : heightI (AVLNode.node v l r h) - 1 ≤
          heightI (deleteRebalance v l (deleteNode r value)) ∧
          heightI (deleteRebalance v l (deleteNode r value)) ≤
            heightI (AVLNode.node v l r h) := by
        by_cases hno : heightI l - heightI (deleteNode r value) ≤ 1 ∧
            heightI (deleteNode r value) - heightI l ≤ 1
        · have heq2 := sheight hno.1 hno.2
          omega
        · rw [not_and_or, not_le, not_le] at hno
          rcases hno with hno | hno <;> omega
      refine ⟨savl, hbounds.1, hbounds.2, ?_, ?_⟩
      · intro y hy
        rw [sinor] at hy
        show y ∈ inorder l ++ v :: inorder r
        rcases List.mem_append.mp hy with hy1 | hy1
        · exact List.mem_append.mpr (Or.inl hy1)
        · rcases List.mem_cons.mp hy1 with hy2 | hy2
          · exact List.mem_append.mpr (Or.inr (List.mem_cons.mpr (Or.inl hy2)))
          · exact List.mem_append.mpr
              (Or.inr (List.mem_cons.mpr (Or.inr (dmem y hy2))))
      · intro hy
        rw [sinor] at hy
        rcases List.mem_append.mp hy with hy1 | hy1
        · exact absurd (hlv value hy1) (by omega)
        · rcases List.mem_cons.mp hy1 with hy2 | hy2
          · omega
          · exact dnot hy2

/-- An AVL session operation: Insert or Delete of a value (Search does not
mutate the tree). -/
inductive AVLOp where
  | ins (value : Int)
  | del (value : Int)

/-- Apply one operation through the AVLTree API. -/
def applyOp (t : AVLTree) : AVLOp → AVLTree
  | .ins v => t.Insert v
  | .del v => t.Delete v

/-- Run a whole operation sequence from the fresh empty tree. -/
def applyOps (ops : List AVLOp) : AVLTree :=
  ops.foldl applyOp NewAVLTree

/-- Folding any operation sequence over an AVL-invariant tree keeps the
invariant. -/
theorem applyOps_preserves :
    ∀ (ops : List AVLOp) (t : AVLTree), Avl t.Root →
      Avl (ops.foldl applyOp t).Root
  | [], _, havl => havl
  | op :: rest, t, havl => by
    have hstep : Avl (applyOp t op).Root := by
      cases op with
      | ins v => exact (insert_main v t.Root havl).1
      | del v => exact (delete_main t.Root havl v).1
    exact applyOps_preserves rest (applyOp t op) hstep

/-- C4: after every sequence of AVL Insert and Delete operations starting
from the empty tree (and hence after every single operation of any
sequence, each prefix being itself a sequence), every node's cached Height
field equals 1 + max of its children's heights (HeightsOK), every node
satisfies the height-balance bound |height(left) - height(right)| <= 1
(BalancedOK), and BST ordering holds globally: the in-order traversal is
strictly sorted. -/
theorem avl_invariants_all_op_sequences (ops : List AVLOp) :
    HeightsOK (applyOps ops).Root ∧
    BalancedOK (applyOps ops).Root ∧
    (inorder (applyOps ops).Root).Pairwise (· < ·) := by
  have h := applyOps_preserves ops NewAVLTree ⟨trivial, trivial, trivial⟩
  exact ⟨h.1, h.2.1, (isBST_iff_pairwise _).mp h.2.2⟩

/-- Adjacency list of a node in an unweighted neighbors map (Go map read). -/
def adjL (nb : List (Int × List Int)) (x : Int) : List Int :=
  mapGet nb x []

/-- One directed edge of the adjacency map. -/
def StepRel (nb : List (Int × List Int)) (x y : Int) : Prop :=
  y ∈ adjL nb x

/-- Reachability: the reflexive-transitive closure of the edge relation. -/
def Reach (nb : List (Int × List Int)) : Int → Int → Prop :=
  Relation.ReflTransGen (StepRel nb)

/-- Mutual reachability: the strongly-connected-component equivalence. -/
def Mut (nb : List (Int × List Int)) (x y : Int) : Prop :=
  Reach nb x y ∧ Reach nb y x

/-- A well-formed directed-graph input for the SCC algorithms, per the data
model (dense ids in [0, n), every edge's endpoints valid node ids, one
binding per node). -/
def ValidGraph (nb : List (Int × List Int)) (numNodes : Int) : Prop :=
  (∀ p ∈ nb, 0 ≤ p.1 ∧ p.1 < numNodes ∧ ∀ y ∈ p.2, 0 ≤ y ∧ y < numNodes) ∧
  (nb.map Prod.fst).Nodup

instance (nb : List (Int × List Int)) (numNodes : Int) :
    Decidable (ValidGraph nb numNodes) := by
  unfold ValidGraph
  infer_instance

mutual
/-- A DFS tree: a root and the forest of its child explorations. -/
inductive DTree where
  | node (v : Int) (children : DForest)
/-- A DFS forest: a sequence of DFS trees. -/
inductive DForest where
  | nil
  | cons (t : DTree) (f : DForest)
end

mutual
/-- Nodes of a tree in discovery (preorder) order. -/
def preT : DTree → List Int
  | .node v ts => v :: preF ts
/-- Nodes of a forest in discovery (preorder) order. -/
def preF : DForest → List Int
  | .nil => []
  | .cons t f => preT t ++ preF f
end

mutual
/-- Nodes of a tree in finish (postorder) order. -/
def postT : DTree → List Int
  | .node v ts => postF ts ++ [v]
/-- Nodes of a forest in finish (postorder) order. -/
def postF : DForest → List Int
  | .nil => []
  | .cons t f => postT t ++ postF f
end

/-- Root of a DFS tree. -/
def rootT : DTree → Int
  | .node v _ => v

/-- Tree membership in a forest (used by WFT's child-root condition). -/
def tmemF (t : DTree) : DForest → Prop
  | .nil => False
  | .cons t0 f => t = t0 ∨ tmemF t f

mutual
/-- Well-formed DFS tree over adjacency nb, from visited set vis to visited
set vis': the root is newly visited, the children explore from there, each
child's root is a successor of v, and at the end every successor of v has
been visited (it was either skipped as visited or explored as a child). -/
inductive WFT (nb : List (Int × List Int)) : Set Int → DTree → Set Int → Prop where
  | node {v : Int} {ts : DForest} {vis vis' : Set Int} :
    v ∉ vis →
    (∀ t, tmemF t ts → rootT t ∈ adjL nb v) →
    WFF nb (vis ∪ {v}) ts vis' →
    (∀ y ∈ adjL nb v, y ∈ vis') →
    WFT nb vis (.node v ts) vis'
/-- Well-formed DFS forest: trees explored sequentially, threading the
visited set. -/
inductive WFF (nb : List (Int × List Int)) : Set Int → DForest → Set Int → Prop where
  | nil {vis : Set Int} : WFF nb vis .nil vis
  | cons {t : DTree} {f : DForest} {vis vis1 vis' : Set Int} :
    WFT nb vis t vis1 → WFF nb vis1 f vis' → WFF nb vis (.cons t f) vis'
end

/-- The set of elements of a list of ids. -/
def setL (l : List Int) : Set Int := {x | x ∈ l}

mutual
theorem mem_postT_iff_preT : ∀ {x : Int} {t : DTree}, x ∈ postT t ↔ x ∈ preT t
  | x, .node v ts => by
    simp only [postT, preT, List.mem_append, List.mem_singleton, List.mem_cons]
    have h := @mem_postF_iff_preF x ts
    tauto
theorem mem_postF_iff_preF : ∀ {x : Int} {f : DForest}, x ∈ postF f ↔ x ∈ preF f
  | x, .nil => Iff.rfl
  | x, .cons t f => by
    simp only [postF, preF, List.mem_append]
    have h1 := @mem_postT_iff_preT x t
    have h2 := @mem_postF_iff_preF x f
    tauto
end

mutual
theorem wfT_out {nb : List (Int × List Int)} :
    ∀ {vis vis' : Set Int} {t : DTree}, WFT nb vis t vis' →
      vis' = vis ∪ setL (preT t)
  | _, _, _, @WFT.node _ v ts vis vis' hv hroots hf hcomp => by
    rw [wfF_out hf]
    simp only [preT, setL]
    ext z
    simp only [Set.mem_union, Set.mem_setOf_eq, Set.mem_singleton_iff, List.mem_cons]
    tauto
theorem wfF_out {nb : List (Int × List Int)} :
    ∀ {vis vis' : Set Int} {f : DForest}, WFF nb vis f vis' →
      vis' = vis ∪ setL (preF f)
  | _, _, _, .nil => by simp [preF, setL]
  | _, _, _, @WFF.cons _ t f vis vis1 vis' ht hf => by
    rw [wfF_out hf, wfT_out ht]
    simp only [preF, setL]
    ext z
    simp only [Set.mem_union, Set.mem_setOf_eq, List.mem_append]
    tauto
end

theorem wfT_mono {nb : List (Int × List Int)} {vis vis' : Set Int} {t : DTree}
    (h : WFT nb vis t vis') : vis ⊆ vis' := by
  rw [wfT_out h]; exact Set.subset_union_left

theorem wfF_mono {nb : List (Int × List Int)} {vis vis' : Set Int} {f : DForest}
    (h : WFF nb vis f vis') : vis ⊆ vis' := by
  rw [wfF_out h]; exact Set.subset_union_left

mutual
theorem wfT_fresh {nb : List (Int × List Int)} :
    ∀ {vis vis' : Set Int} {t : DTree}, WFT nb vis t vis' →
      (preT t).Nodup ∧ ∀ x ∈ preT t, x ∉ vis
  | _, _, _, @WFT.node _ v ts vis vis' hv hroots hf hcomp => by
    have h := wfF_fresh hf
    simp only [preT, List.nodup_cons]
    refine ⟨⟨fun hvmem => ?_, h.1⟩, ?_⟩
    · exact h.2 v hvmem (Set.mem_union_right _ rfl)
    · intro x hx
      rcases List.mem_cons.mp hx with rfl | hx2
      · exact hv
      · exact fun hxv => h.2 x hx2 (Set.mem_union_left _ hxv)
theorem wfF_fresh {nb : List (Int × List Int)} :
    ∀ {vis vis' : Set Int} {f : DForest}, WFF nb vis f vis' →
      (preF f).Nodup ∧ ∀ x ∈ preF f, x ∉ vis
  | _, _, _, .nil => by simp [preF]
  | _, _, _, @WFF.cons _ t f vis vis1 vis' ht hf => by
    have h1 := wfT_fresh ht
    have h2 := wfF_fresh hf
    simp only [preF, List.nodup_append]
    refine ⟨⟨h1.1, h2.1, ?_⟩, ?_⟩
    · intro x hx hx2
      have := h2.2 x hx2
      rw [wfT_out ht] at this
      exact this (Set.mem_union_right _ hx)
    · intro x hx
      rcases List.mem_append.mp hx with hx1 | hx2
      · exact h1.2 x hx1
      · intro hxv
        have := h2.2 x hx2
        rw [wfT_out ht] at this
        exact this (Set.mem_union_left _ hxv)
end

/-- One edge step whose target avoids a visited set. -/
def StepA (nb : List (Int × List Int)) (vis : Set Int) (x y : Int) : Prop :=
  StepRel nb x y ∧ y ∉ vis

/-- Reachability along paths all of whose nodes after the start avoid vis. -/
def ReachA (nb : List (Int × List Int)) (vis : Set Int) : Int → Int → Prop :=
  Relation.ReflTransGen (StepA nb vis)

theorem reachA_mono {nb : List (Int × List Int)} {vis vis2 : Set Int}
    (hsub : vis ⊆ vis2) {x y : Int} (h : ReachA nb vis2 x y) : ReachA nb vis x y :=
  Relation.ReflTransGen.mono (fun _ _ hs => ⟨hs.1, fun hy => hs.2 (hsub hy)⟩) h

theorem reachA_to_reach {nb : List (Int × List Int)} {vis : Set Int} {x y : Int}
    (h : ReachA nb vis x y) : Reach nb x y :=
  Relation.ReflTransGen.mono (fun _ _ hs => hs.1) h

mutual
theorem wfT_adj_complete {nb : List (Int × List Int)} :
    ∀ {vis vis' : Set Int} {t : DTree}, WFT nb vis t vis' →
      ∀ u ∈ preT t, ∀ y ∈ adjL nb u, y ∈ vis'
  | _, _, _, @WFT.node _ v ts vis vis' hv hroots hf hcomp => by
    intro u hu y hy
    rcases List.mem_cons.mp hu with rfl | hu2
    · exact hcomp y hy
    · exact wfF_adj_complete hf u hu2 y hy
theorem wfF_adj_complete {nb : List (Int × List Int)} :
    ∀ {vis vis' : Set Int} {f : DForest}, WFF nb vis f vis' →
      ∀ u ∈ preF f, ∀ y ∈ adjL nb u, y ∈ vis'
  | _, _, _, .nil => by intro u hu; exact absurd hu (List.not_mem_nil u)
  | _, _, _, @WFF.cons _ t f vis vis1 vis' ht hf => by
    intro u hu y hy
    rcases List.mem_append.mp hu with hu1 | hu2
    · exact wfF_mono hf (wfT_adj_complete ht u hu1 y hy)
    · exact wfF_adj_complete hf u hu2 y hy
end

theorem wfT_reach_complete {nb : List (Int × List Int)} {vis vis' : Set Int}
    {t : DTree} (h : WFT nb vis t vis') {w : Int}
    (hr : ReachA nb vis (rootT t) w) : w ∈ vis' := by
  have hroot : rootT t ∈ preT t := by
    cases t with
    | node v ts => exact List.mem_cons_self _ _
  have hfresh := wfT_fresh h
  have key : ∀ u, ReachA nb vis (rootT t) u → u ∈ vis' ∧ u ∉ vis := by
    intro u hu
    induction hu with
    | refl =>
      constructor
      · rw [wfT_out h]; exact Set.mem_union_right _ hroot
      · exact hfresh.2 _ hroot
    | tail hab hbc ih =>
      rename_i b c
      have hbnodes : b ∈ preT t := by
        have := ih.1
        rw [wfT_out h] at this
        rcases this with hb | hb
        · exact absurd hb ih.2
        · exact hb
      exact ⟨wfT_adj_complete h b hbnodes c hbc.1, hbc.2⟩
  exact (key w hr).1

mutual
theorem wfT_reach_sound {nb : List (Int × List Int)} :
    ∀ {vis vis' : Set Int} {t : DTree}, WFT nb vis t vis' →
      ∀ x ∈ preT t, ReachA nb vis (rootT t) x
  | _, _, _, @WFT.node _ v ts vis vis' hv hroots hf hcomp => by
    intro x hx
    rcases List.mem_cons.mp hx with rfl | hx2
    · exact Relation.ReflTransGen.refl
    · obtain ⟨t0, hmem, hreach, hfr⟩ := wfF_reach_sound hf x hx2
      have hstep : StepA nb vis v (rootT t0) := by
        refine ⟨hroots t0 hmem, fun hmem2 => hfr (Set.mem_union_left _ hmem2)⟩
      have h2 : ReachA nb vis (rootT t0) x :=
        reachA_mono Set.subset_union_left hreach
      exact Relation.ReflTransGen.trans (Relation.ReflTransGen.single hstep) h2
theorem wfF_reach_sound {nb : List (Int × List Int)} :
    ∀ {vis vis' : Set Int} {f : DForest}, WFF nb vis f vis' →
      ∀ x ∈ preF f, ∃ t, tmemF t f ∧ ReachA nb vis (rootT t) x ∧ rootT t ∉ vis
  | _, _, _, .nil => by intro x hx; exact absurd hx (List.not_mem_nil x)
  | _, _, _, @WFF.cons _ t f vis vis1 vis' ht hf => by
    intro x hx
    rcases List.mem_append.mp hx with hx1 | hx2
    · refine ⟨t, Or.inl rfl, wfT_reach_sound ht x hx1, ?_⟩
      have hroot : rootT t ∈ preT t := by
        cases t with
        | node v ts => exact List.mem_cons_self _ _
      exact (wfT_fresh ht).2 _ hroot
    · obtain ⟨t0, hmem, hreach, hfr⟩ := wfF_reach_sound hf x hx2
      exact ⟨t0, Or.inr hmem, reachA_mono (wfT_mono ht) hreach,
        fun hv => hfr (wfT_mono ht hv)⟩
end

/-- White-path theorem for a DFS tree: its nodes are exactly the ids
reachable from its root along paths avoiding the prior visited set. -/
theorem wfT_nodes_char {nb : List (Int × List Int)} {vis vis' : Set Int}
    {t : DTree} (h : WFT nb vis t vis') {x : Int} :
    x ∈ preT t ↔ x ∉ vis ∧ ReachA nb vis (rootT t) x := by
  constructor
  · intro hx
    exact ⟨(wfT_fresh h).2 x hx, wfT_reach_sound h x hx⟩
  · rintro ⟨hxv, hr⟩
    have := wfT_reach_complete h hr
    rw [wfT_out h] at this
    rcases this with h1 | h1
    · exact absurd h1 hxv
    · exact h1

theorem setL_cons_union (vis : Set Int) (v : Int) (l : List Int) :
    vis ∪ setL (v :: l) = (vis ∪ {v}) ∪ setL l := by
  ext z
  simp only [setL, Set.mem_union, Set.mem_setOf_eq, List.mem_cons,
    Set.mem_singleton_iff]
  tauto

theorem setL_append_union (vis : Set Int) (l1 l2 : List Int) :
    vis ∪ setL (l1 ++ l2) = (vis ∪ setL l1) ∪ setL l2 := by
  ext z
  simp only [setL, Set.mem_union, Set.mem_setOf_eq, List.mem_append]
  tauto

mutual
theorem wfT_package {nb : List (Int × List Int)} :
    ∀ {vis vis' : Set Int} {t : DTree}, WFT nb vis t vis' → ∀ x ∈ preT t,
      ∃ tx pA pZ qB qC, rootT tx = x ∧
        preT t = pA ++ preT tx ++ pZ ∧
        postT t = qB ++ postT tx ++ qC ∧
        WFT nb (vis ∪ setL pA) tx ((vis ∪ setL pA) ∪ setL (preT tx)) ∧
        (∀ z ∈ qB, z ∈ pA) ∧ (∀ z ∈ pZ, z ∈ qC)
  | _, _, _, @WFT.node _ v ts vis vis' hv hroots hf hcomp => by
    intro x hx
    rcases List.mem_cons.mp hx with rfl | hx2
    · refine ⟨.node x ts, [], [], [], [], rfl, by simp, by simp, ?_, by simp, by simp⟩
      have hout := wfT_out (WFT.node hv hroots hf hcomp)
      have he : vis ∪ setL ([] : List Int) = vis := by
        ext z; simp [setL]
      rw [he, ← hout]
      exact WFT.node hv hroots hf hcomp
    · obtain ⟨tx, pA, pZ, qB, qC, hroot, hpre, hpost, hwf, hqb, hpz⟩ :=
        wfF_package hf x hx2
      refine ⟨tx, v :: pA, pZ, qB, qC ++ [v], hroot, ?_, ?_, ?_, ?_, ?_⟩
      · simp only [preT, hpre, List.cons_append]
      · simp only [postT, hpost, List.append_assoc]
      · rw [setL_cons_union]
        exact hwf
      · intro z hz
        exact List.mem_cons_of_mem v (hqb z hz)
      · intro z hz
        exact List.mem_append_left _ (hpz z hz)
theorem wfF_package {nb : List (Int × List Int)} :
    ∀ {vis vis' : Set Int} {f : DForest}, WFF nb vis f vis' → ∀ x ∈ preF f,
      ∃ tx pA pZ qB qC, rootT tx = x ∧
        preF f = pA ++ preT tx ++ pZ ∧
        postF f = qB ++ postT tx ++ qC ∧
        WFT nb (vis ∪ setL pA) tx ((vis ∪ setL pA) ∪ setL (preT tx)) ∧
        (∀ z ∈ qB, z ∈ pA) ∧ (∀ z ∈ pZ, z ∈ qC)
  | _, _, _, .nil => by intro x hx; exact absurd hx (List.not_mem_nil x)
  | _, _, _, @WFF.cons _ t f vis vis1 vis' ht hf => by
    intro x hx
    rcases List.mem_append.mp hx with hx1 | hx2
    · obtain ⟨tx, pA, pZ, qB, qC, hroot, hpre, hpost, hwf, hqb, hpz⟩ :=
        wfT_package ht x hx1
      refine ⟨tx, pA, pZ ++ preF f, qB, qC ++ postF f, hroot, ?_, ?_, hwf, hqb, ?_⟩
      · simp only [preF, hpre, List.append_assoc]
      · simp only [postF, hpost, List.append_assoc]
      · intro z hz
        rcases List.mem_append.mp hz with hz1 | hz2
        · exact List.mem_append_left _ (hpz z hz1)
        · exact List.mem_append_right _ (mem_postF_iff_preF.mpr hz2)
    · obtain ⟨tx, pA, pZ, qB, qC, hroot, hpre, hpost, hwf, hqb, hpz⟩ :=
        wfF_package hf x hx2
      refine ⟨tx, preT t ++ pA, pZ, postT t ++ qB, qC, hroot, ?_, ?_, ?_, ?_, hpz⟩
      · simp only [preF, hpre, List.append_assoc]
      · simp only [postF, hpost, List.append_assoc]
      · rw [setL_append_union, ← wfT_out ht]
        exact hwf
      · intro z hz
        rcases List.mem_append.mp hz with hz1 | hz2
        · exact List.mem_append_left _ (mem_postT_iff_preT.mp hz1)
        · exact List.mem_append_right _ (hqb z hz2)
end

mutual
theorem wfT_post_fresh {nb : List (Int × List Int)} :
    ∀ {vis vis' : Set Int} {t : DTree}, WFT nb vis t vis' →
      (postT t).Nodup ∧ ∀ x ∈ postT t, x ∉ vis
  | _, _, _, @WFT.node _ v ts vis vis' hv hroots hf hcomp => by
    have h := wfF_post_fresh hf
    simp only [postT, List.nodup_append, List.nodup_cons, List.nodup_nil,
      List.mem_singleton]
    refine ⟨⟨h.1, by simp, ?_⟩, ?_⟩
    · intro x hx hxv
      rw [List.mem_singleton] at hxv
      subst hxv
      exact h.2 x hx (Set.mem_union_right _ rfl)
    · intro x hx
      rcases List.mem_append.mp hx with hx1 | hx1
      · exact fun hxv => h.2 x hx1 (Set.mem_union_left _ hxv)
      · rw [List.mem_singleton] at hx1
        subst hx1
        exact hv
theorem wfF_post_fresh {nb : List (Int × List Int)} :
    ∀ {vis vis' : Set Int} {f : DForest}, WFF nb vis f vis' →
      (postF f).Nodup ∧ ∀ x ∈ postF f, x ∉ vis
  | _, _, _, .nil => by simp [postF]
  | _, _, _, @WFF.cons _ t f vis vis1 vis' ht hf => by
    have h1 := wfT_post_fresh ht
    have h2 := wfF_post_fresh hf
    simp only [postF, List.nodup_append]
    refine ⟨⟨h1.1, h2.1, ?_⟩, ?_⟩
    · intro x hx hx2
      have := h2.2 x hx2
      rw [wfT_out ht] at this
      exact this (Set.mem_union_right _ (mem_postT_iff_preT.mp hx))
    · intro x hx
      rcases List.mem_append.mp hx with hx1 | hx2
      · exact h1.2 x hx1
      · intro hxv
        have := h2.2 x hx2
        rw [wfT_out ht] at this
        exact this (Set.mem_union_left _ hxv)
end

theorem idx_head_seg {A B : List Int} {x : Int} (hxA : x ∉ A) :
    (A ++ x :: B).indexOf x = A.length := by
  rw [List.indexOf_append_of_not_mem hxA]
  simp [List.indexOf_cons_self]

theorem idx_mem_left {A B : List Int} {z : Int} (hz : z ∈ A) :
    (A ++ B).indexOf z = A.indexOf z ∧ (A ++ B).indexOf z < A.length := by
  rw [List.indexOf_append_of_mem hz]
  exact ⟨rfl, List.indexOf_lt_length.mpr hz⟩

theorem idx_mem_mid {A S Z : List Int} {z : Int} (hzA : z ∉ A) (hz : z ∈ S) :
    A.length ≤ (A ++ S ++ Z).indexOf z ∧
      (A ++ S ++ Z).indexOf z < A.length + S.length := by
  rw [List.append_assoc, List.indexOf_append_of_not_mem hzA,
    List.indexOf_append_of_mem hz]
  exact ⟨Nat.le_add_right _ _, by
    have := List.indexOf_lt_length.mpr hz
    omega⟩

theorem idx_mem_right {A S Z : List Int} {z : Int} (hzA : z ∉ A) (hzS : z ∉ S) :
    A.length + S.length ≤ (A ++ S ++ Z).indexOf z := by
  rw [List.append_assoc, List.indexOf_append_of_not_mem hzA,
    List.indexOf_append_of_not_mem hzS]
  omega

theorem idx_last_seg {A body Z : List Int} {x : Int} (hxA : x ∉ A)
    (hxb : x ∉ body) :
    (A ++ (body ++ [x]) ++ Z).indexOf x = A.length + body.length := by
  rw [List.append_assoc, List.indexOf_append_of_not_mem hxA,
    List.indexOf_append_of_mem (by simp : x ∈ body ++ [x]),
    List.indexOf_append_of_not_mem hxb]
  simp [List.indexOf_cons_self]

theorem nodup_triple {A B C : List Int} (h : (A ++ B ++ C).Nodup) :
    A.Nodup ∧ B.Nodup ∧ C.Nodup ∧
      (∀ z ∈ A, z ∉ B ∧ z ∉ C) ∧ (∀ z ∈ B, z ∉ C) := by
  rw [List.append_assoc, List.nodup_append] at h
  obtain ⟨hA, hBC, hdisA⟩ := h
  rw [List.nodup_append] at hBC
  obtain ⟨hB, hC, hdisB⟩ := hBC
  refine ⟨hA, hB, hC, ?_, ?_⟩
  · intro z hz
    have := hdisA hz
    simp only [List.mem_append] at this
    exact ⟨fun h2 => this (Or.inl h2), fun h2 => this (Or.inr h2)⟩
  · intro z hz
    exact hdisB hz


theorem forest_pos_reach {nb : List (Int × List Int)} {GF : DForest}
    {visAll : Set Int} (hWF : WFF nb ∅ GF visAll) {x z : Int}
    (hx : x ∈ preF GF) (hz : z ∈ preF GF)
    (hd : (preF GF).indexOf x ≤ (preF GF).indexOf z)
    (hf : (postF GF).indexOf z ≤ (postF GF).indexOf x) :
    Reach nb x z := by
  obtain ⟨tx, pA, pZ, qB, qC, hroot, hpre, hpost, hwf, hqb, hpz⟩ :=
    wfF_package hWF x hx
  rw [Set.empty_union] at hwf
  have hndP := (wfF_fresh hWF).1
  have hndL := (wfF_post_fresh hWF).1
  rw [hpre] at hndP
  rw [hpost] at hndL
  have htP := nodup_triple hndP
  have htL := nodup_triple hndL
  obtain ⟨v, ts⟩ := tx
  have hvx : v = x := hroot
  subst hvx
  have hxseg : v ∈ preT (.node v ts) := List.mem_cons_self _ _
  have hxA : v ∉ pA := fun h2 => ((htP.2.2.2.1 v h2).1 hxseg)
  have hidxPx : (preF GF).indexOf v = pA.length := by
    rw [hpre]
    have hsh : pA ++ preT (.node v ts) ++ pZ = pA ++ v :: (preF ts ++ pZ) := by
      simp only [preT, List.append_assoc, List.cons_append]
    rw [hsh]
    exact idx_head_seg hxA
  have hz' := hz
  rw [hpre] at hz'
  rcases List.mem_append.mp hz' with h01 | hzZ
  · rcases List.mem_append.mp h01 with hzA | hzS
    · exfalso
      have hidxz : (preF GF).indexOf z < pA.length := by
        rw [hpre, List.append_assoc]
        exact (idx_mem_left hzA).2
      omega
    · exact reachA_to_reach (wfT_reach_sound hwf z hzS)
  · exfalso
    have hzC : z ∈ qC := hpz z hzZ
    have hvqB : v ∉ qB := fun h2 =>
      (htL.2.2.2.1 v h2).1 (mem_postT_iff_preT.mpr hxseg)
    have hvts : v ∉ postF ts := by
      have h2 := htL.2.1
      simp only [postT, List.nodup_append] at h2
      intro hmem
      exact h2.2.2 hmem (List.mem_singleton_self v)
    have hidxLx : (postF GF).indexOf v = qB.length + (postF ts).length := by
      rw [hpost]
      have hsh : qB ++ postT (.node v ts) ++ qC = qB ++ (postF ts ++ [v]) ++ qC := by
        simp only [postT]
      rw [hsh]
      exact idx_last_seg hvqB hvts
    have hzqB : z ∉ qB := fun h2 => (htL.2.2.2.1 z h2).2 hzC
    have hzseg : z ∉ postT (.node v ts) := fun h2 => htL.2.2.2.2 z h2 hzC
    have hidxLz : qB.length + (postT (.node v ts)).length ≤ (postF GF).indexOf z := by
      rw [hpost]
      exact idx_mem_right hzqB hzseg
    have hlen : (postT (.node v ts)).length = (postF ts).length + 1 := by
      simp [postT]
    omega

theorem forest_white_pos {nb : List (Int × List Int)} {GF : DForest}
    {visAll : Set Int} (hWF : WFF nb ∅ GF visAll) {x z : Int}
    (hx : x ∈ preF GF)
    (hr : ReachA nb {w | w ∈ preF GF ∧ (preF GF).indexOf w < (preF GF).indexOf x} x z) :
    z ∈ preF GF ∧ (preF GF).indexOf x ≤ (preF GF).indexOf z ∧
      (postF GF).indexOf z ≤ (postF GF).indexOf x := by
  obtain ⟨tx, pA, pZ, qB, qC, hroot, hpre, hpost, hwf, hqb, hpz⟩ :=
    wfF_package hWF x hx
  rw [Set.empty_union] at hwf
  have hndP := (wfF_fresh hWF).1
  have hndL := (wfF_post_fresh hWF).1
  rw [hpre] at hndP
  rw [hpost] at hndL
  have htP := nodup_triple hndP
  have htL := nodup_triple hndL
  obtain ⟨v, ts⟩ := tx
  have hvx : v = x := hroot
  subst hvx
  have hxseg : v ∈ preT (.node v ts) := List.mem_cons_self _ _
  have hxA : v ∉ pA := fun h2 => ((htP.2.2.2.1 v h2).1 hxseg)
  have hidxPx : (preF GF).indexOf v = pA.length := by
    rw [hpre]
    have hsh : pA ++ preT (.node v ts) ++ pZ = pA ++ v :: (preF ts ++ pZ) := by
      simp only [preT, List.append_assoc, List.cons_append]
    rw [hsh]
    exact idx_head_seg hxA
  have hsnap : {w | w ∈ preF GF ∧ (preF GF).indexOf w < (preF GF).indexOf v} = setL pA := by
    ext w
    simp only [Set.mem_setOf_eq, setL]
    constructor
    · rintro ⟨hwP, hwlt⟩
      have hw' := hwP
      rw [hpre] at hw'
      rcases List.mem_append.mp hw' with h01 | hwZ
      · rcases List.mem_append.mp h01 with hwA | hwS
        · exact hwA
        · exfalso
          have hwA2 : w ∉ pA := fun h2 => ((htP.2.2.2.1 w h2).1 hwS)
          have := (idx_mem_mid (A := pA) (Z := pZ) hwA2 hwS).1
          rw [← hpre] at this
          omega
      · exfalso
        have hwA2 : w ∉ pA := fun h2 => ((htP.2.2.2.1 w h2).2 hwZ)
        have hwS2 : w ∉ preT (.node v ts) := fun h2 => htP.2.2.2.2 w h2 hwZ
        have := idx_mem_right (A := pA) (Z := pZ) hwA2 hwS2
        rw [← hpre] at this
        omega
    · intro hwA
      constructor
      · rw [hpre]
        exact List.mem_append_left _ (List.mem_append_left _ hwA)
      · have : (preF GF).indexOf w < pA.length := by
          rw [hpre, List.append_assoc]
          exact (idx_mem_left hwA).2
        omega
  rw [hsnap] at hr
  have hznA : z ∉ setL pA := by
    rcases Relation.ReflTransGen.cases_tail hr with heq | ⟨b, hab, hbz⟩
    · rw [heq]
      exact hxA
    · exact hbz.2
  have hzS : z ∈ preT (.node v ts) := by
    rw [wfT_nodes_char hwf]
    exact ⟨hznA, hr⟩
  have hzP : z ∈ preF GF := by
    rw [hpre]
    exact List.mem_append_left _ (List.mem_append_right _ hzS)
  refine ⟨hzP, ?_, ?_⟩
  · have := (idx_mem_mid (A := pA) (Z := pZ) (fun h2 => hznA h2) hzS).1
    rw [← hpre] at this
    omega
  · have hzL : z ∈ postT (.node v ts) := mem_postT_iff_preT.mpr hzS
    have hzqB : z ∉ qB := fun h2 => (htL.2.2.2.1 z h2).1 hzL
    have hmid := (idx_mem_mid (A := qB) (Z := qC) hzqB hzL).2
    rw [← hpost] at hmid
    have hvqB : v ∉ qB := fun h2 =>
      (htL.2.2.2.1 v h2).1 (mem_postT_iff_preT.mpr hxseg)
    have hvts : v ∉ postF ts := by
      have h2 := htL.2.1
      simp only [postT, List.nodup_append] at h2
      intro hmem
      exact h2.2.2 hmem (List.mem_singleton_self v)
    have hidxLx : (postF GF).indexOf v = qB.length + (postF ts).length := by
      rw [hpost]
      have hsh : qB ++ postT (.node v ts) ++ qC = qB ++ (postF ts ++ [v]) ++ qC := by
        simp only [postT]
      rw [hsh]
      exact idx_last_seg hvqB hvts
    have hlen : (postT (.node v ts)).length = (postF ts).length + 1 := by
      simp [postT]
    omega

/-- Reachability along paths whose nodes after the start stay inside S. -/
def ReachIn (nb : List (Int × List Int)) (S : Set Int) : Int → Int → Prop :=
  Relation.ReflTransGen (fun a b => StepRel nb a b ∧ b ∈ S)

theorem reach_convex {nb : List (Int × List Int)} {w x : Int} :
    ∀ {a b : Int}, Reach nb a b → Reach nb w a → Reach nb b x →
      ReachIn nb {z | Reach nb w z ∧ Reach nb z x} a b := by
  intro a b hab
  induction hab with
  | refl => intro _ _; exact Relation.ReflTransGen.refl
  | tail hap hpc ih =>
    rename_i p c
    intro hwa hcx
    have hpx : Reach nb p x :=
      Relation.ReflTransGen.trans (Relation.ReflTransGen.single hpc) hcx
    have h1 := ih hwa hpx
    refine Relation.ReflTransGen.tail h1 ⟨hpc, ?_, hcx⟩
    exact Relation.ReflTransGen.trans hwa
      (Relation.ReflTransGen.trans hap (Relation.ReflTransGen.single hpc))

theorem reachIn_to_reachA {nb : List (Int × List Int)} {S : Set Int}
    {vis : Set Int} (hdis : ∀ z ∈ S, z ∉ vis) {a b : Int}
    (h : ReachIn nb S a b) : ReachA nb vis a b :=
  Relation.ReflTransGen.mono (fun _ z hs => ⟨hs.1, hdis z hs.2⟩) h

theorem exists_min_idx {L : List Int} {S : Set Int} {a : Int}
    (ha : a ∈ L) (haS : a ∈ S) :
    ∃ c, c ∈ L ∧ c ∈ S ∧ ∀ z ∈ L, z ∈ S → L.indexOf c ≤ L.indexOf z := by
  classical
  induction L with
  | nil => exact absurd ha (List.not_mem_nil a)
  | cons h Lt ih =>
    by_cases hhS : h ∈ S
    · refine ⟨h, List.mem_cons_self _ _, hhS, ?_⟩
      intro z hz hzS
      simp [List.indexOf_cons_self]
    · have haLt : a ∈ Lt := by
        rcases List.mem_cons.mp ha with rfl | h2
        · exact absurd haS hhS
        · exact h2
      obtain ⟨c, hcL, hcS, hcmin⟩ := ih haLt
      refine ⟨c, List.mem_cons_of_mem _ hcL, hcS, ?_⟩
      intro z hz hzS
      have hzh : z ≠ h := fun he => hhS (he ▸ hzS)
      have hch : c ≠ h := fun he => hhS (he ▸ hcS)
      have hzLt : z ∈ Lt := by
        rcases List.mem_cons.mp hz with rfl | h2
        · exact absurd rfl hzh
        · exact h2
      rw [List.indexOf_cons_ne _ (fun he => hch he.symm),
        List.indexOf_cons_ne _ (fun he => hzh he.symm)]
      exact Nat.succ_le_succ (hcmin z hzLt hzS)

theorem wfF_reach_closed {nb : List (Int × List Int)} {GF : DForest}
    {visAll : Set Int} (hWF : WFF nb ∅ GF visAll) {a b : Int}
    (ha : a ∈ preF GF) (hr : Reach nb a b) : b ∈ preF GF := by
  induction hr with
  | refl => exact ha
  | tail hap hpc ih =>
    rename_i p c
    have := wfF_adj_complete hWF p ih c hpc
    rw [wfF_out hWF, Set.empty_union] at this
    exact this

/-- Component-maximum lemma: if x is reachable from w and no node mutually
reachable with w finishes later than x in the DFS forest, then w and x are
mutually reachable. -/
theorem forest_scc_max {nb : List (Int × List Int)} {GF : DForest}
    {visAll : Set Int} (hWF : WFF nb ∅ GF visAll) {w x : Int}
    (hw : w ∈ preF GF) (hx : x ∈ preF GF) (hr : Reach nb w x)
    (hmax : ∀ z ∈ preF GF, Mut nb w z →
      (postF GF).indexOf z ≤ (postF GF).indexOf x) :
    Mut nb w x := by
  classical
  set S : Set Int := {z | Reach nb w z ∧ Reach nb z x} with hSdef
  have hwS : w ∈ S := ⟨Relation.ReflTransGen.refl, hr⟩
  have hxS : x ∈ S := ⟨hr, Relation.ReflTransGen.refl⟩
  have hSP : ∀ z ∈ S, z ∈ preF GF := fun z hz => wfF_reach_closed hWF hw hz.1
  obtain ⟨c, hcP, hcS, hcmin⟩ := exists_min_idx hw hwS
  have hdis : ∀ z ∈ S, z ∉ {w' | w' ∈ preF GF ∧
      (preF GF).indexOf w' < (preF GF).indexOf c} := by
    intro z hz hmem
    exact absurd hmem.2 (Nat.not_lt.mpr (hcmin z (hSP z hz) hz))
  have hCR : ∀ z ∈ S, Reach nb c z →
      ReachA nb {w' | w' ∈ preF GF ∧
        (preF GF).indexOf w' < (preF GF).indexOf c} c z := by
    intro z hz hcz
    exact reachIn_to_reachA hdis (reach_convex hcz hcS.1 hz.2)
  by_cases hcw : Mut nb w c
  · have hkey : ∀ z ∈ S, (postF GF).indexOf z ≤ (postF GF).indexOf c := by
      intro z hz
      have hcz : Reach nb c z := Relation.ReflTransGen.trans hcw.2 hz.1
      exact (forest_white_pos hWF hcP (hCR z hz hcz)).2.2
    have h1 : (postF GF).indexOf x ≤ (postF GF).indexOf c := hkey x hxS
    have h2 : (postF GF).indexOf c ≤ (postF GF).indexOf x := hmax c hcP hcw
    have hcx : c = x := by
      have hcL : c ∈ postF GF := mem_postF_iff_preF.mpr hcP
      have hxL : x ∈ postF GF := mem_postF_iff_preF.mpr hx
      exact (List.indexOf_inj hcL hxL).mp (Nat.le_antisymm h2 h1)
    rw [← hcx]
    exact hcw
  · exfalso
    have hwc : Reach nb w c := hcS.1
    have hnotcw : ¬ Reach nb c w := fun h2 => hcw ⟨hwc, h2⟩
    have hidxw : ¬ ((postF GF).indexOf w ≤ (postF GF).indexOf c) := by
      intro hle
      exact hnotcw (forest_pos_reach hWF hcP hw (hcmin w hw hwS) hle)
    have hxle : (postF GF).indexOf x ≤ (postF GF).indexOf c :=
      (forest_white_pos hWF hcP (hCR x hxS hcS.2)).2.2
    have hwle : (postF GF).indexOf w ≤ (postF GF).indexOf x :=
      hmax w hw ⟨Relation.ReflTransGen.refl, Relation.ReflTransGen.refl⟩
    omega

/-- The set of ids marked true in a visited map. -/
def visSet (vis : List (Int × Bool)) : Set Int := {x | mapGet vis x false = true}

theorem not_mem_visSet_iff {vis : List (Int × Bool)} {x : Int} :
    x ∉ visSet vis ↔ mapGet vis x false = false := by
  simp only [visSet, Set.mem_setOf_eq, Bool.not_eq_true]

theorem visSet_mapSet_true (vis : List (Int × Bool)) (v : Int) :
    visSet (mapSet vis v true) = visSet vis ∪ {v} := by
  ext x
  by_cases hx : x = v
  · subst hx
    simp [visSet, mapGet_mapSet_self]
  · simp [visSet, mapGet_mapSet_ne vis v x true false hx, hx]

theorem card_unvis_mono {U : Finset Int} {vis vis2 : List (Int × Bool)}
    (h : visSet vis ⊆ visSet vis2) :
    (U.filter (fun x => mapGet vis2 x false = false)).card ≤
      (U.filter (fun x => mapGet vis x false = false)).card := by
  apply Finset.card_le_card
  intro x hx
  rw [Finset.mem_filter] at hx ⊢
  refine ⟨hx.1, ?_⟩
  rw [← not_mem_visSet_iff]
  intro hmem
  exact (not_mem_visSet_iff.mpr hx.2) (h hmem)

theorem card_unvis_set_true {U : Finset Int} {vis : List (Int × Bool)} {v : Int}
    (hvU : v ∈ U) (hvun : mapGet vis v false = false) :
    (U.filter (fun x => mapGet (mapSet vis v true) x false = false)).card <
      (U.filter (fun x => mapGet vis x false = false)).card := by
  have hseteq : U.filter (fun x => mapGet (mapSet vis v true) x false = false) =
      (U.filter (fun x => mapGet vis x false = false)).erase v := by
    ext x
    rw [Finset.mem_erase, Finset.mem_filter, Finset.mem_filter]
    by_cases hx : x = v
    · subst hx
      simp [mapGet_mapSet_self]
    · simp [mapGet_mapSet_ne vis v x true false hx, hx]
  rw [hseteq]
  apply Finset.card_erase_lt_of_mem
  rw [Finset.mem_filter]
  exact ⟨hvU, hvun⟩

/-- Kosaraju's first dfs builds a well-formed DFS tree: it appends the
tree's postorder to the finish stack and visits exactly the tree's nodes. -/
theorem kosaDfs1_wf (nb : List (Int × List Int)) (U : Finset Int)
    (hUc : ∀ u : Int, u ∈ U → ∀ y ∈ adjL nb u, y ∈ U) :
    ∀ (fuel : Nat) (vis : List (Int × Bool)) (ord : List Int) (v : Int),
      v ∈ U → mapGet vis v false = false →
      (U.filter (fun x => mapGet vis x false = false)).card < fuel →
      ∃ (t : DTree) (vis' : List (Int × Bool)),
        kosarajuDfs1 nb fuel v (vis, ord) = (vis', ord ++ postT t) ∧
        rootT t = v ∧
        WFT nb (visSet vis) t (visSet vis') ∧
        visSet vis' = visSet vis ∪ setL (preT t) := by
  intro fuel
  induction fuel with
  | zero => intro vis ord v hvU hvun hcard; omega
  | succ fuel ih =>
    have fold : ∀ (ws : List Int), (∀ w ∈ ws, w ∈ U) →
        ∀ (vis : List (Int × Bool)) (ord : List Int),
        (U.filter (fun x => mapGet vis x false = false)).card < fuel →
        ∃ (f : DForest) (vis' : List (Int × Bool)),
          ws.foldl (fun (acc : List (Int × Bool) × List Int) w =>
              if mapGet acc.1 w false then acc
              else kosarajuDfs1 nb fuel w acc) (vis, ord) =
            (vis', ord ++ postF f) ∧
          WFF nb (visSet vis) f (visSet vis') ∧
          visSet vis' = visSet vis ∪ setL (preF f) ∧
          (∀ t0, tmemF t0 f → rootT t0 ∈ ws) ∧
          (∀ w ∈ ws, w ∈ visSet vis') := by
      intro ws
      induction ws with
      | nil =>
        intro _ vis ord hcard
        refine ⟨.nil, vis, by simp [postF], WFF.nil, ?_, ?_, ?_⟩
        · simp only [preF, setL]
          ext z
          simp
        · intro t0 h0
          exact absurd h0 (by simp [tmemF])
        · intro w hw
          exact absurd hw (List.not_mem_nil w)
      | cons w ws' ihw =>
        intro hws vis ord hcard
        rw [List.foldl_cons]
        by_cases hvisw : mapGet vis w false = true
        · simp only [hvisw, if_true]
          obtain ⟨f, vis', heq, hwff, hvs, hroots, hcompl⟩ :=
            ihw (fun a ha => hws a (List.mem_cons_of_mem _ ha)) vis ord hcard
          refine ⟨f, vis', heq, hwff, hvs, ?_, ?_⟩
          · intro t0 h0
            exact List.mem_cons_of_mem _ (hroots t0 h0)
          · intro a ha
            rcases List.mem_cons.mp ha with rfl | ha2
            · rw [hvs]
              exact Set.mem_union_left _ hvisw
            · exact hcompl a ha2
        · have hvisw' : mapGet vis w false = false := by
            cases h : mapGet vis w false
            · rfl
            · exact absurd h hvisw
          simp only [hvisw', Bool.false_eq_true, if_false]
          obtain ⟨t, vis1, heq1, hroot1, hwft1, hvs1⟩ :=
            ih vis ord w (hws w (List.mem_cons_self _ _)) hvisw' hcard
          rw [heq1]
          have hcard1 : (U.filter (fun x => mapGet vis1 x false = false)).card < fuel := by
            have hmono : visSet vis ⊆ visSet vis1 := by
              rw [hvs1]; exact Set.subset_union_left
            have := card_unvis_mono (U := U) hmono
            omega
          obtain ⟨f, vis', heq, hwff, hvs, hroots, hcompl⟩ :=
            ihw (fun a ha => hws a (List.mem_cons_of_mem _ ha)) vis1 (ord ++ postT t) hcard1
          refine ⟨.cons t f, vis', ?_, WFF.cons hwft1 hwff, ?_, ?_, ?_⟩
          · rw [heq]
            simp [postF, List.append_assoc]
          · rw [hvs, hvs1]
            simp only [preF]
            rw [setL_append_union]
          · intro t0 h0
            rcases h0 with rfl | h0
            · rw [hroot1]
              exact List.mem_cons_self _ _
            · exact List.mem_cons_of_mem _ (hroots t0 h0)
          · intro a ha
            rcases List.mem_cons.mp ha with rfl | ha2
            · have haT : a ∈ preT t := by
                cases t with
                | node r ts =>
                  have : r = a := hroot1
                  subst this
                  exact List.mem_cons_self _ _
              rw [hvs, hvs1]
              exact Set.mem_union_left _
                (Set.mem_union_right _ haT)
            · exact hcompl a ha2
    intro vis ord v hvU hvun hcard
    have hdef : kosarajuDfs1 nb (fuel + 1) v (vis, ord) =
        ((((adjL nb v).foldl (fun (acc : List (Int × Bool) × List Int) w =>
            if mapGet acc.1 w false then acc
            else kosarajuDfs1 nb fuel w acc) (mapSet vis v true, ord))).1,
         (((adjL nb v).foldl (fun (acc : List (Int × Bool) × List Int) w =>
            if mapGet acc.1 w false then acc
            else kosarajuDfs1 nb fuel w acc) (mapSet vis v true, ord))).2 ++ [v]) := rfl
    have hcard1 : (U.filter (fun x =>
        mapGet (mapSet vis v true) x false = false)).card < fuel := by
      have := card_unvis_set_true (U := U) hvU hvun
      omega
    obtain ⟨f, vis', heq, hwff, hvs, hroots, hcompl⟩ :=
      fold (adjL nb v) (hUc v hvU) (mapSet vis v true) ord hcard1
    refine ⟨.node v f, vis', ?_, rfl, ?_, ?_⟩
    · rw [hdef, heq]
      simp [postT, List.append_assoc]
    · refine WFT.node ?_ hroots ?_ hcompl
      · rw [not_mem_visSet_iff]
        exact hvun
      · rw [← visSet_mapSet_true]
        exact hwff
    · rw [hvs, visSet_mapSet_true]
      simp only [preT]
      rw [setL_cons_union]

theorem lookup_mem {α : Type} {l : List (Int × α)} {k : Int} {v : α}
    (h : l.lookup k = some v) : (k, v) ∈ l := by
  induction l with
  | nil => simp [List.lookup] at h
  | cons p t ih =>
    rw [List.lookup_cons] at h
    by_cases hk : k = p.1
    · rw [show (k == p.1) = true from beq_iff_eq.mpr hk] at h
      simp only [Option.some.injEq] at h
      rw [List.mem_cons]
      left
      rw [hk, ← h]
    · rw [show (k == p.1) = false from beq_eq_false_iff_ne.mpr hk] at h
      exact List.mem_cons_of_mem _ (ih h)

theorem validGraph_adj {nb : List (Int × List Int)} {n : Int}
    (h : ValidGraph nb n) {x y : Int} (hy : y ∈ adjL nb x) :
    0 ≤ x ∧ x < n ∧ 0 ≤ y ∧ y < n := by
  unfold adjL mapGet at hy
  cases hl : nb.lookup x with
  | none => rw [hl] at hy; exact absurd hy (List.not_mem_nil y)
  | some l =>
    rw [hl] at hy
    have hmem := lookup_mem hl
    have := h.1 (x, l) hmem
    exact ⟨this.1, this.2.1, this.2.2 y hy⟩

/-- Concatenation of DFS forests. -/
def appF : DForest → DForest → DForest
  | .nil, g => g
  | .cons t f, g => .cons t (appF f g)

theorem preF_appF : ∀ f g, preF (appF f g) = preF f ++ preF g
  | .nil, g => by simp [appF, preF]
  | .cons t f, g => by
    simp only [appF, preF, preF_appF f g, List.append_assoc]

theorem postF_appF : ∀ f g, postF (appF f g) = postF f ++ postF g
  | .nil, g => by simp [appF, postF]
  | .cons t f, g => by
    simp only [appF, postF, postF_appF f g, List.append_assoc]

theorem wfF_app {nb : List (Int × List Int)} :
    ∀ {vis vis1 vis2 : Set Int} {f g : DForest},
      WFF nb vis f vis1 → WFF nb vis1 g vis2 → WFF nb vis (appF f g) vis2
  | _, _, _, _, _, .nil, hg => hg
  | _, _, _, _, _, .cons ht hf, hg => WFF.cons ht (wfF_app hf hg)

theorem reach_mem_finset {nb : List (Int × List Int)} {U : Finset Int}
    (hUc : ∀ u : Int, u ∈ U → ∀ y ∈ adjL nb u, y ∈ U) {a b : Int}
    (ha : a ∈ U) (hr : Reach nb a b) : b ∈ U := by
  induction hr with
  | refl => exact ha
  | tail hap hpc ih => exact hUc _ ih _ hpc

theorem setL_append (A B : List Int) : setL (A ++ B) = setL A ∪ setL B := by
  ext z
  simp [setL]

/-- The finset of valid node ids 0 .. n-1. -/
def intRange (n : Int) : Finset Int :=
  (Finset.range n.toNat).image (fun k : Nat => (k : Int))

theorem mem_intRange {n x : Int} : x ∈ intRange n ↔ 0 ≤ x ∧ x < n := by
  simp only [intRange, Finset.mem_image, Finset.mem_range]
  constructor
  · rintro ⟨k, hk, rfl⟩
    omega
  · rintro ⟨h1, h2⟩
    exact ⟨x.toNat, by omega, by omega⟩

theorem intRange_closed {nb : List (Int × List Int)} {n : Int}
    (hV : ValidGraph nb n) :
    ∀ u : Int, u ∈ intRange n → ∀ y ∈ adjL nb u, y ∈ intRange n := by
  intro u hu y hy
  have := validGraph_adj hV hy
  rw [mem_intRange]
  exact ⟨this.2.2.1, this.2.2.2⟩

theorem visSet_nil : visSet [] = ∅ := by
  ext x
  simp [visSet, mapGet, List.lookup]

theorem kosaPass1_loop (nb : List (Int × List Int)) (n : Int)
    (hV : ValidGraph nb n) (fuel : Nat) (hfuel : (intRange n).card < fuel) :
    ∀ (ks : List Nat), (∀ k ∈ ks, (k : Int) ∈ intRange n) →
    ∀ (vis : List (Int × Bool)) (F0 : DForest),
      WFF nb ∅ F0 (visSet vis) →
      visSet vis = setL (preF F0) →
      (∀ x ∈ preF F0, x ∈ intRange n) →
      ∃ (Ff : DForest) (visf : List (Int × Bool)),
        ks.foldl (fun (acc : List (Int × Bool) × List Int) (i : Nat) =>
            if mapGet acc.1 (i : Int) false then acc
            else kosarajuDfs1 nb fuel (i : Int) acc) (vis, postF F0) =
          (visf, postF Ff) ∧
        WFF nb ∅ Ff (visSet visf) ∧
        visSet visf = setL (preF Ff) ∧
        (∀ x ∈ preF Ff, x ∈ intRange n) ∧
        visSet vis ⊆ visSet visf ∧
        (∀ k ∈ ks, (k : Int) ∈ visSet visf) := by
  intro ks
  induction ks with
  | nil =>
    intro _ vis F0 hwf hvs hbound
    refine ⟨F0, vis, rfl, hwf, hvs, hbound, subset_rfl, ?_⟩
    intro k hk
    exact absurd hk (List.not_mem_nil k)
  | cons k ks' ihks =>
    intro hks vis F0 hwf hvs hbound
    rw [List.foldl_cons]
    by_cases hk : mapGet vis (k : Int) false = true
    · simp only [hk, if_true]
      obtain ⟨Ff, visf, heq, hwff, hvsf, hboundf, hmono, hcompl⟩ :=
        ihks (fun a ha => hks a (List.mem_cons_of_mem _ ha)) vis F0 hwf hvs hbound
      refine ⟨Ff, visf, heq, hwff, hvsf, hboundf, hmono, ?_⟩
      intro a ha
      rcases List.mem_cons.mp ha with rfl | ha2
      · exact hmono hk
      · exact hcompl a ha2
    · have hk' : mapGet vis (k : Int) false = false := by
        cases h2 : mapGet vis (k : Int) false
        · rfl
        · exact absurd h2 hk
      simp only [hk', Bool.false_eq_true, if_false]
      have hcard : ((intRange n).filter
          (fun x => mapGet vis x false = false)).card < fuel :=
        lt_of_le_of_lt (Finset.card_filter_le _ _) hfuel
      obtain ⟨t, vis1, heq1, hroot1, hwft1, hvs1⟩ :=
        kosaDfs1_wf nb (intRange n) (intRange_closed hV) fuel vis (postF F0)
          (k : Int) (hks k (List.mem_cons_self _ _)) hk' hcard
      rw [heq1]
      have hrootmem : (k : Int) ∈ preT t := by
        cases t with
        | node r ts =>
          have : r = (k : Int) := hroot1
          subst this
          exact List.mem_cons_self _ _
      have hpostF1 : postF F0 ++ postT t = postF (appF F0 (.cons t .nil)) := by
        rw [postF_appF]
        simp [postF]
      have hpreF1 : preF (appF F0 (.cons t .nil)) = preF F0 ++ preT t := by
        rw [preF_appF]
        simp [preF]
      have hwf1 : WFF nb ∅ (appF F0 (.cons t .nil)) (visSet vis1) :=
        wfF_app hwf (WFF.cons hwft1 WFF.nil)
      have hvs1' : visSet vis1 = setL (preF (appF F0 (.cons t .nil))) := by
        rw [hvs1, hvs, hpreF1, setL_append]
      have hbound1 : ∀ x ∈ preF (appF F0 (.cons t .nil)), x ∈ intRange n := by
        intro x hx
        rw [hpreF1] at hx
        rcases List.mem_append.mp hx with hx1 | hx2
        · exact hbound x hx1
        · have hchar := (wfT_nodes_char hwft1).mp hx2
          have hreach : Reach nb (rootT t) x := reachA_to_reach hchar.2
          rw [hroot1] at hreach
          exact reach_mem_finset (intRange_closed hV)
            (hks k (List.mem_cons_self _ _)) hreach
      rw [hpostF1]
      obtain ⟨Ff, visf, heq, hwff, hvsf, hboundf, hmono, hcompl⟩ :=
        ihks (fun a ha => hks a (List.mem_cons_of_mem _ ha)) vis1
          (appF F0 (.cons t .nil)) hwf1 hvs1' hbound1
      refine ⟨Ff, visf, heq, hwff, hvsf, hboundf, ?_, ?_⟩
      · refine subset_trans ?_ hmono
        rw [hvs1]
        exact Set.subset_union_left
      · intro a ha
        rcases List.mem_cons.mp ha with rfl | ha2
        · apply hmono
          rw [hvs1]
          exact Set.mem_union_right _ hrootmem
        · exact hcompl a ha2

theorem lookup_of_mem_nodup {α : Type} {l : List (Int × α)} {k : Int} {v : α}
    (hmem : (k, v) ∈ l) (hnd : (l.map Prod.fst).Nodup) : l.lookup k = some v := by
  induction l with
  | nil => exact absurd hmem (List.not_mem_nil _)
  | cons p t ih =>
    simp only [List.map_cons, List.nodup_cons] at hnd
    rcases List.mem_cons.mp hmem with heq | hmem2
    · rw [← heq]
      simp [List.lookup_cons]
    · have hk : k ≠ p.1 := by
        intro he
        apply hnd.1
        rw [← he]
        exact List.mem_map_of_mem Prod.fst hmem2
      rw [List.lookup_cons, show (k == p.1) = false from beq_eq_false_iff_ne.mpr hk]
      exact ih hmem2 hnd.2

theorem mapSet_keys {α : Type} {t : List (Int × α)} {k : Int} (v : α)
    (hk : k ∈ t.map Prod.fst) : (mapSet t k v).map Prod.fst = t.map Prod.fst := by
  induction t with
  | nil => exact absurd hk (by simp)
  | cons p tl ih =>
    by_cases he : p.1 = k
    · simp [mapSet, he]
    · simp only [List.map_cons, List.mem_cons] at hk
      rcases hk with h1 | h1
      · exact absurd h1.symm he
      · cases p with
        | mk p1 p2 =>
          simp only [mapSet]
          rw [if_neg he]
          simp only [List.map_cons]
          rw [ih h1]

theorem transpose_inner (src : Int) :
    ∀ (ds : List Int) (t : List (Int × List Int)),
      (∀ d ∈ ds, d ∈ t.map Prod.fst) →
      ((ds.foldl (fun t dst => mapSet t dst (mapGet t dst [] ++ [src])) t).map
          Prod.fst = t.map Prod.fst) ∧
      (∀ z x : Int,
        x ∈ mapGet (ds.foldl (fun t dst =>
            mapSet t dst (mapGet t dst [] ++ [src])) t) z [] ↔
          (x ∈ mapGet t z [] ∨ (x = src ∧ z ∈ ds))) := by
  intro ds
  induction ds with
  | nil =>
    intro t _
    simp
  | cons d ds' ih =>
    intro t hkeys
    rw [List.foldl_cons]
    have hkeys1 : (mapSet t d (mapGet t d [] ++ [src])).map Prod.fst =
        t.map Prod.fst := mapSet_keys _ (hkeys d (List.mem_cons_self _ _))
    have hkeys' : ∀ a ∈ ds', a ∈ (mapSet t d (mapGet t d [] ++ [src])).map Prod.fst := by
      intro a ha
      rw [hkeys1]
      exact hkeys a (List.mem_cons_of_mem _ ha)
    obtain ⟨ihk, ihm⟩ := ih (mapSet t d (mapGet t d [] ++ [src])) hkeys'
    constructor
    · rw [ihk, hkeys1]
    · intro z x
      rw [ihm z x]
      by_cases hz : z = d
      · subst hz
        rw [mapGet_mapSet_self]
        simp only [List.mem_append, List.mem_singleton, List.mem_cons]
        tauto
      · rw [mapGet_mapSet_ne _ _ _ _ _ hz]
        simp only [List.mem_cons]
        tauto

theorem transpose_outer :
    ∀ (ps : List (Int × List Int)) (t : List (Int × List Int)),
      (∀ p ∈ ps, ∀ d ∈ p.2, d ∈ t.map Prod.fst) →
      ((ps.foldl (fun t p => p.2.foldl (fun t dst =>
          mapSet t dst (mapGet t dst [] ++ [p.1])) t) t).map Prod.fst =
        t.map Prod.fst) ∧
      (∀ z x : Int,
        x ∈ mapGet (ps.foldl (fun t p => p.2.foldl (fun t dst =>
            mapSet t dst (mapGet t dst [] ++ [p.1])) t) t) z [] ↔
          (x ∈ mapGet t z [] ∨ ∃ p ∈ ps, p.1 = x ∧ z ∈ p.2)) := by
  intro ps
  induction ps with
  | nil =>
    intro t _
    simp
  | cons p ps' ih =>
    intro t hkeys
    rw [List.foldl_cons]
    obtain ⟨hik, him⟩ := transpose_inner p.1 p.2 t (hkeys p (List.mem_cons_self _ _))
    have hkeys' : ∀ q ∈ ps', ∀ d ∈ q.2,
        d ∈ (p.2.foldl (fun t dst =>
          mapSet t dst (mapGet t dst [] ++ [p.1])) t).map Prod.fst := by
      intro q hq d hd
      rw [hik]
      exact hkeys q (List.mem_cons_of_mem _ hq) d hd
    obtain ⟨ihk, ihm⟩ := ih _ hkeys'
    constructor
    · rw [ihk, hik]
    · intro z x
      rw [ihm z x, him z x]
      simp only [List.mem_cons]
      constructor
      · rintro (⟨h1 | ⟨rfl, h2⟩⟩ | ⟨q, hq, h3, h4⟩)
        · exact Or.inl h1
        · exact Or.inr ⟨p, Or.inl rfl, rfl, h2⟩
        · exact Or.inr ⟨q, Or.inr hq, h3, h4⟩
      · rintro (h1 | ⟨q, hq | hq, h3, h4⟩)
        · exact Or.inl (Or.inl h1)
        · subst hq
          exact Or.inl (Or.inr ⟨h3.symm, h4⟩)
        · exact Or.inr ⟨q, hq, h3, h4⟩

theorem mapGet_range_nil {n : Nat} {z : Int} :
    mapGet ((List.range n).map fun i : Nat => ((i : Int), ([] : List Int))) z [] = [] := by
  induction (List.range n) with
  | nil => simp [mapGet, List.lookup]
  | cons a l ih =>
    simp only [List.map_cons, mapGet, List.lookup_cons]
    by_cases hz : z = (a : Int)
    · rw [show (z == (a : Int)) = true from beq_iff_eq.mpr hz]
    · rw [show (z == (a : Int)) = false from beq_eq_false_iff_ne.mpr hz]
      simpa [mapGet] using ih

theorem mem_keys_range {n : Int} {d : Int} (h1 : 0 ≤ d) (h2 : d < n) :
    d ∈ (((List.range n.toNat).map fun i : Nat =>
        ((i : Int), ([] : List Int))).map Prod.fst) := by
  simp only [List.map_map, List.mem_map, Function.comp]
  exact ⟨d.toNat, by rw [List.mem_range]; omega, by omega⟩

/-- Edge characterization of the Kosaraju transpose on a valid graph:
x is a transpose-successor of z exactly when z is a successor of x. -/
theorem transpose_adj {nb : List (Int × List Int)} {n : Int}
    (hV : ValidGraph nb n) (z x : Int) :
    x ∈ adjL (kosarajuTranspose nb n) z ↔ z ∈ adjL nb x := by
  have hkeys : ∀ p ∈ nb, ∀ d ∈ p.2,
      d ∈ (((List.range n.toNat).map fun i : Nat =>
        ((i : Int), ([] : List Int))).map Prod.fst) := by
    intro p hp d hd
    have := (hV.1 p hp).2.2 d hd
    exact mem_keys_range this.1 this.2
  have h := (transpose_outer nb _ hkeys).2 z x
  unfold adjL kosarajuTranspose
  rw [h, mapGet_range_nil]
  simp only [List.not_mem_nil, false_or]
  constructor
  · rintro ⟨p, hp, rfl, hz⟩
    have hl : nb.lookup p.1 = some p.2 := lookup_of_mem_nodup hp hV.2
    unfold mapGet
    rw [hl]
    exact hz
  · intro hz
    unfold mapGet at hz
    cases hl : nb.lookup x with
    | none => rw [hl] at hz; exact absurd hz (List.not_mem_nil z)
    | some l =>
      rw [hl] at hz
      exact ⟨(x, l), lookup_mem hl, rfl, hz⟩

/-- Kosaraju's second dfs builds a well-formed DFS tree over the transpose:
it appends the tree's preorder to the component under construction. -/
theorem kosaDfs2_wf (tr : List (Int × List Int)) (U : Finset Int)
    (hUc : ∀ u : Int, u ∈ U → ∀ y ∈ adjL tr u, y ∈ U) :
    ∀ (fuel : Nat) (vis : List (Int × Bool)) (comp : List Int) (v : Int),
      v ∈ U → mapGet vis v false = false →
      (U.filter (fun x => mapGet vis x false = false)).card < fuel →
      ∃ (t : DTree) (vis' : List (Int × Bool)),
        kosarajuDfs2 tr fuel v (vis, comp) = (vis', comp ++ preT t) ∧
        rootT t = v ∧
        WFT tr (visSet vis) t (visSet vis') ∧
        visSet vis' = visSet vis ∪ setL (preT t) := by
  intro fuel
  induction fuel with
  | zero => intro vis comp v hvU hvun hcard; omega
  | succ fuel ih =>
    have fold : ∀ (ws : List Int), (∀ w ∈ ws, w ∈ U) →
        ∀ (vis : List (Int × Bool)) (comp : List Int),
        (U.filter (fun x => mapGet vis x false = false)).card < fuel →
        ∃ (f : DForest) (vis' : List (Int × Bool)),
          ws.foldl (fun (acc : List (Int × Bool) × List Int) w =>
              if mapGet acc.1 w false then acc
              else kosarajuDfs2 tr fuel w acc) (vis, comp) =
            (vis', comp ++ preF f) ∧
          WFF tr (visSet vis) f (visSet vis') ∧
          visSet vis' = visSet vis ∪ setL (preF f) ∧
          (∀ t0, tmemF t0 f → rootT t0 ∈ ws) ∧
          (∀ w ∈ ws, w ∈ visSet vis') := by
      intro ws
      induction ws with
      | nil =>
        intro _ vis comp hcard
        refine ⟨.nil, vis, by simp [preF], WFF.nil, ?_, ?_, ?_⟩
        · simp only [preF, setL]
          ext z
          simp
        · intro t0 h0
          exact absurd h0 (by simp [tmemF])
        · intro w hw
          exact absurd hw (List.not_mem_nil w)
      | cons w ws' ihw =>
        intro hws vis comp hcard
        rw [List.foldl_cons]
        by_cases hvisw : mapGet vis w false = true
        · simp only [hvisw, if_true]
          obtain ⟨f, vis', heq, hwff, hvs, hroots, hcompl⟩ :=
            ihw (fun a ha => hws a (List.mem_cons_of_mem _ ha)) vis comp hcard
          refine ⟨f, vis', heq, hwff, hvs, ?_, ?_⟩
          · intro t0 h0
            exact List.mem_cons_of_mem _ (hroots t0 h0)
          · intro a ha
            rcases List.mem_cons.mp ha with rfl | ha2
            · rw [hvs]
              exact Set.mem_union_left _ hvisw
            · exact hcompl a ha2
        · have hvisw' : mapGet vis w false = false := by
            cases h : mapGet vis w false
            · rfl
            · exact absurd h hvisw
          simp only [hvisw', Bool.false_eq_true, if_false]
          obtain ⟨t, vis1, heq1, hroot1, hwft1, hvs1⟩ :=
            ih vis comp w (hws w (List.mem_cons_self _ _)) hvisw' hcard
          rw [heq1]
          have hcard1 : (U.filter (fun x => mapGet vis1 x false = false)).card < fuel := by
            have hmono : visSet vis ⊆ visSet vis1 := by
              rw [hvs1]; exact Set.subset_union_left
            have := card_unvis_mono (U := U) hmono
            omega
          obtain ⟨f, vis', heq, hwff, hvs, hroots, hcompl⟩ :=
            ihw (fun a ha => hws a (List.mem_cons_of_mem _ ha)) vis1 (comp ++ preT t) hcard1
          refine ⟨.cons t f, vis', ?_, WFF.cons hwft1 hwff, ?_, ?_, ?_⟩
          · rw [heq]
            simp [preF, List.append_assoc]
          · rw [hvs, hvs1]
            simp only [preF]
            rw [setL_append_union]
          · intro t0 h0
            rcases h0 with rfl | h0
            · rw [hroot1]
              exact List.mem_cons_self _ _
            · exact List.mem_cons_of_mem _ (hroots t0 h0)
          · intro a ha
            rcases List.mem_cons.mp ha with rfl | ha2
            · have haT : a ∈ preT t := by
                cases t with
                | node r ts =>
                  have : r = a := hroot1
                  subst this
                  exact List.mem_cons_self _ _
              rw [hvs, hvs1]
              exact Set.mem_union_left _ (Set.mem_union_right _ haT)
            · exact hcompl a ha2
    intro vis comp v hvU hvun hcard
    have hdef : kosarajuDfs2 tr (fuel + 1) v (vis, comp) =
        (adjL tr v).foldl (fun (acc : List (Int × Bool) × List Int) w =>
            if mapGet acc.1 w false then acc
            else kosarajuDfs2 tr fuel w acc) (mapSet vis v true, comp ++ [v]) := rfl
    have hcard1 : (U.filter (fun x =>
        mapGet (mapSet vis v true) x false = false)).card < fuel := by
      have := card_unvis_set_true (U := U) hvU hvun
      omega
    obtain ⟨f, vis', heq, hwff, hvs, hroots, hcompl⟩ :=
      fold (adjL tr v) (hUc v hvU) (mapSet vis v true) (comp ++ [v]) hcard1
    refine ⟨.node v f, vis', ?_, rfl, ?_, ?_⟩
    · rw [hdef, heq]
      simp [preT, List.append_assoc]
    · refine WFT.node ?_ hroots ?_ hcompl
      · rw [not_mem_visSet_iff]
        exact hvun
      · rw [← visSet_mapSet_true]
        exact hwff
    · rw [hvs, visSet_mapSet_true]
      simp only [preT]
      rw [setL_cons_union]

theorem mut_refl {nb : List (Int × List Int)} (x : Int) : Mut nb x x :=
  ⟨Relation.ReflTransGen.refl, Relation.ReflTransGen.refl⟩

theorem mut_symm {nb : List (Int × List Int)} {x y : Int} (h : Mut nb x y) :
    Mut nb y x := ⟨h.2, h.1⟩

theorem mut_trans {nb : List (Int × List Int)} {x y z : Int}
    (h1 : Mut nb x y) (h2 : Mut nb y z) : Mut nb x z :=
  ⟨Relation.ReflTransGen.trans h1.1 h2.1, Relation.ReflTransGen.trans h2.2 h1.2⟩

theorem scc_eq_of_mut {nb : List (Int × List Int)} {x y : Int} (h : Mut nb x y) :
    {z | Mut nb x z} = {z | Mut nb y z} := by
  ext z
  simp only [Set.mem_setOf_eq]
  exact ⟨fun h2 => mut_trans (mut_symm h) h2, fun h2 => mut_trans h h2⟩

theorem reach_transpose_to {nb : List (Int × List Int)} {n : Int}
    (hV : ValidGraph nb n) {v y : Int}
    (h : Reach (kosarajuTranspose nb n) v y) : Reach nb y v := by
  induction h with
  | refl => exact Relation.ReflTransGen.refl
  | tail hap hpc ih =>
    rename_i p c
    have hstep : StepRel nb c p := (transpose_adj hV p c).mp hpc
    exact Relation.ReflTransGen.head hstep ih

theorem mem_of_reachIn {nb : List (Int × List Int)} {S : Set Int} {a b : Int}
    (h : ReachIn nb S a b) (ha : a ∈ S) : b ∈ S := by
  rcases Relation.ReflTransGen.cases_tail h with heq | ⟨c, hac, hcb⟩
  · rw [heq]; exact ha
  · exact hcb.2

theorem reachIn_transpose {nb : List (Int × List Int)} {n : Int}
    (hV : ValidGraph nb n) {S : Set Int} {a b : Int}
    (h : ReachIn nb S a b) (ha : a ∈ S) :
    ReachIn (kosarajuTranspose nb n) S b a := by
  induction h with
  | refl => exact Relation.ReflTransGen.refl
  | tail hap hpc ih =>
    rename_i p c
    have hpS : p ∈ S := mem_of_reachIn hap ha
    have hstep : StepRel (kosarajuTranspose nb n) c p :=
      (transpose_adj hV c p).mpr hpc.1
    exact Relation.ReflTransGen.head ⟨hstep, hpS⟩ ih

/-- The family of node sets named by a list of components. -/
def partsOf (l : List (List Int)) : Set (Set Int) := {S | ∃ c ∈ l, S = setL c}

/-- The semantic partition of the valid ids into strongly connected
components. -/
def sccPartition (nb : List (Int × List Int)) (n : Int) : Set (Set Int) :=
  {S | ∃ x : Int, 0 ≤ x ∧ x < n ∧ S = {y | Mut nb x y}}

theorem kosaPass2_loop {nb : List (Int × List Int)} {n : Int}
    (hV : ValidGraph nb n) {GF : DForest} {visAll : Set Int}
    (hWF : WFF nb ∅ GF visAll)
    (hboundP : ∀ x ∈ preF GF, x ∈ intRange n)
    (hcover : ∀ x : Int, 0 ≤ x → x < n → x ∈ preF GF)
    (fuel : Nat) (hfuel : (intRange n).card < fuel) :
    ∀ (rs done : List Int), (postF GF).reverse = done ++ rs →
    ∀ (vis2 : List (Int × Bool)) (comps : List (List Int)),
      (∀ z ∈ done, z ∈ visSet vis2) →
      (∀ z ∈ visSet vis2, z ∈ setL (preF GF)) →
      (∀ z ∈ visSet vis2, ∀ y, Mut nb z y → y ∈ visSet vis2) →
      (∀ c ∈ comps, ∃ r, r ∈ setL (preF GF) ∧ setL c = {y | Mut nb r y}) →
      (∀ z ∈ visSet vis2, ∃ c ∈ comps, z ∈ setL c) →
      ∃ (visf2 : List (Int × Bool)) (compsf : List (List Int)),
        rs.foldl (fun (acc : List (Int × Bool) × List (List Int)) v =>
            if mapGet acc.1 v false then acc
            else
              let r := kosarajuDfs2 (kosarajuTranspose nb n) fuel v (acc.1, [])
              (r.1, acc.2 ++ [r.2])) (vis2, comps) = (visf2, compsf) ∧
        (∀ z ∈ setL (postF GF), z ∈ visSet visf2) ∧
        (∀ c ∈ compsf, ∃ r, r ∈ setL (preF GF) ∧ setL c = {y | Mut nb r y}) ∧
        (∀ z ∈ visSet visf2, ∃ c ∈ compsf, z ∈ setL c) ∧
        (∀ c ∈ comps, c ∈ compsf) := by
  have hUctr : ∀ u : Int, u ∈ intRange n →
      ∀ y ∈ adjL (kosarajuTranspose nb n) u, y ∈ intRange n := by
    intro u hu y hy
    have := validGraph_adj hV ((transpose_adj hV u y).mp hy)
    rw [mem_intRange]
    exact ⟨this.1, this.2.1⟩
  intro rs
  induction rs with
  | nil =>
    intro done hsplit vis2 comps hdone hsub hclosed hcomp hcoverc
    refine ⟨vis2, comps, rfl, ?_, hcomp, hcoverc, fun c hc => hc⟩
    intro z hz
    apply hdone
    have : z ∈ (postF GF).reverse := List.mem_reverse.mpr hz
    rw [hsplit] at this
    rcases List.mem_append.mp this with h1 | h1
    · exact h1
    · exact absurd h1 (List.not_mem_nil z)
  | cons v rs' ihrs =>
    intro done hsplit vis2 comps hdone hsub hclosed hcomp hcoverc
    rw [List.foldl_cons]
    by_cases hvisv : mapGet vis2 v false = true
    · simp only [hvisv, if_true]
      exact ihrs (done ++ [v]) (by rw [hsplit]; simp) vis2 comps
        (by
          intro z hz
          rcases List.mem_append.mp hz with h1 | h1
          · exact hdone z h1
          · rw [List.mem_singleton] at h1
            subst h1
            exact hvisv)
        hsub hclosed hcomp hcoverc
    · have hvisv' : mapGet vis2 v false = false := by
        cases h : mapGet vis2 v false
        · rfl
        · exact absurd h hvisv
      simp only [hvisv', Bool.false_eq_true, if_false]
      have hvL : v ∈ setL (postF GF) := by
        have : v ∈ (postF GF).reverse := by
          rw [hsplit]
          exact List.mem_append_right _ (List.mem_cons_self _ _)
        exact List.mem_reverse.mp this
      have hvP : v ∈ preF GF := mem_postF_iff_preF.mp hvL
      have hvU : v ∈ intRange n := hboundP v hvP
      have hcard : ((intRange n).filter
          (fun x => mapGet vis2 x false = false)).card < fuel :=
        lt_of_le_of_lt (Finset.card_filter_le _ _) hfuel
      obtain ⟨t, vis2', heq1, hroot1, hwft, hvs1⟩ :=
        kosaDfs2_wf (kosarajuTranspose nb n) (intRange n) hUctr fuel
          vis2 [] v hvU hvisv' hcard
      rw [List.nil_append] at heq1
      have hvnotvis : v ∉ visSet vis2 := not_mem_visSet_iff.mpr hvisv'
      -- the collected component is exactly the SCC of v
      have hLrev : postF GF = rs'.reverse ++ v :: done.reverse := by
        have h1 : postF GF = ((postF GF).reverse).reverse := by
          rw [List.reverse_reverse]
        rw [h1, hsplit]
        simp [List.reverse_append]
      have hndL := (wfF_post_fresh hWF).1
      have hndL' := hndL
      rw [hLrev] at hndL'
      have htL : (rs'.reverse ++ [v] ++ done.reverse).Nodup := by
        have : rs'.reverse ++ [v] ++ done.reverse = rs'.reverse ++ v :: done.reverse := by
          simp
        rw [this]
        exact hndL'
      have htLp := nodup_triple htL
      have hvnotrs : v ∉ rs'.reverse := fun h2 =>
        (htLp.2.2.2.1 v h2).1 (List.mem_singleton_self v)
      have hidxv : (postF GF).indexOf v = rs'.reverse.length := by
        rw [hLrev]
        exact idx_head_seg hvnotrs
      have hmaxpos : ∀ z ∈ preF GF, z ∉ visSet vis2 →
          (postF GF).indexOf z ≤ (postF GF).indexOf v := by
        intro z hzP hznv
        have hzL : z ∈ (postF GF).reverse :=
          List.mem_reverse.mpr (mem_postF_iff_preF.mpr hzP)
        rw [hsplit] at hzL
        rcases List.mem_append.mp hzL with h1 | h1
        · exact absurd (hdone z h1) hznv
        · rcases List.mem_cons.mp h1 with rfl | h2
          · exact Nat.le_refl _
          · have hzrev : z ∈ rs'.reverse := List.mem_reverse.mpr h2
            have : (postF GF).indexOf z < rs'.reverse.length := by
              rw [hLrev]
              exact (idx_mem_left hzrev).2
            omega
      have hscc : setL (preT t) = {y | Mut nb v y} := by
        ext y
        simp only [setL, Set.mem_setOf_eq]
        constructor
        · intro hy
          have hychar := (wfT_nodes_char hwft).mp hy
          rw [hroot1] at hychar
          have hreachtr : Reach (kosarajuTranspose nb n) v y :=
            reachA_to_reach hychar.2
          have hyv : Reach nb y v := reach_transpose_to hV hreachtr
          have hyU : y ∈ intRange n :=
            reach_mem_finset hUctr hvU hreachtr
          have hyP : y ∈ preF GF := by
            rw [mem_intRange] at hyU
            exact hcover y hyU.1 hyU.2
          have hmut : Mut nb y v := by
            apply forest_scc_max hWF hyP hvP hyv
            intro z hzP hmz
            apply hmaxpos z hzP
            intro hzv
            exact hychar.1 (hclosed z hzv y (mut_symm hmz))
          exact mut_symm hmut
        · intro hmut
          have hynv : y ∉ visSet vis2 := by
            intro hyv
            exact hvnotvis (hclosed y hyv v (mut_symm hmut))
          have hS'sub : ∀ z ∈ {z | Reach nb y z ∧ Reach nb z v}, Mut nb v z := by
            intro z hz
            exact ⟨Relation.ReflTransGen.trans hmut.1 hz.1, hz.2⟩
          have hRin : ReachIn nb {z | Reach nb y z ∧ Reach nb z v} y v :=
            reach_convex hmut.2 Relation.ReflTransGen.refl
              Relation.ReflTransGen.refl
          have hRtr : ReachIn (kosarajuTranspose nb n)
              {z | Reach nb y z ∧ Reach nb z v} v y :=
            reachIn_transpose hV hRin ⟨Relation.ReflTransGen.refl, hmut.2⟩
          have hRA : ReachA (kosarajuTranspose nb n) (visSet vis2) v y := by
            apply reachIn_to_reachA _ hRtr
            intro z hz hzvis
            exact hvnotvis (hclosed z hzvis v (mut_symm (hS'sub z hz)))
          rw [wfT_nodes_char hwft, hroot1]
          exact ⟨hynv, hRA⟩
      -- thread the invariants through the recursive call
      have hrootmem : v ∈ preT t := by
        cases t with
        | node r ts =>
          have : r = v := hroot1
          subst this
          exact List.mem_cons_self _ _
      have hsub' : ∀ z ∈ visSet vis2', z ∈ setL (preF GF) := by
        intro z hz
        rw [hvs1] at hz
        rcases hz with h1 | h1
        · exact hsub z h1
        · rw [hscc] at h1
          have : Reach nb v z := h1.1
          exact wfF_reach_closed hWF hvP this
      have hclosed' : ∀ z ∈ visSet vis2', ∀ y, Mut nb z y → y ∈ visSet vis2' := by
        intro z hz y hmz
        rw [hvs1] at hz ⊢
        rcases hz with h1 | h1
        · exact Or.inl (hclosed z h1 y hmz)
        · right
          rw [hscc] at h1 ⊢
          exact mut_trans h1 hmz
      have hcomp' : ∀ c ∈ comps ++ [preT t],
          ∃ r, r ∈ setL (preF GF) ∧ setL c = {y | Mut nb r y} := by
        intro c hc
        rcases List.mem_append.mp hc with h1 | h1
        · exact hcomp c h1
        · rw [List.mem_singleton] at h1
          subst h1
          exact ⟨v, hvP, hscc⟩
      have hcoverc' : ∀ z ∈ visSet vis2', ∃ c ∈ comps ++ [preT t], z ∈ setL c := by
        intro z hz
        rw [hvs1] at hz
        rcases hz with h1 | h1
        · obtain ⟨c, hc, hzc⟩ := hcoverc z h1
          exact ⟨c, List.mem_append_left _ hc, hzc⟩
        · exact ⟨preT t, List.mem_append_right _ (List.mem_singleton_self _), h1⟩
      have hdone' : ∀ z ∈ done ++ [v], z ∈ visSet vis2' := by
        intro z hz
        rcases List.mem_append.mp hz with h1 | h1
        · rw [hvs1]
          exact Or.inl (hdone z h1)
        · rw [List.mem_singleton] at h1
          subst h1
          rw [hvs1]
          exact Or.inr hrootmem
      have hsplit' : (postF GF).reverse = (done ++ [v]) ++ rs' := by
        rw [hsplit]
        simp
      obtain ⟨visf2, compsf, heqf, hallf, hcompf, hcovf, hextf⟩ :=
        ihrs (done ++ [v]) hsplit' vis2' (comps ++ [preT t])
          hdone' hsub' hclosed' hcomp' hcoverc'
      refine ⟨visf2, compsf, ?_, hallf, hcompf, hcovf, ?_⟩
      · rw [← heqf]
        simp only [heq1]
      · intro c hc
        exact hextf c (List.mem_append_left _ hc)

/-- Kosaraju's output on a valid graph names exactly the semantic partition
of the ids into strongly connected components. -/
theorem kosaraju_partition {nb : List (Int × List Int)} {n : Int}
    (hV : ValidGraph nb n) :
    partsOf (Kosaraju nb n) = sccPartition nb n := by
  have hfuel : (intRange n).card <
      n.toNat + ((nb.map fun p => p.2.length).sum) + 2 := by
    have h1 : (intRange n).card ≤ n.toNat := by
      unfold intRange
      exact le_trans Finset.card_image_le (le_of_eq (Finset.card_range _))
    omega
  obtain ⟨Ff, visf, heqp1, hwff, hvsf, hboundf, hmono, hcomplf⟩ :=
    kosaPass1_loop nb n hV (n.toNat + ((nb.map fun p => p.2.length).sum) + 2)
      hfuel (List.range n.toNat)
      (by
        intro k hk
        rw [List.mem_range] at hk
        rw [mem_intRange]
        omega)
      [] .nil
      (by rw [visSet_nil]; exact WFF.nil)
      (by rw [visSet_nil]; simp [preF, setL])
      (by intro x hx; exact absurd hx (List.not_mem_nil x))
  simp only [postF] at heqp1
  have hcover : ∀ x : Int, 0 ≤ x → x < n → x ∈ preF Ff := by
    intro x h1 h2
    have hk : x.toNat ∈ List.range n.toNat := by
      rw [List.mem_range]
      omega
    have := hcomplf x.toNat hk
    rw [hvsf] at this
    have hxe : ((x.toNat : Nat) : Int) = x := by omega
    rw [hxe] at this
    exact this
  obtain ⟨visf2, compsf, heqp2, hallf, hcompf, hcovf, _⟩ :=
    kosaPass2_loop hV hwff hboundf hcover
      (n.toNat + ((nb.map fun p => p.2.length).sum) + 2) hfuel
      (postF Ff).reverse [] rfl [] []
      (by intro z hz; exact absurd hz (List.not_mem_nil z))
      (by rw [visSet_nil]; intro z hz; exact absurd hz (Set.not_mem_empty z))
      (by rw [visSet_nil]; intro z hz; exact absurd hz (Set.not_mem_empty z))
      (by intro c hc; exact absurd hc (List.not_mem_nil c))
      (by rw [visSet_nil]; intro z hz; exact absurd hz (Set.not_mem_empty z))
  have hK : Kosaraju nb n = compsf := by
    simp only [Kosaraju, heqp1]
    rw [heqp2]
  rw [hK]
  ext S
  simp only [partsOf, sccPartition, Set.mem_setOf_eq]
  constructor
  · rintro ⟨c, hc, rfl⟩
    obtain ⟨r, hrP, hceq⟩ := hcompf c hc
    have hrU := hboundf r hrP
    rw [mem_intRange] at hrU
    exact ⟨r, hrU.1, hrU.2, hceq⟩
  · rintro ⟨x, h1, h2, rfl⟩
    have hxP : x ∈ preF Ff := hcover x h1 h2
    have hxL : x ∈ setL (postF Ff) := mem_postF_iff_preF.mpr hxP
    have hxv : x ∈ visSet visf2 := hallf x hxL
    obtain ⟨c, hc, hxc⟩ := hcovf x hxv
    obtain ⟨r, hrP, hceq⟩ := hcompf c hc
    refine ⟨c, hc, ?_⟩
    have hmut : Mut nb r x := by
      have := hxc
      rw [hceq] at this
      exact this
    rw [hceq]
    exact (scc_eq_of_mut hmut).symm

/-- Discovery index read of a Tarjan state. -/
def tIdx (st : TarjanState) (x : Int) : Int := mapGet st.indices x 0

/-- Lowlink read of a Tarjan state. -/
def tLow (st : TarjanState) (x : Int) : Int := mapGet st.lowlinks x 0

/-- The set of ids that Tarjan has assigned a discovery index. -/
def tD (st : TarjanState) : Set Int := {x | mapFind st.indices x ≠ none}

/-- The set of ids already emitted in some component. -/
def tE (st : TarjanState) : Set Int := {z | ∃ c ∈ st.sccs, z ∈ c}

theorem mapGet_eq_of_mapFind {α : Type} {m : List (Int × α)} {x : Int} {v : α}
    (h : mapFind m x = some v) (d : α) : mapGet m x d = v := by
  unfold mapGet
  unfold mapFind at h
  rw [h]

theorem mapFind_mapSet_self {α : Type} (m : List (Int × α)) (k : Int) (v : α) :
    mapFind (mapSet m k v) k = some v := by
  simp [mapFind, lookup_mapSet_self]

theorem mapFind_mapSet_ne {α : Type} (m : List (Int × α)) (k x : Int) (v : α)
    (h : x ≠ k) : mapFind (mapSet m k v) x = mapFind m x := by
  simp [mapFind, lookup_mapSet_ne m k x v h]

theorem tD_mapSet (st : List (Int × Int)) (v k : Int) :
    {x | mapFind (mapSet st v k) x ≠ none} = {x | mapFind st x ≠ none} ∪ {v} := by
  ext x
  by_cases hx : x = v
  · subst hx
    simp [mapFind_mapSet_self]
  · simp [mapFind_mapSet_ne st v x k hx, hx]

/-- The Tarjan loop/state invariant, parametrized by the chain G of ids whose
strongConnect frames are currently active (in nesting order). -/
structure TInv (nb : List (Int × List Int)) (n : Int) (G : List Int)
    (st : TarjanState) : Prop where
  nodup : st.stack.Nodup
  dIff : ∀ x, x ∈ tD st ↔ (x ∈ st.stack ∨ x ∈ tE st)
  stackE : ∀ x ∈ st.stack, x ∉ tE st
  onS : ∀ x, mapGet st.onStack x false = true ↔ x ∈ st.stack
  sorted : st.stack.Pairwise (fun a b => tIdx st a < tIdx st b)
  idxLt : ∀ x ∈ tD st, 0 ≤ tIdx st x ∧ tIdx st x < st.index
  lowSound : ∀ x ∈ st.stack, tLow st x ≤ tIdx st x ∧
    (tLow st x = tIdx st x ∨
      ∃ p ∈ st.stack, tIdx st p = tLow st x ∧ Reach nb x p)
  finStack : ∀ x ∈ st.stack, x ∉ G →
    tLow st x < tIdx st x ∧ ∀ y ∈ adjL nb x, y ∈ tD st
  grayStack : ∀ g ∈ G, g ∈ st.stack
  comps : ∀ c ∈ st.sccs, ∃ r, r ∈ tD st ∧ setL c = {y | Mut nb r y}
  eClosed : ∀ z ∈ tE st, ∀ y, Mut nb z y → y ∈ tE st
  dRange : ∀ x ∈ tD st, x ∈ intRange n
  indexNN : 0 ≤ st.index

/-- The Tarjan pop loop pops the stack segment strictly above v together
with v itself, collects it (top first) into the component, unmarks onStack
for the popped ids, and leaves everything else unchanged. -/
theorem tarjanPopLoop_spec (v : Int) :
    ∀ (fuel : Nat) (B : List Int) (st : TarjanState) (scc0 A : List Int),
      st.stack = A ++ v :: B → (v :: B).Nodup → B.length < fuel →
      ∃ st3 : TarjanState,
        tarjanPopLoop v fuel st scc0 = (st3, scc0 ++ B.reverse ++ [v]) ∧
        st3.stack = A ∧
        st3.indices = st.indices ∧ st3.lowlinks = st.lowlinks ∧
        st3.index = st.index ∧ st3.sccs = st.sccs ∧
        (∀ x : Int, x ∉ v :: B →
          mapGet st3.onStack x false = mapGet st.onStack x false) ∧
        (∀ x ∈ v :: B, mapGet st3.onStack x false = false) := by
  intro fuel
  induction fuel with
  | zero => intro B st scc0 A hst hnd hlen; omega
  | succ fuel ih =>
    intro B st scc0 A hst hnd hlen
    rcases List.eq_nil_or_concat B with rfl | ⟨B', b, rfl⟩
    · have hlast : st.stack.getLast? = some v := by
        rw [hst]
        have : A ++ [v] = A ++ [v] := rfl
        rw [show A ++ v :: ([] : List Int) = A ++ [v] by simp]
        exact List.getLast?_concat _
      have hdrop : st.stack.dropLast = A := by
        rw [hst, show A ++ v :: ([] : List Int) = A ++ [v] by simp]
        exact List.dropLast_concat
      refine ⟨{ st with
          stack := st.stack.dropLast
          onStack := mapSet st.onStack v false }, ?_, hdrop, rfl, rfl, rfl, rfl, ?_, ?_⟩
      · show tarjanPopLoop v (fuel + 1) st scc0 = _
        unfold tarjanPopLoop
        rw [hlast]
        simp
      · intro x hx
        have hxv : x ≠ v := by
          intro he
          exact hx (he ▸ List.mem_cons_self _ _)
        exact mapGet_mapSet_ne _ _ _ _ _ hxv
      · intro x hx
        have hxv : x = v := by
          rcases List.mem_cons.mp hx with h1 | h1
          · exact h1
          · exact absurd h1 (List.not_mem_nil x)
        subst hxv
        exact mapGet_mapSet_self _ _ _ _
    · simp only [List.concat_eq_append] at hst hnd hlen ⊢
      have hlast : st.stack.getLast? = some b := by
        rw [hst, show A ++ v :: (B' ++ [b]) = (A ++ v :: B') ++ [b] by simp]
        exact List.getLast?_concat _
      have hdrop : st.stack.dropLast = A ++ v :: B' := by
        rw [hst, show A ++ v :: (B' ++ [b]) = (A ++ v :: B') ++ [b] by simp]
        exact List.dropLast_concat
      have hbv : b ≠ v := by
        intro he
        subst he
        simp only [List.nodup_cons] at hnd
        exact hnd.1 (List.mem_append_right _ (List.mem_singleton_self b))
      have hndB : (v :: B').Nodup := by
        simp only [List.nodup_cons, List.nodup_append, List.mem_append] at hnd ⊢
        refine ⟨fun h2 => hnd.1 (Or.inl h2), hnd.2.1⟩
      have hstep : tarjanPopLoop v (fuel + 1) st scc0 =
          tarjanPopLoop v fuel { st with
            stack := st.stack.dropLast
            onStack := mapSet st.onStack b false } (scc0 ++ [b]) := by
        unfold tarjanPopLoop
        rw [hlast]
        simp only [hbv, if_false]
        cases fuel
        · rfl
        · rfl
      have hlen' : B'.length < fuel := by
        simp only [List.length_append, List.length_singleton] at hlen
        omega
      obtain ⟨st3, heq, hstk, hi1, hi2, hi3, hi4, hon1, hon2⟩ :=
        ih B' { st with
          stack := st.stack.dropLast
          onStack := mapSet st.onStack b false } (scc0 ++ [b]) A hdrop hndB hlen'
      refine ⟨st3, ?_, hstk, hi1, hi2, hi3, hi4, ?_, ?_⟩
      · rw [hstep, heq]
        simp
      · intro x hx
        have hxb : x ≠ b := by
          intro he
          subst he
          exact hx (List.mem_cons_of_mem _ (List.mem_append_right _
            (List.mem_singleton_self x)))
        have hx' : x ∉ v :: B' := by
          intro h2
          apply hx
          rcases List.mem_cons.mp h2 with h3 | h3
          · exact h3 ▸ List.mem_cons_self _ _
          · exact List.mem_cons_of_mem _ (List.mem_append_left _ h3)
        rw [hon1 x hx']
        exact mapGet_mapSet_ne _ _ _ _ _ hxb
      · intro x hx
        by_cases hxb : x = b
        · subst hxb
          have hx' : x ∉ v :: B' := by
            simp only [List.nodup_cons, List.nodup_append] at hnd
            intro h2
            rcases List.mem_cons.mp h2 with h3 | h3
            · exact hnd.1 (h3 ▸ List.mem_append_right _ (List.mem_singleton_self _))
            · exact hnd.2.2.2 h3 (List.mem_singleton_self _)
          rw [hon1 x hx']
          exact mapGet_mapSet_self _ _ _ _
        · have hx' : x ∈ v :: B' := by
            rcases List.mem_cons.mp hx with h3 | h3
            · exact h3 ▸ List.mem_cons_self _ _
            · rcases List.mem_append.mp h3 with h4 | h4
              · exact List.mem_cons_of_mem _ h4
              · rw [List.mem_singleton] at h4
                exact absurd h4 hxb
          exact hon2 x hx'

theorem setL_reverse (l : List Int) : setL l.reverse = setL l := by
  ext x
  simp [setL]

theorem card_unfound_mono {U : Finset Int} {m m2 : List (Int × Int)}
    (h : ∀ x : Int, mapFind m x ≠ none → mapFind m2 x ≠ none) :
    (U.filter (fun x => mapFind m2 x = none)).card ≤
      (U.filter (fun x => mapFind m x = none)).card := by
  apply Finset.card_le_card
  intro x hx
  rw [Finset.mem_filter] at hx ⊢
  refine ⟨hx.1, ?_⟩
  by_cases h2 : mapFind m x = none
  · exact h2
  · exact absurd hx.2 (h x h2)

theorem card_unfound_set {U : Finset Int} {m : List (Int × Int)} {v k : Int}
    (hvU : v ∈ U) (hv : mapFind m v = none) :
    (U.filter (fun x => mapFind (mapSet m v k) x = none)).card <
      (U.filter (fun x => mapFind m x = none)).card := by
  have hseteq : U.filter (fun x => mapFind (mapSet m v k) x = none) =
      (U.filter (fun x => mapFind m x = none)).erase v := by
    ext x
    rw [Finset.mem_erase, Finset.mem_filter, Finset.mem_filter]
    by_cases hx : x = v
    · subst hx
      simp [mapFind_mapSet_self]
    · simp [mapFind_mapSet_ne m v x k hx, hx]
  rw [hseteq]
  apply Finset.card_erase_lt_of_mem
  rw [Finset.mem_filter]
  exact ⟨hvU, hv⟩

/-- Postcondition of one strongConnect call building tree t. -/
structure SCPost (nb : List (Int × List Int)) (n : Int) (G : List Int)
    (v : Int) (st st' : TarjanState) (t : DTree) : Prop where
  root : rootT t = v
  wft : WFT nb (tD st) t (tD st')
  dEq : tD st' = tD st ∪ setL (preT t)
  inv : TInv nb n G st'
  presIdx : ∀ x : Int, x ∉ setL (preT t) →
    mapFind st'.indices x = mapFind st.indices x
  presLow : ∀ x : Int, x ∉ setL (preT t) →
    mapFind st'.lowlinks x = mapFind st.lowlinks x
  presOn : ∀ x : Int, x ∉ setL (preT t) →
    mapGet st'.onStack x false = mapGet st.onStack x false
  idxCount : st'.index = st.index + (preT t).length
  idxNew : ∀ x ∈ preT t, st.index ≤ tIdx st' x ∧ tIdx st' x < st'.index
  idxV : tIdx st' v = st.index
  sccsExt : ∃ newsccs, st'.sccs = st.sccs ++ newsccs ∧
    ∀ c ∈ newsccs, ∃ r ∈ preT t, setL c = {y | Mut nb r y}
  emitCase : (tLow st' v = tIdx st' v ∧ v ∈ tE st' ∧ st'.stack = st.stack) ∨
    (tLow st' v < tIdx st' v ∧
      ∃ rest, st'.stack = st.stack ++ v :: rest ∧ ∀ x ∈ rest, x ∈ setL (preT t))
  subLow : ∀ w ∈ preT t, w ∉ tE st' →
    tLow st' v ≤ tLow st' w ∧
    ∀ y ∈ adjL nb w, y ∈ tE st' ∨ (y ∈ tD st' ∧ tLow st' v ≤ tIdx st' y)

/-- Postcondition of the successor fold inside strongConnect v. -/
structure TFoldPost (nb : List (Int × List Int)) (n : Int) (G : List Int)
    (v : Int) (ws : List Int) (acc acc' : TarjanState) (f : DForest) : Prop where
  wff : WFF nb (tD acc) f (tD acc')
  dEq : tD acc' = tD acc ∪ setL (preF f)
  roots : ∀ t0, tmemF t0 f → rootT t0 ∈ ws
  inv : TInv nb n (G ++ [v]) acc'
  stackExt : ∃ rest, acc'.stack = acc.stack ++ rest ∧ ∀ x ∈ rest, x ∈ setL (preF f)
  presIdx : ∀ x : Int, x ∉ setL (preF f) →
    mapFind acc'.indices x = mapFind acc.indices x
  presLow : ∀ x : Int, x ∉ setL (preF f) → x ≠ v →
    mapFind acc'.lowlinks x = mapFind acc.lowlinks x
  presOn : ∀ x : Int, x ∉ setL (preF f) →
    mapGet acc'.onStack x false = mapGet acc.onStack x false
  idxCount : acc'.index = acc.index + (preF f).length
  idxNew : ∀ x ∈ preF f, acc.index ≤ tIdx acc' x ∧ tIdx acc' x < acc'.index
  sccsExt : ∃ newsccs, acc'.sccs = acc.sccs ++ newsccs ∧
    ∀ c ∈ newsccs, ∃ r ∈ setL (preF f), setL c = {y | Mut nb r y}
  lowDec : tLow acc' v ≤ tLow acc v
  subLow : ∀ w ∈ setL (preF f), w ∉ tE acc' →
    tLow acc' v ≤ tLow acc' w ∧
    ∀ y ∈ adjL nb w, y ∈ tE acc' ∨ (y ∈ tD acc' ∧ tLow acc' v ≤ tIdx acc' y)
  wsDone : ∀ w ∈ ws, w ∈ tE acc' ∨ (w ∈ tD acc' ∧ tLow acc' v ≤ tIdx acc' w)

theorem tE_mono {st st' : TarjanState}
    (h : ∃ newsccs, st'.sccs = st.sccs ++ newsccs) {z : Int} (hz : z ∈ tE st) :
    z ∈ tE st' := by
  obtain ⟨newsccs, hex⟩ := h
  obtain ⟨c, hc, hzc⟩ := hz
  exact ⟨c, by rw [hex]; exact List.mem_append_left _ hc, hzc⟩

/-- Updating the current frame's lowlink preserves the invariant, provided
the new value is sound. -/
theorem tInv_setLow {nb : List (Int × List Int)} {n : Int} {G' : List Int}
    {acc : TarjanState} {v L : Int} (hInv : TInv nb n G' acc) (hvG : v ∈ G')
    (hle : L ≤ tIdx acc v)
    (hwit : L = tIdx acc v ∨ ∃ p ∈ acc.stack, tIdx acc p = L ∧ Reach nb v p) :
    TInv nb n G' { acc with lowlinks := mapSet acc.lowlinks v L } := by
  have hlow : ∀ x : Int, x ≠ v →
      tLow { acc with lowlinks := mapSet acc.lowlinks v L } x = tLow acc x := by
    intro x hx
    show mapGet (mapSet acc.lowlinks v L) x 0 = mapGet acc.lowlinks x 0
    exact mapGet_mapSet_ne _ _ _ _ _ hx
  have hlowv : tLow { acc with lowlinks := mapSet acc.lowlinks v L } v = L :=
    mapGet_mapSet_self _ _ _ _
  refine ⟨hInv.nodup, hInv.dIff, hInv.stackE, hInv.onS, hInv.sorted,
    hInv.idxLt, ?_, ?_, hInv.grayStack, hInv.comps, hInv.eClosed, hInv.dRange,
    hInv.indexNN⟩
  · intro x hxs
    by_cases hx : x = v
    · subst hx
      rw [hlowv]
      show L ≤ tIdx acc x ∧ (L = tIdx acc x ∨ _)
      refine ⟨hle, ?_⟩
      rcases hwit with h1 | ⟨p, hp1, hp2, hp3⟩
      · exact Or.inl h1
      · exact Or.inr ⟨p, hp1, hp2, hp3⟩
    · rw [hlow x hx]
      exact hInv.lowSound x hxs
  · intro x hxs hxG
    have hx : x ≠ v := fun he => hxG (he ▸ hvG)
    rw [hlow x hx]
    exact hInv.finStack x hxs hxG

/-- Pushing a fresh node at strongConnect entry preserves the invariant,
with the pushed node joining the gray chain. -/
theorem tInv_push {nb : List (Int × List Int)} {n : Int} {G : List Int}
    {st : TarjanState} {v : Int} (hInv : TInv nb n G st)
    (hfresh : mapFind st.indices v = none) (hvU : v ∈ intRange n) :
    TInv nb n (G ++ [v]) { st with
      indices := mapSet st.indices v st.index
      lowlinks := mapSet st.lowlinks v st.index
      index := st.index + 1
      stack := st.stack ++ [v]
      onStack := mapSet st.onStack v true } := by
  set st1 : TarjanState := { st with
    indices := mapSet st.indices v st.index
    lowlinks := mapSet st.lowlinks v st.index
    index := st.index + 1
    stack := st.stack ++ [v]
    onStack := mapSet st.onStack v true } with hst1
  have hD1 : tD st1 = tD st ∪ {v} := by
    show {x | mapFind (mapSet st.indices v st.index) x ≠ none} = _
    rw [tD_mapSet]
    rfl
  have hvD : v ∉ tD st := by
    simp only [tD, Set.mem_setOf_eq]
    intro h2
    exact h2 hfresh
  have hvstack : v ∉ st.stack := fun h2 =>
    hvD ((hInv.dIff v).mpr (Or.inl h2))
  have hEsub : ∀ x, x ∈ tE st → x ∈ tD st := fun x hx =>
    (hInv.dIff x).mpr (Or.inr hx)
  have hIdx1 : ∀ x : Int, x ≠ v → tIdx st1 x = tIdx st x := by
    intro x hx
    show mapGet (mapSet st.indices v st.index) x 0 = _
    exact mapGet_mapSet_ne _ _ _ _ _ hx
  have hIdx1v : tIdx st1 v = st.index := mapGet_mapSet_self _ _ _ _
  have hLow1 : ∀ x : Int, x ≠ v → tLow st1 x = tLow st x := by
    intro x hx
    show mapGet (mapSet st.lowlinks v st.index) x 0 = _
    exact mapGet_mapSet_ne _ _ _ _ _ hx
  have hLow1v : tLow st1 v = st.index := mapGet_mapSet_self _ _ _ _
  refine ⟨?_, ?_, ?_, ?_, ?_, ?_, ?_, ?_, ?_, ?_, ?_, ?_, ?_⟩
  · show (st.stack ++ [v]).Nodup
    rw [List.nodup_append]
    exact ⟨hInv.nodup, List.nodup_singleton v,
      fun a ha hb => (List.mem_singleton.mp hb ▸ hvstack) (List.mem_singleton.mp hb ▸ ha)⟩
  · intro x
    rw [hD1]
    show x ∈ tD st ∪ {v} ↔ x ∈ st.stack ++ [v] ∨ x ∈ tE st
    simp only [Set.mem_union, Set.mem_singleton_iff, List.mem_append,
      List.mem_singleton]
    rw [hInv.dIff x]
    tauto
  · intro x hx
    show x ∉ tE st
    rcases List.mem_append.mp hx with h1 | h1
    · exact hInv.stackE x h1
    · rw [List.mem_singleton] at h1
      subst h1
      exact fun h2 => hvD (hEsub x h2)
  · intro x
    show mapGet (mapSet st.onStack v true) x false = true ↔ x ∈ st.stack ++ [v]
    by_cases hx : x = v
    · subst hx
      rw [mapGet_mapSet_self]
      simp
    · rw [mapGet_mapSet_ne _ _ _ _ _ hx, List.mem_append, List.mem_singleton]
      rw [hInv.onS x]
      simp [hx]
  · show (st.stack ++ [v]).Pairwise (fun a b => tIdx st1 a < tIdx st1 b)
    rw [List.pairwise_append]
    refine ⟨?_, List.pairwise_singleton _ _, ?_⟩
    · apply List.Pairwise.imp_of_mem ?_ hInv.sorted
      intro a b ha hb hab
      have hav : a ≠ v := fun he => hvstack (he ▸ ha)
      have hbv : b ≠ v := fun he => hvstack (he ▸ hb)
      rw [hIdx1 a hav, hIdx1 b hbv]
      exact hab
    · intro a ha b hb
      rw [List.mem_singleton] at hb
      subst hb
      have hav : a ≠ b := fun he => hvstack (he ▸ ha)
      rw [hIdx1 a hav, hIdx1v]
      exact ((hInv.idxLt a ((hInv.dIff a).mpr (Or.inl ha))).2)
  · intro x hx
    rw [hD1] at hx
    show 0 ≤ tIdx st1 x ∧ tIdx st1 x < st.index + 1
    rcases hx with h1 | h1
    · have hxv : x ≠ v := fun he => hvD (he ▸ h1)
      rw [hIdx1 x hxv]
      have := hInv.idxLt x h1
      omega
    · rw [Set.mem_singleton_iff] at h1
      subst h1
      rw [hIdx1v]
      have := hInv.indexNN
      omega
  · intro x hx
    show tLow st1 x ≤ tIdx st1 x ∧ _
    rcases List.mem_append.mp hx with h1 | h1
    · have hxv : x ≠ v := fun he => hvstack (he ▸ h1)
      rw [hIdx1 x hxv, hLow1 x hxv]
      obtain ⟨ha, hb⟩ := hInv.lowSound x h1
      refine ⟨ha, ?_⟩
      rcases hb with hb | ⟨p, hp1, hp2, hp3⟩
      · exact Or.inl hb
      · have hpv : p ≠ v := fun he => hvstack (he ▸ hp1)
        exact Or.inr ⟨p, List.mem_append_left _ hp1, by rw [hIdx1 p hpv]; exact hp2, hp3⟩
    · rw [List.mem_singleton] at h1
      subst h1
      rw [hIdx1v, hLow1v]
      exact ⟨le_refl _, Or.inl rfl⟩
  · intro x hx hxG
    have hxv : x ≠ v := fun he =>
      hxG (by rw [he]; exact List.mem_append_right _ (List.mem_singleton_self v))
    have hxG0 : x ∉ G := fun h2 => hxG (List.mem_append_left _ h2)
    have hx0 : x ∈ st.stack := by
      rcases List.mem_append.mp hx with h1 | h1
      · exact h1
      · rw [List.mem_singleton] at h1
        exact absurd h1 hxv
    obtain ⟨ha, hb⟩ := hInv.finStack x hx0 hxG0
    rw [show tLow st1 x = tLow st x from hLow1 x hxv,
      show tIdx st1 x = tIdx st x from hIdx1 x hxv]
    refine ⟨ha, ?_⟩
    intro y hy
    rw [hD1]
    exact Set.mem_union_left _ (hb y hy)
  · intro g hg
    rcases List.mem_append.mp hg with h1 | h1
    · exact List.mem_append_left _ (hInv.grayStack g h1)
    · rw [List.mem_singleton] at h1
      subst h1
      exact List.mem_append_right _ (List.mem_singleton_self g)
  · intro c hc
    obtain ⟨r, hr1, hr2⟩ := hInv.comps c hc
    exact ⟨r, by rw [hD1]; exact Set.mem_union_left _ hr1, hr2⟩
  · exact hInv.eClosed
  · intro x hx
    rw [hD1] at hx
    rcases hx with h1 | h1
    · exact hInv.dRange x h1
    · rw [Set.mem_singleton_iff] at h1
      subst h1
      exact hvU
  · show 0 ≤ st.index + 1
    have := hInv.indexNN
    omega

theorem setL_nil : setL [] = ∅ := by
  ext x
  simp [setL]

theorem mapGet_congr_find {α : Type} {m1 m2 : List (Int × α)} {x : Int}
    (h : mapFind m1 x = mapFind m2 x) (d : α) : mapGet m1 x d = mapGet m2 x d := by
  unfold mapGet
  unfold mapFind at h
  rw [h]

/-- The successor fold of strongConnect v: assuming the realization theorem
for recursive calls at the lower fuel, the fold over any suffix of v's
adjacency list builds a well-formed forest and preserves all invariants. -/
theorem tarjanFold_wf {nb : List (Int × List Int)} {n : Int}
    (hV : ValidGraph nb n) (fuel : Nat) (v : Int) (G : List Int)
    (hanc : ∀ g ∈ G, Reach nb g v)
    (IH : ∀ (st : TarjanState) (G' : List Int) (w : Int),
      w ∈ intRange n → mapFind st.indices w = none → TInv nb n G' st →
      (∀ g ∈ G', Reach nb g w) →
      ((intRange n).filter (fun x => mapFind st.indices x = none)).card < fuel →
      ∃ (t : DTree) (st' : TarjanState),
        strongConnect nb fuel w st = st' ∧ SCPost nb n G' w st st' t) :
    ∀ (ws : List Int), (∀ w ∈ ws, w ∈ adjL nb v) →
    ∀ (acc0 : TarjanState), TInv nb n (G ++ [v]) acc0 → v ∈ acc0.stack →
      ((intRange n).filter (fun x => mapFind acc0.indices x = none)).card < fuel →
      ∃ (f : DForest) (acc' : TarjanState),
        ws.foldl (fun (acc : TarjanState) w =>
          match mapFind acc.indices w with
          | none =>
            let acc1 := strongConnect nb fuel w acc
            if mapGet acc1.lowlinks w 0 < mapGet acc1.lowlinks v 0 then
              { acc1 with lowlinks := mapSet acc1.lowlinks v (mapGet acc1.lowlinks w 0) }
            else acc1
          | some wIndex =>
            if mapGet acc.onStack w false then
              if wIndex < mapGet acc.lowlinks v 0 then
                { acc with lowlinks := mapSet acc.lowlinks v wIndex }
              else acc
            else acc) acc0 = acc' ∧
        TFoldPost nb n G v ws acc0 acc' f := by
  intro ws
  induction ws with
  | nil =>
    intro _ acc0 hInv0 hvstk0 hcard0
    refine ⟨.nil, acc0, rfl, ?_⟩
    refine ⟨WFF.nil, by rw [show preF .nil = [] from rfl, setL_nil]; simp,
      ?_, hInv0, ⟨[], by simp, ?_⟩, fun x _ => rfl, fun x _ _ => rfl,
      fun x _ => rfl, by simp [preF], ?_, ⟨[], by simp, ?_⟩, le_refl _, ?_, ?_⟩
    · intro t0 h0
      exact absurd h0 (by simp [tmemF])
    · intro x hx
      exact absurd hx (List.not_mem_nil x)
    · intro x hx
      exact absurd hx (List.not_mem_nil x)
    · intro c hc
      exact absurd hc (List.not_mem_nil c)
    · intro u hu
      rw [show preF .nil = [] from rfl, setL_nil] at hu
      exact absurd hu (Set.not_mem_empty u)
    · intro u hu
      exact absurd hu (List.not_mem_nil u)
  | cons w ws' ihw =>
    intro hws acc0 hInv0 hvstk0 hcard0
    have hwadj : w ∈ adjL nb v := hws w (List.mem_cons_self _ _)
    have hws' : ∀ a ∈ ws', a ∈ adjL nb v :=
      fun a ha => hws a (List.mem_cons_of_mem _ ha)
    have hvD0 : v ∈ tD acc0 := (hInv0.dIff v).mpr (Or.inl hvstk0)
    have hvG' : v ∈ G ++ [v] := List.mem_append_right _ (List.mem_singleton_self v)
    have hvlowle : tLow acc0 v ≤ tIdx acc0 v := (hInv0.lowSound v hvstk0).1
    have hvidxlt : tIdx acc0 v < acc0.index := (hInv0.idxLt v hvD0).2
    rw [List.foldl_cons]
    cases hfind : mapFind acc0.indices w with
    | some wIndex =>
      have hwD : w ∈ tD acc0 := by
        show mapFind acc0.indices w ≠ none
        rw [hfind]
        exact Option.some_ne_none _
      have hidxw : tIdx acc0 w = wIndex := mapGet_eq_of_mapFind hfind 0
      by_cases hon : mapGet acc0.onStack w false = true
      · have hwstack : w ∈ acc0.stack := (hInv0.onS w).mp hon
        by_cases hlt : wIndex < mapGet acc0.lowlinks v 0
        · have hstepv : (match (some wIndex : Option Int) with
              | none =>
                let acc1 := strongConnect nb fuel w acc0
                if mapGet acc1.lowlinks w 0 < mapGet acc1.lowlinks v 0 then
                  { acc1 with lowlinks := mapSet acc1.lowlinks v (mapGet acc1.lowlinks w 0) }
                else acc1
              | some wIndex =>
                if mapGet acc0.onStack w false then
                  if wIndex < mapGet acc0.lowlinks v 0 then
                    { acc0 with lowlinks := mapSet acc0.lowlinks v wIndex }
                  else acc0
                else acc0 : TarjanState) =
              { acc0 with lowlinks := mapSet acc0.lowlinks v wIndex } := by
            show (if mapGet acc0.onStack w false = true then
                if wIndex < mapGet acc0.lowlinks v 0 then
                  { acc0 with lowlinks := mapSet acc0.lowlinks v wIndex }
                else acc0
              else acc0) = _
            rw [if_pos hon, if_pos hlt]
          rw [hstepv]
          have hInv1 : TInv nb n (G ++ [v])
              { acc0 with lowlinks := mapSet acc0.lowlinks v wIndex } := by
            apply tInv_setLow hInv0 hvG'
            · exact le_trans (le_of_lt hlt) hvlowle
            · exact Or.inr ⟨w, hwstack, hidxw,
                Relation.ReflTransGen.single hwadj⟩
          obtain ⟨f, acc', heq, hpost⟩ := ihw hws'
            { acc0 with lowlinks := mapSet acc0.lowlinks v wIndex }
            hInv1 hvstk0 hcard0
          refine ⟨f, acc', heq, ?_⟩
          have hlowe : tLow acc'
              v ≤ wIndex := by
            have := hpost.lowDec
            rw [show tLow { acc0 with lowlinks := mapSet acc0.lowlinks v wIndex } v
              = wIndex from mapGet_mapSet_self _ _ _ _] at this
            exact this
          refine ⟨hpost.wff, hpost.dEq, ?_, hpost.inv, hpost.stackExt,
            hpost.presIdx, ?_, hpost.presOn, hpost.idxCount, hpost.idxNew,
            hpost.sccsExt, ?_, hpost.subLow, ?_⟩
          · intro t0 h0
            exact List.mem_cons_of_mem _ (hpost.roots t0 h0)
          · intro x hx hxv
            rw [hpost.presLow x hx hxv]
            show mapFind (mapSet acc0.lowlinks v wIndex) x = _
            exact mapFind_mapSet_ne _ _ _ _ hxv
          · exact le_trans hlowe (le_of_lt hlt)
          · intro u hu
            rcases List.mem_cons.mp hu with rfl | hu2
            · right
              have hufresh : u ∉ setL (preF f) := fun h2 =>
                (wfF_fresh hpost.wff).2 u h2 hwD
              constructor
              · rw [hpost.dEq]
                exact Set.mem_union_left _ hwD
              · have : tIdx acc' u = wIndex := by
                  rw [show tIdx acc' u =
                    tIdx { acc0 with lowlinks := mapSet acc0.lowlinks v wIndex } u
                    from mapGet_congr_find (hpost.presIdx u hufresh) 0]
                  exact hidxw
                rw [this]
                exact hlowe
            · exact hpost.wsDone u hu2
        · have hstepv : (match (some wIndex : Option Int) with
              | none =>
                let acc1 := strongConnect nb fuel w acc0
                if mapGet acc1.lowlinks w 0 < mapGet acc1.lowlinks v 0 then
                  { acc1 with lowlinks := mapSet acc1.lowlinks v (mapGet acc1.lowlinks w 0) }
                else acc1
              | some wIndex =>
                if mapGet acc0.onStack w false then
                  if wIndex < mapGet acc0.lowlinks v 0 then
                    { acc0 with lowlinks := mapSet acc0.lowlinks v wIndex }
                  else acc0
                else acc0 : TarjanState) = acc0 := by
            show (if mapGet acc0.onStack w false = true then
                if wIndex < mapGet acc0.lowlinks v 0 then
                  { acc0 with lowlinks := mapSet acc0.lowlinks v wIndex }
                else acc0
              else acc0) = _
            rw [if_pos hon, if_neg hlt]
          rw [hstepv]
          obtain ⟨f, acc', heq, hpost⟩ := ihw hws' acc0 hInv0 hvstk0 hcard0
          refine ⟨f, acc', heq, ?_⟩
          refine ⟨hpost.wff, hpost.dEq, ?_, hpost.inv, hpost.stackExt,
            hpost.presIdx, hpost.presLow, hpost.presOn, hpost.idxCount,
            hpost.idxNew, hpost.sccsExt, hpost.lowDec, hpost.subLow, ?_⟩
          · intro t0 h0
            exact List.mem_cons_of_mem _ (hpost.roots t0 h0)
          · intro u hu
            rcases List.mem_cons.mp hu with rfl | hu2
            · right
              have hufresh : u ∉ setL (preF f) := fun h2 =>
                (wfF_fresh hpost.wff).2 u h2 hwD
              constructor
              · rw [hpost.dEq]
                exact Set.mem_union_left _ hwD
              · have hie : tIdx acc' u = wIndex := by
                  rw [show tIdx acc' u = tIdx acc0 u
                    from mapGet_congr_find (hpost.presIdx u hufresh) 0]
                  exact hidxw
                rw [hie]
                exact le_trans hpost.lowDec (not_lt.mp hlt)
            · exact hpost.wsDone u hu2
      · have hstepv : (match (some wIndex : Option Int) with
              | none =>
                let acc1 := strongConnect nb fuel w acc0
                if mapGet acc1.lowlinks w 0 < mapGet acc1.lowlinks v 0 then
                  { acc1 with lowlinks := mapSet acc1.lowlinks v (mapGet acc1.lowlinks w 0) }
                else acc1
              | some wIndex =>
                if mapGet acc0.onStack w false then
                  if wIndex < mapGet acc0.lowlinks v 0 then
                    { acc0 with lowlinks := mapSet acc0.lowlinks v wIndex }
                  else acc0
                else acc0 : TarjanState) = acc0 := by
          show (if mapGet acc0.onStack w false = true then
              if wIndex < mapGet acc0.lowlinks v 0 then
                { acc0 with lowlinks := mapSet acc0.lowlinks v wIndex }
              else acc0
            else acc0) = _
          rw [if_neg hon]
        rw [hstepv]
        have hwE : w ∈ tE acc0 := by
          rcases (hInv0.dIff w).mp hwD with h1 | h1
          · exact absurd ((hInv0.onS w).mpr h1) hon
          · exact h1
        obtain ⟨f, acc', heq, hpost⟩ := ihw hws' acc0 hInv0 hvstk0 hcard0
        refine ⟨f, acc', heq, ?_⟩
        refine ⟨hpost.wff, hpost.dEq, ?_, hpost.inv, hpost.stackExt,
          hpost.presIdx, hpost.presLow, hpost.presOn, hpost.idxCount,
          hpost.idxNew, hpost.sccsExt, hpost.lowDec, hpost.subLow, ?_⟩
        · intro t0 h0
          exact List.mem_cons_of_mem _ (hpost.roots t0 h0)
        · intro u hu
          rcases List.mem_cons.mp hu with rfl | hu2
          · left
            obtain ⟨ns, hns, _⟩ := hpost.sccsExt
            exact tE_mono ⟨ns, hns⟩ hwE
          · exact hpost.wsDone u hu2
    | none =>
      have hwU : w ∈ intRange n := by
        have := validGraph_adj hV hwadj
        rw [mem_intRange]
        exact ⟨this.2.2.1, this.2.2.2⟩
      have hancw : ∀ g ∈ G ++ [v], Reach nb g w := by
        intro g hg
        rcases List.mem_append.mp hg with h1 | h1
        · exact Relation.ReflTransGen.tail (hanc g h1) hwadj
        · rw [List.mem_singleton] at h1
          subst h1
          exact Relation.ReflTransGen.single hwadj
      obtain ⟨t, st', hsc, hcp⟩ := IH acc0 (G ++ [v]) w hwU hfind hInv0 hancw hcard0
      have hwroot : w ∈ preT t := by
        cases t with
        | node r ts =>
          have : r = w := hcp.root
          subst this
          exact List.mem_cons_self _ _
      have hvstk' : v ∈ st'.stack := by
        rcases hcp.emitCase with ⟨_, _, hse⟩ | ⟨_, rest, hse, _⟩
        · rw [hse]; exact hvstk0
        · rw [hse]; exact List.mem_append_left _ hvstk0
      have hvnt : v ∉ setL (preT t) := fun h2 => (wfT_fresh hcp.wft).2 v h2 hvD0
      have hlowveq : tLow st' v = tLow acc0 v :=
        mapGet_congr_find (hcp.presLow v hvnt) 0
      have hidxveq : tIdx st' v = tIdx acc0 v :=
        mapGet_congr_find (hcp.presIdx v hvnt) 0
      have hDsub : ∀ x : Int, mapFind acc0.indices x ≠ none →
          mapFind st'.indices x ≠ none := by
        intro x hx
        have : x ∈ tD st' := by
          rw [hcp.dEq]
          exact Set.mem_union_left _ hx
        exact this
      have hcard' : ((intRange n).filter
          (fun x => mapFind st'.indices x = none)).card < fuel :=
        lt_of_le_of_lt (card_unfound_mono hDsub) hcard0
      by_cases habs : mapGet st'.lowlinks w 0 < mapGet st'.lowlinks v 0
      · have ha1 : tLow st' w = mapGet st'.lowlinks w 0 := rfl
        have ha2 : tIdx st' w = mapGet st'.indices w 0 := rfl
        have ha3 : tLow st' v = mapGet st'.lowlinks v 0 := rfl
        have ha4 : tIdx st' v = mapGet st'.indices v 0 := rfl
        have hwstk' : w ∈ st'.stack := by
          rcases hcp.emitCase with ⟨he1, _, _⟩ | ⟨_, rest, hse, _⟩
          · exfalso
            have h2 : tLow st' v ≤ tIdx st' v :=
              (hcp.inv.lowSound v hvstk').1
            have h3 : tIdx st' v < tIdx st' w := by
              rw [hidxveq, hcp.idxV]
              exact hvidxlt
            omega
          · rw [hse]
            exact List.mem_append_right _ (List.mem_cons_self _ _)
        have hlwlt : tLow st' w < tIdx st' w := by
          have h2 : tLow st' v ≤ tIdx st' v := (hcp.inv.lowSound v hvstk').1
          have h3 : tIdx st' v < tIdx st' w := by
            rw [hidxveq, hcp.idxV]
            exact hvidxlt
          omega
        have hwit : ∃ p ∈ st'.stack, tIdx st' p = tLow st' w ∧ Reach nb v p := by
          obtain ⟨_, hd⟩ := hcp.inv.lowSound w hwstk'
          rcases hd with hd | ⟨p, hp1, hp2, hp3⟩
          · exact absurd hd (by omega)
          · exact ⟨p, hp1, hp2,
              Relation.ReflTransGen.head hwadj hp3⟩
        have hInv2 : TInv nb n (G ++ [v])
            { st' with lowlinks := mapSet st'.lowlinks v (mapGet st'.lowlinks w 0) } := by
          apply tInv_setLow hcp.inv hvG'
          · have h2 : tLow st' v ≤ tIdx st' v := (hcp.inv.lowSound v hvstk').1
            show mapGet st'.lowlinks w 0 ≤ tIdx st' v
            rw [show tLow st' v = mapGet st'.lowlinks v 0 from rfl] at h2
            omega
          · right
            obtain ⟨p, hp1, hp2, hp3⟩ := hwit
            exact ⟨p, hp1, hp2, hp3⟩
        obtain ⟨f2, acc', heq2, hp2⟩ := ihw hws'
          { st' with lowlinks := mapSet st'.lowlinks v (mapGet st'.lowlinks w 0) }
          hInv2 hvstk' hcard'
        have hstepv : (match (none : Option Int) with
              | none =>
                let acc1 := strongConnect nb fuel w acc0
                if mapGet acc1.lowlinks w 0 < mapGet acc1.lowlinks v 0 then
                  { acc1 with lowlinks := mapSet acc1.lowlinks v (mapGet acc1.lowlinks w 0) }
                else acc1
              | some wIndex =>
                if mapGet acc0.onStack w false then
                  if wIndex < mapGet acc0.lowlinks v 0 then
                    { acc0 with lowlinks := mapSet acc0.lowlinks v wIndex }
                  else acc0
                else acc0 : TarjanState) =
            { st' with lowlinks := mapSet st'.lowlinks v (mapGet st'.lowlinks w 0) } := by
          show (let acc1 := strongConnect nb fuel w acc0
            if mapGet acc1.lowlinks w 0 < mapGet acc1.lowlinks v 0 then
              { acc1 with lowlinks := mapSet acc1.lowlinks v (mapGet acc1.lowlinks w 0) }
            else acc1) = _
          rw [hsc]
          show (if mapGet st'.lowlinks w 0 < mapGet st'.lowlinks v 0 then
              { st' with lowlinks := mapSet st'.lowlinks v (mapGet st'.lowlinks w 0) }
            else st') = _
          rw [if_pos habs]
        rw [hstepv, heq2]
        refine ⟨.cons t f2, acc', rfl, ?_⟩
        have hdisjtf : ∀ x ∈ preT t, x ∉ preF f2 := by
          intro x hx h2
          apply (wfF_fresh hp2.wff).2 x h2
          show x ∈ tD st'
          rw [hcp.dEq]
          exact Set.mem_union_right _ hx
        have hfresh2D : ∀ x : Int, x ∈ tD st' → x ∉ setL (preF f2) := by
          intro x hx h2
          exact (wfF_fresh hp2.wff).2 x h2 hx
        have hEmono2 : ∀ z ∈ tE st', z ∈ tE acc' := by
          intro z hz
          obtain ⟨ns, hns, _⟩ := hp2.sccsExt
          exact tE_mono ⟨ns, hns⟩ hz
        have hlowacc2 : tLow { st' with
            lowlinks := mapSet st'.lowlinks v (mapGet st'.lowlinks w 0) } v =
            tLow st' w := mapGet_mapSet_self _ _ _ _
        have hlowukeep : ∀ u : Int, u ≠ v → u ∉ setL (preF f2) →
            tLow acc' u = tLow st' u := by
          intro u huv hu2
          rw [show tLow acc' u = tLow { st' with
            lowlinks := mapSet st'.lowlinks v (mapGet st'.lowlinks w 0) } u
            from mapGet_congr_find (hp2.presLow u hu2 huv) 0]
          show mapGet (mapSet st'.lowlinks v (mapGet st'.lowlinks w 0)) u 0 = _
          exact mapGet_mapSet_ne _ _ _ _ _ huv
        have hidxukeep : ∀ u : Int, u ∉ setL (preF f2) →
            tIdx acc' u = tIdx st' u := by
          intro u hu2
          exact mapGet_congr_find (hp2.presIdx u hu2) 0
        have hlowdec2 : tLow acc' v ≤ tLow st' w := by
          have := hp2.lowDec
          rw [hlowacc2] at this
          exact this
        refine ⟨?_, ?_, ?_, hp2.inv, ?_, ?_, ?_, ?_, ?_, ?_, ?_, ?_, ?_, ?_⟩
        · exact WFF.cons hcp.wft hp2.wff
        · rw [hp2.dEq, show tD { st' with
            lowlinks := mapSet st'.lowlinks v (mapGet st'.lowlinks w 0) } = tD st'
            from rfl, hcp.dEq]
          rw [show preF (.cons t f2) = preT t ++ preF f2 from rfl, setL_append]
          rw [Set.union_assoc]
        · intro t0 h0
          rcases h0 with rfl | h0
          · rw [hcp.root]
            exact List.mem_cons_self _ _
          · exact List.mem_cons_of_mem _ (hp2.roots t0 h0)
        · obtain ⟨rest2, hse2, hsub2⟩ := hp2.stackExt
          rcases hcp.emitCase with ⟨_, _, hse1⟩ | ⟨_, rest1, hse1, hsub1⟩
          · refine ⟨rest2, ?_, ?_⟩
            · rw [hse2]
              show st'.stack ++ rest2 = acc0.stack ++ rest2
              rw [hse1]
            · intro x hx
              rw [show preF (.cons t f2) = preT t ++ preF f2 from rfl, setL_append]
              exact Set.mem_union_right _ (hsub2 x hx)
          · refine ⟨(w :: rest1) ++ rest2, ?_, ?_⟩
            · rw [hse2]
              show st'.stack ++ rest2 = acc0.stack ++ (w :: rest1 ++ rest2)
              rw [hse1]
              simp
            · intro x hx
              rw [show preF (.cons t f2) = preT t ++ preF f2 from rfl, setL_append]
              rcases List.mem_append.mp hx with h1 | h1
              · rcases List.mem_cons.mp h1 with rfl | h1
                · exact Set.mem_union_left _ hwroot
                · exact Set.mem_union_left _ (hsub1 x h1)
              · exact Set.mem_union_right _ (hsub2 x h1)
        · intro x hx
          rw [show preF (.cons t f2) = preT t ++ preF f2 from rfl, setL_append] at hx
          have hx1 : x ∉ setL (preT t) := fun h2 => hx (Set.mem_union_left _ h2)
          have hx2 : x ∉ setL (preF f2) := fun h2 => hx (Set.mem_union_right _ h2)
          rw [hp2.presIdx x hx2]
          exact hcp.presIdx x hx1
        · intro x hx hxv
          rw [show preF (.cons t f2) = preT t ++ preF f2 from rfl, setL_append] at hx
          have hx1 : x ∉ setL (preT t) := fun h2 => hx (Set.mem_union_left _ h2)
          have hx2 : x ∉ setL (preF f2) := fun h2 => hx (Set.mem_union_right _ h2)
          rw [hp2.presLow x hx2 hxv]
          show mapFind (mapSet st'.lowlinks v (mapGet st'.lowlinks w 0)) x =
            mapFind acc0.lowlinks x
          rw [mapFind_mapSet_ne _ _ _ _ hxv]
          exact hcp.presLow x hx1
        · intro x hx
          rw [show preF (.cons t f2) = preT t ++ preF f2 from rfl, setL_append] at hx
          have hx1 : x ∉ setL (preT t) := fun h2 => hx (Set.mem_union_left _ h2)
          have hx2 : x ∉ setL (preF f2) := fun h2 => hx (Set.mem_union_right _ h2)
          rw [hp2.presOn x hx2]
          exact hcp.presOn x hx1
        · rw [hp2.idxCount]
          show st'.index + (preF f2).length = _
          rw [hcp.idxCount,
            show preF (.cons t f2) = preT t ++ preF f2 from rfl,
            List.length_append]
          omega
        · intro x hx
          rw [show preF (.cons t f2) = preT t ++ preF f2 from rfl] at hx
          rcases List.mem_append.mp hx with h1 | h1
          · have hxv2 : x ∉ setL (preF f2) := fun h2 => hdisjtf x h1 h2
            rw [hidxukeep x hxv2]
            have ha := hcp.idxNew x h1
            have hb := hp2.idxCount
            have hc : ({ st' with lowlinks := mapSet st'.lowlinks v (mapGet st'.lowlinks w 0) } : TarjanState).index = st'.index := rfl
            omega
          · have ha := hp2.idxNew x h1
            have hb : ({ st' with lowlinks := mapSet st'.lowlinks v (mapGet st'.lowlinks w 0) } : TarjanState).index = st'.index := rfl
            have hc := hcp.idxCount
            omega
        · obtain ⟨ns1, hns1, hr1⟩ := hcp.sccsExt
          obtain ⟨ns2, hns2, hr2⟩ := hp2.sccsExt
          refine ⟨ns1 ++ ns2, ?_, ?_⟩
          · rw [hns2]
            show st'.sccs ++ ns2 = _
            rw [hns1, List.append_assoc]
          · intro c hc
            rcases List.mem_append.mp hc with h1 | h1
            · obtain ⟨r, hr, hre⟩ := hr1 c h1
              refine ⟨r, ?_, hre⟩
              show r ∈ preT t ++ preF f2
              exact List.mem_append_left _ hr
            · obtain ⟨r, hr, hre⟩ := hr2 c h1
              refine ⟨r, ?_, hre⟩
              show r ∈ preT t ++ preF f2
              exact List.mem_append_right _ hr
        · have h3 : tLow st' w < tLow st' v := habs
          have h4 : tLow st' v = tLow acc0 v := hlowveq
          omega
        · intro u hu hnotE
          rw [show preF (.cons t f2) = preT t ++ preF f2 from rfl] at hu
          have hu' : u ∈ preT t ++ preF f2 := hu
          rcases List.mem_append.mp hu' with h1 | h1
          · have hunotE' : u ∉ tE st' := fun h2 => hnotE (hEmono2 u h2)
            obtain ⟨hl1, hedges⟩ := hcp.subLow u h1 hunotE'
            have huv : u ≠ v := fun he => hvnt (he ▸ h1)
            have hukeep : tLow acc' u = tLow st' u :=
              hlowukeep u huv (fun h2 => hdisjtf u h1 h2)
            constructor
            · rw [hukeep]
              omega
            · intro y hy
              rcases hedges y hy with hy1 | ⟨hy2, hy3⟩
              · exact Or.inl (hEmono2 y hy1)
              · right
                constructor
                · rw [hp2.dEq]
                  exact Set.mem_union_left _ hy2
                · rw [hidxukeep y (hfresh2D y hy2)]
                  omega
          · exact hp2.subLow u h1 hnotE
        · intro u hu
          rcases List.mem_cons.mp hu with rfl | hu2
          · right
            have huD : u ∈ tD st' := by
              rw [hcp.dEq]
              exact Set.mem_union_right _ hwroot
            constructor
            · rw [hp2.dEq]
              exact Set.mem_union_left _ huD
            · rw [hidxukeep u (hfresh2D u huD), hcp.idxV]
              have h3 : tLow st' u < tLow st' v := habs
              have h4 : tLow st' v = tLow acc0 v := hlowveq
              omega
          · exact hp2.wsDone u hu2
      · obtain ⟨f2, acc', heq2, hp2⟩ := ihw hws' st' hcp.inv hvstk' hcard'
        have hstepv : (match (none : Option Int) with
              | none =>
                let acc1 := strongConnect nb fuel w acc0
                if mapGet acc1.lowlinks w 0 < mapGet acc1.lowlinks v 0 then
                  { acc1 with lowlinks := mapSet acc1.lowlinks v (mapGet acc1.lowlinks w 0) }
                else acc1
              | some wIndex =>
                if mapGet acc0.onStack w false then
                  if wIndex < mapGet acc0.lowlinks v 0 then
                    { acc0 with lowlinks := mapSet acc0.lowlinks v wIndex }
                  else acc0
                else acc0 : TarjanState) = st' := by
          show (let acc1 := strongConnect nb fuel w acc0
            if mapGet acc1.lowlinks w 0 < mapGet acc1.lowlinks v 0 then
              { acc1 with lowlinks := mapSet acc1.lowlinks v (mapGet acc1.lowlinks w 0) }
            else acc1) = _
          rw [hsc]
          show (if mapGet st'.lowlinks w 0 < mapGet st'.lowlinks v 0 then
              { st' with lowlinks := mapSet st'.lowlinks v (mapGet st'.lowlinks w 0) }
            else st') = _
          rw [if_neg habs]
        rw [hstepv, heq2]
        refine ⟨.cons t f2, acc', rfl, ?_⟩
        have hdisjtf : ∀ x ∈ preT t, x ∉ preF f2 := by
          intro x hx h2
          apply (wfF_fresh hp2.wff).2 x h2
          show x ∈ tD st'
          rw [hcp.dEq]
          exact Set.mem_union_right _ hx
        have hfresh2D : ∀ x : Int, x ∈ tD st' → x ∉ setL (preF f2) := by
          intro x hx h2
          exact (wfF_fresh hp2.wff).2 x h2 hx
        have hEmono2 : ∀ z ∈ tE st', z ∈ tE acc' := by
          intro z hz
          obtain ⟨ns, hns, _⟩ := hp2.sccsExt
          exact tE_mono ⟨ns, hns⟩ hz
        have hlowukeep : ∀ u : Int, u ≠ v → u ∉ setL (preF f2) →
            tLow acc' u = tLow st' u := by
          intro u huv hu2
          exact mapGet_congr_find (hp2.presLow u hu2 huv) 0
        have hidxukeep : ∀ u : Int, u ∉ setL (preF f2) →
            tIdx acc' u = tIdx st' u := by
          intro u hu2
          exact mapGet_congr_find (hp2.presIdx u hu2) 0
        have hvwle : tLow st' v ≤ tLow st' w := by
          have := not_lt.mp habs
          exact this
        refine ⟨?_, ?_, ?_, hp2.inv, ?_, ?_, ?_, ?_, ?_, ?_, ?_, ?_, ?_, ?_⟩
        · exact WFF.cons hcp.wft hp2.wff
        · rw [hp2.dEq, hcp.dEq]
          rw [show preF (.cons t f2) = preT t ++ preF f2 from rfl, setL_append]
          rw [Set.union_assoc]
        · intro t0 h0
          rcases h0 with rfl | h0
          · rw [hcp.root]
            exact List.mem_cons_self _ _
          · exact List.mem_cons_of_mem _ (hp2.roots t0 h0)
        · obtain ⟨rest2, hse2, hsub2⟩ := hp2.stackExt
          rcases hcp.emitCase with ⟨_, _, hse1⟩ | ⟨_, rest1, hse1, hsub1⟩
          · refine ⟨rest2, ?_, ?_⟩
            · rw [hse2, hse1]
            · intro x hx
              rw [show preF (.cons t f2) = preT t ++ preF f2 from rfl, setL_append]
              exact Set.mem_union_right _ (hsub2 x hx)
          · refine ⟨(w :: rest1) ++ rest2, ?_, ?_⟩
            · rw [hse2, hse1]
              simp
            · intro x hx
              rw [show preF (.cons t f2) = preT t ++ preF f2 from rfl, setL_append]
              rcases List.mem_append.mp hx with h1 | h1
              · rcases List.mem_cons.mp h1 with rfl | h1
                · exact Set.mem_union_left _ hwroot
                · exact Set.mem_union_left _ (hsub1 x h1)
              · exact Set.mem_union_right _ (hsub2 x h1)
        · intro x hx
          rw [show preF (.cons t f2) = preT t ++ preF f2 from rfl, setL_append] at hx
          have hx1 : x ∉ setL (preT t) := fun h2 => hx (Set.mem_union_left _ h2)
          have hx2 : x ∉ setL (preF f2) := fun h2 => hx (Set.mem_union_right _ h2)
          rw [hp2.presIdx x hx2]
          exact hcp.presIdx x hx1
        · intro x hx hxv
          rw [show preF (.cons t f2) = preT t ++ preF f2 from rfl, setL_append] at hx
          have hx1 : x ∉ setL (preT t) := fun h2 => hx (Set.mem_union_left _ h2)
          have hx2 : x ∉ setL (preF f2) := fun h2 => hx (Set.mem_union_right _ h2)
          rw [hp2.presLow x hx2 hxv]
          exact hcp.presLow x hx1
        · intro x hx
          rw [show preF (.cons t f2) = preT t ++ preF f2 from rfl, setL_append] at hx
          have hx1 : x ∉ setL (preT t) := fun h2 => hx (Set.mem_union_left _ h2)
          have hx2 : x ∉ setL (preF f2) := fun h2 => hx (Set.mem_union_right _ h2)
          rw [hp2.presOn x hx2]
          exact hcp.presOn x hx1
        · rw [hp2.idxCount, hcp.idxCount,
            show preF (.cons t f2) = preT t ++ preF f2 from rfl,
            List.length_append]
          omega
        · intro x hx
          rw [show preF (.cons t f2) = preT t ++ preF f2 from rfl] at hx
          rcases List.mem_append.mp hx with h1 | h1
          · have hxv2 : x ∉ setL (preF f2) := fun h2 => hdisjtf x h1 h2
            rw [hidxukeep x hxv2]
            have ha := hcp.idxNew x h1
            have hb := hp2.idxCount
            omega
          · have ha := hp2.idxNew x h1
            have hc := hcp.idxCount
            omega
        · obtain ⟨ns1, hns1, hr1⟩ := hcp.sccsExt
          obtain ⟨ns2, hns2, hr2⟩ := hp2.sccsExt
          refine ⟨ns1 ++ ns2, ?_, ?_⟩
          · rw [hns2, hns1, List.append_assoc]
          · intro c hc
            rcases List.mem_append.mp hc with h1 | h1
            · obtain ⟨r, hr, hre⟩ := hr1 c h1
              refine ⟨r, ?_, hre⟩
              show r ∈ preT t ++ preF f2
              exact List.mem_append_left _ hr
            · obtain ⟨r, hr, hre⟩ := hr2 c h1
              refine ⟨r, ?_, hre⟩
              show r ∈ preT t ++ preF f2
              exact List.mem_append_right _ hr
        · have h4 : tLow st' v = tLow acc0 v := hlowveq
          have h5 := hp2.lowDec
          omega
        · intro u hu hnotE
          rw [show preF (.cons t f2) = preT t ++ preF f2 from rfl] at hu
          have hu' : u ∈ preT t ++ preF f2 := hu
          rcases List.mem_append.mp hu' with h1 | h1
          · have hunotE' : u ∉ tE st' := fun h2 => hnotE (hEmono2 u h2)
            obtain ⟨hl1, hedges⟩ := hcp.subLow u h1 hunotE'
            have huv : u ≠ v := fun he => hvnt (he ▸ h1)
            have hukeep : tLow acc' u = tLow st' u :=
              hlowukeep u huv (fun h2 => hdisjtf u h1 h2)
            have h5 := hp2.lowDec
            constructor
            · rw [hukeep]
              omega
            · intro y hy
              rcases hedges y hy with hy1 | ⟨hy2, hy3⟩
              · exact Or.inl (hEmono2 y hy1)
              · right
                constructor
                · rw [hp2.dEq]
                  exact Set.mem_union_left _ hy2
                · rw [hidxukeep y (hfresh2D y hy2)]
                  omega
          · exact hp2.subLow u h1 hnotE
        · intro u hu
          rcases List.mem_cons.mp hu with rfl | hu2
          · right
            have huD : u ∈ tD st' := by
              rw [hcp.dEq]
              exact Set.mem_union_right _ hwroot
            constructor
            · rw [hp2.dEq]
              exact Set.mem_union_left _ huD
            · rw [hidxukeep u (hfresh2D u huD), hcp.idxV]
              have h4 : tLow st' v = tLow acc0 v := hlowveq
              have h5 := hp2.lowDec
              omega
          · exact hp2.wsDone u hu2

/-- Realization theorem for strongConnect: each call on a fresh node builds
a well-formed DFS tree, preserves the Tarjan invariant, and emits exactly
the strongly connected components completed during the call. -/
theorem strongConnect_wf {nb : List (Int × List Int)} {n : Int}
    (hV : ValidGraph nb n) :
    ∀ (fuel : Nat) (st : TarjanState) (G : List Int) (v : Int),
      v ∈ intRange n →
      mapFind st.indices v = none →
      TInv nb n G st →
      (∀ g ∈ G, Reach nb g v) →
      ((intRange n).filter (fun x => mapFind st.indices x = none)).card < fuel →
      ∃ (t : DTree) (st' : TarjanState),
        strongConnect nb fuel v st = st' ∧ SCPost nb n G v st st' t := by
  intro fuel
  induction fuel with
  | zero => intro st G v _ _ _ _ hcard; omega
  | succ fuel ih =>
    intro st G v hvU hfresh hInv hanc hcard
    set st1 : TarjanState := { st with
      indices := mapSet st.indices v st.index
      lowlinks := mapSet st.lowlinks v st.index
      index := st.index + 1
      stack := st.stack ++ [v]
      onStack := mapSet st.onStack v true } with hst1def
    have hInv1 : TInv nb n (G ++ [v]) st1 := tInv_push hInv hfresh hvU
    have hvstk1 : v ∈ st1.stack := by
      show v ∈ st.stack ++ [v]
      exact List.mem_append_right _ (List.mem_singleton_self v)
    have hcard1 : ((intRange n).filter
        (fun x => mapFind st1.indices x = none)).card < fuel := by
      have h1 : ((intRange n).filter (fun x => mapFind st1.indices x = none)).card =
          ((intRange n).filter
            (fun x => mapFind (mapSet st.indices v st.index) x = none)).card := rfl
      have h2 := card_unfound_set (U := intRange n) (k := st.index) hvU hfresh
      omega
    obtain ⟨f, st2, heqf, hfp⟩ := tarjanFold_wf hV fuel v G hanc ih
      (adjL nb v) (fun w hw => hw) st1 hInv1 hvstk1 hcard1
    have hfold2 : (mapGet nb v []).foldl (fun (acc : TarjanState) w =>
        match mapFind acc.indices w with
        | none =>
          let acc1 := strongConnect nb fuel w acc
          if mapGet acc1.lowlinks w 0 < mapGet acc1.lowlinks v 0 then
            { acc1 with lowlinks := mapSet acc1.lowlinks v (mapGet acc1.lowlinks w 0) }
          else acc1
        | some wIndex =>
          if mapGet acc.onStack w false then
            if wIndex < mapGet acc.lowlinks v 0 then
              { acc with lowlinks := mapSet acc.lowlinks v wIndex }
            else acc
          else acc) st1 = st2 := heqf
    have hdef2 : strongConnect nb (fuel + 1) v st =
        (if mapGet st2.lowlinks v 0 = mapGet st2.indices v 0 then
          { (tarjanPopLoop v st2.stack.length st2 []).1 with
            sccs := (tarjanPopLoop v st2.stack.length st2 []).1.sccs ++
              [(tarjanPopLoop v st2.stack.length st2 []).2] }
        else st2) := by
      rw [← hfold2]
      rfl
    -- shared facts
    have hDst1 : tD st1 = tD st ∪ {v} := by
      show {x | mapFind (mapSet st.indices v st.index) x ≠ none} = _
      rw [tD_mapSet]
      rfl
    have hvD : v ∉ tD st := by
      simp only [tD, Set.mem_setOf_eq]
      intro h2
      exact h2 hfresh
    have hvstack : v ∉ st.stack := fun h2 =>
      hvD ((hInv.dIff v).mpr (Or.inl h2))
    have hDst2 : tD st2 = tD st ∪ setL (preT (.node v f)) := by
      rw [hfp.dEq, hDst1]
      rw [show preT (.node v f) = v :: preF f from rfl]
      rw [setL_cons_union]
    have hEsub2 : ∀ x, x ∈ tE st2 → x ∈ tD st2 := fun x hx =>
      (hfp.inv.dIff x).mpr (Or.inr hx)
    have hwft : WFT nb (tD st) (.node v f) (tD st2) := by
      refine WFT.node hvD hfp.roots ?_ ?_
      · rw [← hDst1]
        exact hfp.wff
      · intro y hy
        rcases hfp.wsDone y hy with h1 | ⟨h1, _⟩
        · exact hEsub2 y h1
        · exact h1
    have hvnf : v ∉ setL (preF f) := by
      intro h2
      apply (wfF_fresh hfp.wff).2 v h2
      rw [hDst1]
      exact Set.mem_union_right _ rfl
    have hidxv2 : tIdx st2 v = st.index := by
      rw [show tIdx st2 v = tIdx st1 v from
        mapGet_congr_find (hfp.presIdx v hvnf) 0]
      exact mapGet_mapSet_self _ _ _ _
    obtain ⟨rest, hse, hsubrest⟩ := hfp.stackExt
    have hse2 : st2.stack = st.stack ++ v :: rest := by
      rw [hse]
      show (st.stack ++ [v]) ++ rest = _
      simp
    have hstidx : ∀ a ∈ st.stack, tIdx st2 a < tIdx st2 v := by
      have hp := hfp.inv.sorted
      rw [hse2] at hp
      have := (List.pairwise_append.mp hp).2.2
      intro a ha
      exact this a ha v (List.mem_cons_self _ _)
    have hrestidx : ∀ x ∈ rest, st.index + 1 ≤ tIdx st2 x := by
      intro x hx
      have := hfp.idxNew x (hsubrest x hx)
      have h2 : st1.index = st.index + 1 := rfl
      omega
    have hGidx : ∀ g ∈ G, tIdx st2 g < st.index := by
      intro g hg
      have hgstk : g ∈ st.stack := hInv.grayStack g hg
      have hgD : g ∈ tD st := (hInv.dIff g).mpr (Or.inl hgstk)
      have hgv : g ≠ v := fun he => hvD (he ▸ hgD)
      have hgnf : g ∉ setL (preF f) := by
        intro h2
        apply (wfF_fresh hfp.wff).2 g h2
        rw [hDst1]
        exact Set.mem_union_left _ hgD
      rw [show tIdx st2 g = tIdx st1 g from
        mapGet_congr_find (hfp.presIdx g hgnf) 0,
        show tIdx st1 g = tIdx st g from
        mapGet_congr_find (mapFind_mapSet_ne _ _ _ _ hgv) 0]
      exact (hInv.idxLt g hgD).2
    have hvrest : v ∉ rest := by
      intro h2
      have := hrestidx v h2
      omega
    by_cases hlow : mapGet st2.lowlinks v 0 = mapGet st2.indices v 0
    · -- emission case
      have hndvr : (v :: rest).Nodup := by
        have := hfp.inv.nodup
        rw [hse2] at this
        exact List.Nodup.of_append_right this
      have hlenr : rest.length < st2.stack.length := by
        rw [hse2, List.length_append, List.length_cons]
        omega
      obtain ⟨st3, hpop, hstk3, hidx3, hlow3, hixc3, hsccs3, hon3a, hon3b⟩ :=
        tarjanPopLoop_spec v st2.stack.length rest st2 [] st.stack hse2 hndvr hlenr
      rw [List.nil_append] at hpop
      -- the popped component is exactly the SCC of v
      have hlowvi : tLow st2 v = st.index := by
        show mapGet st2.lowlinks v 0 = st.index
        rw [hlow]
        exact hidxv2
      have hdesc : ∀ (m : Nat), ∀ u ∈ v :: rest,
          (tIdx st2 u - tIdx st2 v).toNat ≤ m → Reach nb u v := by
        intro m
        induction m with
        | zero =>
          intro u hu hle
          rcases List.mem_cons.mp hu with rfl | hu2
          · exact Relation.ReflTransGen.refl
          · exfalso
            have := hrestidx u hu2
            rw [hidxv2] at hle
            omega
        | succ m ihm =>
          intro u hu hle
          rcases List.mem_cons.mp hu with rfl | hu2
          · exact Relation.ReflTransGen.refl
          · have huf : u ∈ preF f := hsubrest u hu2
            have hustk : u ∈ st2.stack := by
              rw [hse2]
              exact List.mem_append_right _ (List.mem_cons_of_mem _ hu2)
            have huv : u ≠ v := by
              intro he
              subst he
              exact hvrest hu2
            have hunotG : u ∉ G ++ [v] := by
              intro h2
              rcases List.mem_append.mp h2 with h3 | h3
              · have := hGidx u h3
                have := hrestidx u hu2
                omega
              · rw [List.mem_singleton] at h3
                exact huv h3
            have hfin := hfp.inv.finStack u hustk hunotG
            have hls := hfp.inv.lowSound u hustk
            rcases hls.2 with h3 | ⟨p, hpstk, hpidx, hpreach⟩
            · omega
            · have hsubl := (hfp.subLow u huf
                (hfp.inv.stackE u hustk)).1
              have hpv : tIdx st2 p = tLow st2 u := hpidx
              have hpge : st.index ≤ tIdx st2 p := by
                rw [hpv]
                rw [← hlowvi]
                exact hsubl
              have hpmem : p ∈ v :: rest := by
                have hp2 : p ∈ st.stack ++ v :: rest := by
                  rw [← hse2]
                  exact hpstk
                rcases List.mem_append.mp hp2 with h4 | h4
                · exfalso
                  have := hstidx p h4
                  rw [hidxv2] at this
                  omega
                · exact h4
            -- the witness has a strictly smaller index; recurse
              have hrec : Reach nb p v := by
                apply ihm p hpmem
                rw [hidxv2]
                rw [hidxv2] at hle
                have h5 : tLow st2 u < tIdx st2 u := hfin.1
                omega
              exact Relation.ReflTransGen.trans hpreach hrec
      have hscc : setL (rest.reverse ++ [v]) = {y | Mut nb v y} := by
        ext y
        simp only [setL, Set.mem_setOf_eq, List.mem_append, List.mem_reverse,
          List.mem_singleton]
        constructor
        · intro hy
          rcases hy with hy | hyv
          · have hyf : y ∈ preT (.node v f) := by
              show y ∈ v :: preF f
              exact List.mem_cons_of_mem _ (hsubrest y hy)
            have hvy : Reach nb v y := by
              have := wfT_reach_sound hwft y hyf
              exact reachA_to_reach this
            have hyv : Reach nb y v :=
              hdesc (tIdx st2 y - tIdx st2 v).toNat y
                (List.mem_cons_of_mem _ hy) (le_refl _)
            exact ⟨hvy, hyv⟩
          · rw [hyv]
            exact mut_refl v
        · intro hmut
          have hvE2 : v ∉ tE st2 := by
            apply hfp.inv.stackE v
            rw [hse2]
            exact List.mem_append_right _ (List.mem_cons_self _ _)
          have hpathlem : ∀ z, ReachIn nb {y | Mut nb v y} v z → z ∈ v :: rest := by
            intro z hz
            induction hz with
            | refl => exact List.mem_cons_self _ _
            | tail hxp hpz ihp =>
              rename_i x z
              have hxmem := ihp
              have hedge : z ∈ tE st2 ∨ (z ∈ tD st2 ∧ tLow st2 v ≤ tIdx st2 z) := by
                rcases List.mem_cons.mp hxmem with rfl | hx2
                · exact hfp.wsDone z hpz.1
                · have hxstk : x ∈ st2.stack := by
                    rw [hse2]
                    exact List.mem_append_right _ (List.mem_cons_of_mem _ hx2)
                  exact (hfp.subLow x (hsubrest x hx2)
                    (hfp.inv.stackE x hxstk)).2 z hpz.1
              have hzmut : Mut nb v z := hpz.2
              rcases hedge with h1 | ⟨h1, h2⟩
              · exfalso
                exact hvE2 (hfp.inv.eClosed z h1 v (mut_symm hzmut))
              · have hznE : z ∉ tE st2 := by
                  intro h3
                  exact hvE2 (hfp.inv.eClosed z h3 v (mut_symm hzmut))
                have hzstk : z ∈ st2.stack := by
                  rcases (hfp.inv.dIff z).mp h1 with h3 | h3
                  · exact h3
                  · exact absurd h3 hznE
                rw [hse2] at hzstk
                rcases List.mem_append.mp hzstk with h3 | h3
                · exfalso
                  have := hstidx z h3
                  rw [hidxv2] at this
                  rw [hlowvi] at h2
                  omega
                · exact h3
          have hz := hpathlem y (reach_convex hmut.1
            Relation.ReflTransGen.refl hmut.2)
          rcases List.mem_cons.mp hz with rfl | h2
          · exact Or.inr rfl
          · exact Or.inl h2
      -- assemble the final state
      refine ⟨.node v f,
        { st3 with sccs := st3.sccs ++ [rest.reverse ++ [v]] }, ?_, ?_⟩
      · rw [hdef2, if_pos hlow, hpop]
      · have hE' : ∀ x, x ∈ tE { st3 with
            sccs := st3.sccs ++ [rest.reverse ++ [v]] } ↔
            (x ∈ tE st2 ∨ Mut nb v x) := by
          intro x
          show (∃ c ∈ st3.sccs ++ [rest.reverse ++ [v]], x ∈ c) ↔ _
          rw [hsccs3]
          constructor
          · rintro ⟨c, hc, hxc⟩
            rcases List.mem_append.mp hc with h1 | h1
            · exact Or.inl ⟨c, h1, hxc⟩
            · rw [List.mem_singleton] at h1
              subst h1
              right
              have : x ∈ setL (rest.reverse ++ [v]) := hxc
              rw [hscc] at this
              exact this
          · rintro (⟨c, hc, hxc⟩ | h1)
            · exact ⟨c, List.mem_append_left _ hc, hxc⟩
            · refine ⟨rest.reverse ++ [v], List.mem_append_right _
                (List.mem_singleton_self _), ?_⟩
              have : x ∈ setL (rest.reverse ++ [v]) := by
                rw [hscc]
                exact h1
              exact this
        have hstackdisj : ∀ x ∈ st.stack, x ∉ v :: rest := by
          have := hfp.inv.nodup
          rw [hse2, List.nodup_append] at this
          exact fun x hx => this.2.2 hx
        have hIdx3eq : ∀ x : Int, tIdx { st3 with
            sccs := st3.sccs ++ [rest.reverse ++ [v]] } x = tIdx st2 x := by
          intro x
          show mapGet st3.indices x 0 = _
          rw [hidx3]
          rfl
        have hLow3eq : ∀ x : Int, tLow { st3 with
            sccs := st3.sccs ++ [rest.reverse ++ [v]] } x = tLow st2 x := by
          intro x
          show mapGet st3.lowlinks x 0 = _
          rw [hlow3]
          rfl
        have hD3eq : tD { st3 with
            sccs := st3.sccs ++ [rest.reverse ++ [v]] } = tD st2 := by
          show {x | mapFind st3.indices x ≠ none} = _
          rw [hidx3]
          rfl
        have hInv' : TInv nb n G { st3 with
            sccs := st3.sccs ++ [rest.reverse ++ [v]] } := by
          refine ⟨?_, ?_, ?_, ?_, ?_, ?_, ?_, ?_, ?_, ?_, ?_, ?_, ?_⟩
          · show st3.stack.Nodup
            rw [hstk3]
            exact hInv.nodup
          · intro x
            rw [hD3eq, hE' x]
            show x ∈ tD st2 ↔ x ∈ st3.stack ∨ _
            rw [hstk3]
            rw [hfp.inv.dIff x, hse2]
            constructor
            · rintro (h1 | h1)
              · rcases List.mem_append.mp h1 with h2 | h2
                · exact Or.inl h2
                · right
                  right
                  show x ∈ {y | Mut nb v y}
                  rw [← hscc]
                  show x ∈ rest.reverse ++ [v]
                  rcases List.mem_cons.mp h2 with rfl | h3
                  · exact List.mem_append_right _ (List.mem_singleton_self _)
                  · exact List.mem_append_left _ (List.mem_reverse.mpr h3)
              · exact Or.inr (Or.inl h1)
            · rintro (h1 | h1 | h1)
              · exact Or.inl (List.mem_append_left _ h1)
              · exact Or.inr h1
              · left
                apply List.mem_append_right
                have : x ∈ setL (rest.reverse ++ [v]) := by
                  rw [hscc]
                  exact h1
                rcases List.mem_append.mp this with h2 | h2
                · exact List.mem_cons_of_mem _ (List.mem_reverse.mp h2)
                · rw [List.mem_singleton] at h2
                  subst h2
                  exact List.mem_cons_self _ _
          · intro x hx
            have hx' : x ∈ st.stack := by
              rw [hstk3] at hx
              exact hx
            rw [hE' x]
            rintro (h1 | h1)
            · apply hfp.inv.stackE x ?_ h1
              rw [hse2]
              exact List.mem_append_left _ hx'
            · have : x ∈ setL (rest.reverse ++ [v]) := by
                rw [hscc]
                exact h1
              apply hstackdisj x hx'
              rcases List.mem_append.mp this with h2 | h2
              · exact List.mem_cons_of_mem _ (List.mem_reverse.mp h2)
              · rw [List.mem_singleton] at h2
                subst h2
                exact List.mem_cons_self _ _
          · intro x
            show mapGet st3.onStack x false = true ↔ x ∈ st3.stack
            rw [hstk3]
            by_cases hx : x ∈ v :: rest
            · rw [hon3b x hx]
              simp only [Bool.false_eq_true, false_iff]
              intro h2
              exact hstackdisj x h2 hx
            · rw [hon3a x hx]
              rw [hfp.inv.onS x, hse2, List.mem_append]
              constructor
              · rintro (h1 | h1)
                · exact h1
                · exact absurd h1 hx
              · exact Or.inl
          · show st3.stack.Pairwise _
            rw [hstk3]
            have hp := hfp.inv.sorted
            rw [hse2] at hp
            have h2 := (List.pairwise_append.mp hp).1
            apply List.Pairwise.imp_of_mem ?_ h2
            intro a b _ _ hab
            show tIdx { st3 with sccs := st3.sccs ++ [rest.reverse ++ [v]] } a <
              tIdx { st3 with sccs := st3.sccs ++ [rest.reverse ++ [v]] } b
            rw [hIdx3eq a, hIdx3eq b]
            exact hab
          · intro x hx
            rw [hD3eq] at hx
            rw [hIdx3eq x]
            show 0 ≤ tIdx st2 x ∧ tIdx st2 x < st3.index
            rw [hixc3]
            exact hfp.inv.idxLt x hx
          · intro x hx
            have hx' : x ∈ st.stack := by
              rw [hstk3] at hx
              exact hx
            have hxstk2 : x ∈ st2.stack := by
              rw [hse2]
              exact List.mem_append_left _ hx'
            obtain ⟨hle, hd⟩ := hfp.inv.lowSound x hxstk2
            rw [hLow3eq x, hIdx3eq x]
            refine ⟨hle, ?_⟩
            rcases hd with h1 | ⟨p, hp1, hp2, hp3⟩
            · exact Or.inl h1
            · right
              refine ⟨p, ?_, ?_, hp3⟩
              · show p ∈ st3.stack
                rw [hstk3]
                have hplt : tIdx st2 p < st.index := by
                  have h4 := hstidx x hx'
                  rw [hidxv2] at h4
                  omega
                rw [hse2] at hp1
                rcases List.mem_append.mp hp1 with h5 | h5
                · exact h5
                · exfalso
                  rcases List.mem_cons.mp h5 with rfl | h6
                  · rw [hidxv2] at hplt
                    omega
                  · have := hrestidx p h6
                    omega
              · rw [hIdx3eq p]
                exact hp2
          · intro x hx hxG
            have hx' : x ∈ st.stack := by
              rw [hstk3] at hx
              exact hx
            have hxv : x ≠ v := fun he => hvstack (he ▸ hx')
            have hxG' : x ∉ G ++ [v] := by
              intro h2
              rcases List.mem_append.mp h2 with h3 | h3
              · exact hxG h3
              · rw [List.mem_singleton] at h3
                exact hxv h3
            have hxstk2 : x ∈ st2.stack := by
              rw [hse2]
              exact List.mem_append_left _ hx'
            obtain ⟨h1, h2⟩ := hfp.inv.finStack x hxstk2 hxG'
            rw [hLow3eq x, hIdx3eq x]
            refine ⟨h1, ?_⟩
            intro y hy
            rw [hD3eq]
            exact h2 y hy
          · intro g hg
            show g ∈ st3.stack
            rw [hstk3]
            exact hInv.grayStack g hg
          · intro c hc
            show ∃ r, r ∈ tD _ ∧ _
            rw [hD3eq]
            have hc' : c ∈ st2.sccs ++ [rest.reverse ++ [v]] := by
              rw [← hsccs3]
              exact hc
            rcases List.mem_append.mp hc' with h1 | h1
            · exact hfp.inv.comps c h1
            · rw [List.mem_singleton] at h1
              subst h1
              refine ⟨v, ?_, hscc⟩
              rw [hDst2]
              right
              show v ∈ preT (.node v f)
              exact List.mem_cons_self _ _
          · intro z hz y hmy
            rw [hE'] at hz ⊢
            rcases hz with h1 | h1
            · exact Or.inl (hfp.inv.eClosed z h1 y hmy)
            · exact Or.inr (mut_trans h1 hmy)
          · intro x hx
            rw [hD3eq] at hx
            exact hfp.inv.dRange x hx
          · show 0 ≤ st3.index
            rw [hixc3]
            exact hfp.inv.indexNN
        refine ⟨rfl, by rw [hD3eq]; exact hwft, ?_, hInv', ?_, ?_, ?_, ?_, ?_, ?_, ?_, ?_, ?_⟩
        · rw [hD3eq]
          exact hDst2
        · intro x hx
          show mapFind st3.indices x = _
          rw [hidx3]
          have hxv : x ≠ v := by
            intro he
            apply hx
            rw [he]
            show v ∈ v :: preF f
            exact List.mem_cons_self _ _
          have hxf : x ∉ setL (preF f) := by
            intro h2
            apply hx
            show x ∈ v :: preF f
            exact List.mem_cons_of_mem _ h2
          rw [hfp.presIdx x hxf]
          show mapFind (mapSet st.indices v st.index) x = _
          exact mapFind_mapSet_ne _ _ _ _ hxv
        · intro x hx
          show mapFind st3.lowlinks x = _
          rw [hlow3]
          have hxv : x ≠ v := by
            intro he
            apply hx
            rw [he]
            show v ∈ v :: preF f
            exact List.mem_cons_self _ _
          have hxf : x ∉ setL (preF f) := by
            intro h2
            apply hx
            show x ∈ v :: preF f
            exact List.mem_cons_of_mem _ h2
          rw [hfp.presLow x hxf hxv]
          show mapFind (mapSet st.lowlinks v st.index) x = _
          exact mapFind_mapSet_ne _ _ _ _ hxv
        · intro x hx
          have hxv : x ≠ v := by
            intro he
            apply hx
            rw [he]
            show v ∈ v :: preF f
            exact List.mem_cons_self _ _
          have hxf : x ∉ setL (preF f) := by
            intro h2
            apply hx
            show x ∈ v :: preF f
            exact List.mem_cons_of_mem _ h2
          have hxvr : x ∉ v :: rest := by
            intro h2
            rcases List.mem_cons.mp h2 with h3 | h3
            · exact hxv h3
            · exact hxf (hsubrest x h3)
          show mapGet st3.onStack x false = _
          rw [hon3a x hxvr, hfp.presOn x hxf]
          show mapGet (mapSet st.onStack v true) x false = _
          exact mapGet_mapSet_ne _ _ _ _ _ hxv
        · show st3.index = _
          rw [hixc3, hfp.idxCount]
          show st.index + 1 + (preF f).length = _
          rw [show preT (.node v f) = v :: preF f from rfl, List.length_cons]
          omega
        · intro x hx
          rw [show preT (.node v f) = v :: preF f from rfl] at hx
          rw [hIdx3eq x]
          show st.index ≤ tIdx st2 x ∧ tIdx st2 x < st3.index
          rw [hixc3]
          rcases List.mem_cons.mp hx with rfl | hx2
          · rw [hidxv2]
            constructor
            · exact le_refl _
            · have := hfp.idxCount
              have h2 : st1.index = st.index + 1 := rfl
              have h3 : (preF f).length ≥ 0 := Nat.zero_le _
              omega
          · have := hfp.idxNew x hx2
            have h2 : st1.index = st.index + 1 := rfl
            omega
        · rw [hIdx3eq v]
          exact hidxv2
        · obtain ⟨nsf, hnsf, hrf⟩ := hfp.sccsExt
          refine ⟨nsf ++ [rest.reverse ++ [v]], ?_, ?_⟩
          · show st3.sccs ++ _ = _
            rw [hsccs3, hnsf]
            show (st1.sccs ++ nsf) ++ _ = _
            rw [List.append_assoc]
          · intro c hc
            rcases List.mem_append.mp hc with h1 | h1
            · obtain ⟨r, hr, hre⟩ := hrf c h1
              refine ⟨r, ?_, hre⟩
              show r ∈ v :: preF f
              exact List.mem_cons_of_mem _ hr
            · rw [List.mem_singleton] at h1
              subst h1
              refine ⟨v, ?_, hscc⟩
              show v ∈ v :: preF f
              exact List.mem_cons_self _ _
        · left
          refine ⟨?_, ?_, ?_⟩
          · rw [hLow3eq v, hIdx3eq v]
            exact hlow
          · rw [hE']
            right
            exact mut_refl v
          · show st3.stack = st.stack
            exact hstk3
        · intro w hw hwE
          exfalso
          apply hwE
          rw [hE']
          rw [show preT (.node v f) = v :: preF f from rfl] at hw
          rcases List.mem_cons.mp hw with rfl | hw2
          · exact Or.inr (mut_refl w)
          · have hwD : w ∈ tD st2 := by
              rw [hfp.dEq]
              exact Set.mem_union_right _ hw2
            rcases (hfp.inv.dIff w).mp hwD with h1 | h1
            · rw [hse2] at h1
              rcases List.mem_append.mp h1 with h2 | h2
              · exfalso
                apply (wfF_fresh hfp.wff).2 w hw2
                rw [hDst1]
                exact Set.mem_union_left _ ((hInv.dIff w).mpr (Or.inl h2))
              · right
                show w ∈ {y | Mut nb v y}
                rw [← hscc]
                show w ∈ rest.reverse ++ [v]
                rcases List.mem_cons.mp h2 with rfl | h3
                · exact List.mem_append_right _ (List.mem_singleton_self _)
                · exact List.mem_append_left _ (List.mem_reverse.mpr h3)
            · exact Or.inl h1
    · -- no-emission case
      have hlowlt : tLow st2 v < tIdx st2 v := by
        have h1 := (hfp.inv.lowSound v (by
          rw [hse2]
          exact List.mem_append_right _ (List.mem_cons_self _ _))).1
        have h2 : tLow st2 v ≠ tIdx st2 v := hlow
        omega
      have hInv' : TInv nb n G st2 := by
        refine ⟨hfp.inv.nodup, hfp.inv.dIff, hfp.inv.stackE, hfp.inv.onS,
          hfp.inv.sorted, hfp.inv.idxLt, hfp.inv.lowSound, ?_, ?_,
          hfp.inv.comps, hfp.inv.eClosed, hfp.inv.dRange, hfp.inv.indexNN⟩
        · intro x hx hxG
          by_cases hxv : x = v
          · subst hxv
            refine ⟨hlowlt, ?_⟩
            intro y hy
            rcases hfp.wsDone y hy with h1 | ⟨h1, _⟩
            · exact hEsub2 y h1
            · exact h1
          · apply hfp.inv.finStack x hx
            intro h2
            rcases List.mem_append.mp h2 with h3 | h3
            · exact hxG h3
            · rw [List.mem_singleton] at h3
              exact hxv h3
        · intro g hg
          exact hfp.inv.grayStack g (List.mem_append_left _ hg)
      refine ⟨.node v f, st2, ?_, ?_⟩
      · rw [hdef2, if_neg hlow]
      · refine ⟨rfl, hwft, hDst2, hInv', ?_, ?_, ?_, ?_, ?_, ?_, ?_, ?_, ?_⟩
        · intro x hx
          have hxv : x ≠ v := by
            intro he
            apply hx
            rw [he]
            show v ∈ v :: preF f
            exact List.mem_cons_self _ _
          have hxf : x ∉ setL (preF f) := by
            intro h2
            apply hx
            show x ∈ v :: preF f
            exact List.mem_cons_of_mem _ h2
          rw [hfp.presIdx x hxf]
          show mapFind (mapSet st.indices v st.index) x = _
          exact mapFind_mapSet_ne _ _ _ _ hxv
        · intro x hx
          have hxv : x ≠ v := by
            intro he
            apply hx
            rw [he]
            show v ∈ v :: preF f
            exact List.mem_cons_self _ _
          have hxf : x ∉ setL (preF f) := by
            intro h2
            apply hx
            show x ∈ v :: preF f
            exact List.mem_cons_of_mem _ h2
          rw [hfp.presLow x hxf hxv]
          show mapFind (mapSet st.lowlinks v st.index) x = _
          exact mapFind_mapSet_ne _ _ _ _ hxv
        · intro x hx
          have hxv : x ≠ v := by
            intro he
            apply hx
            rw [he]
            show v ∈ v :: preF f
            exact List.mem_cons_self _ _
          have hxf : x ∉ setL (preF f) := by
            intro h2
            apply hx
            show x ∈ v :: preF f
            exact List.mem_cons_of_mem _ h2
          rw [hfp.presOn x hxf]
          show mapGet (mapSet st.onStack v true) x false = _
          exact mapGet_mapSet_ne _ _ _ _ _ hxv
        · rw [hfp.idxCount]
          show st.index + 1 + (preF f).length = _
          rw [show preT (.node v f) = v :: preF f from rfl, List.length_cons]
          omega
        · intro x hx
          rw [show preT (.node v f) = v :: preF f from rfl] at hx
          rcases List.mem_cons.mp hx with rfl | hx2
          · rw [hidxv2]
            refine ⟨le_refl _, ?_⟩
            have := hfp.idxCount
            have h2 : st1.index = st.index + 1 := rfl
            omega
          · have := hfp.idxNew x hx2
            have h2 : st1.index = st.index + 1 := rfl
            omega
        · exact hidxv2
        · obtain ⟨nsf, hnsf, hrf⟩ := hfp.sccsExt
          refine ⟨nsf, ?_, ?_⟩
          · rw [hnsf]
          · intro c hc
            obtain ⟨r, hr, hre⟩ := hrf c hc
            refine ⟨r, ?_, hre⟩
            show r ∈ v :: preF f
            exact List.mem_cons_of_mem _ hr
        · right
          refine ⟨hlowlt, rest, hse2, ?_⟩
          intro x hx
          show x ∈ v :: preF f
          exact List.mem_cons_of_mem _ (hsubrest x hx)
        · intro w hw hwE
          rw [show preT (.node v f) = v :: preF f from rfl] at hw
          rcases List.mem_cons.mp hw with rfl | hw2
          · refine ⟨le_refl _, ?_⟩
            intro y hy
            exact hfp.wsDone y hy
          · exact hfp.subLow w hw2 hwE

theorem tarjanLoop_wf {nb : List (Int × List Int)} {n : Int}
    (hV : ValidGraph nb n) (fuel : Nat)
    (hfuel : (intRange n).card < fuel) :
    ∀ (ks : List Nat), (∀ k ∈ ks, (k : Int) ∈ intRange n) →
    ∀ (st : TarjanState), TInv nb n [] st → st.stack = [] →
      ∃ stf : TarjanState,
        ks.foldl (fun (st : TarjanState) (i : Nat) =>
          match mapFind st.indices (i : Int) with
          | none => strongConnect nb fuel (i : Int) st
          | some _ => st) st = stf ∧
        TInv nb n [] stf ∧ stf.stack = [] ∧
        (∀ x : Int, x ∈ tD st → x ∈ tD stf) ∧
        (∀ k ∈ ks, (k : Int) ∈ tD stf) := by
  intro ks
  induction ks with
  | nil =>
    intro _ st hInv hstk
    refine ⟨st, rfl, hInv, hstk, fun x hx => hx, ?_⟩
    intro k hk
    exact absurd hk (List.not_mem_nil k)
  | cons k ks' ihk =>
    intro hks st hInv hstk
    rw [List.foldl_cons]
    cases hfind : mapFind st.indices (k : Int) with
    | some j =>
      have hkD : (k : Int) ∈ tD st := by
        show mapFind st.indices (k : Int) ≠ none
        rw [hfind]
        exact Option.some_ne_none _
      obtain ⟨stf, heq, hinvf, hstkf, hmono, hall⟩ :=
        ihk (fun a ha => hks a (List.mem_cons_of_mem _ ha)) st hInv hstk
      refine ⟨stf, heq, hinvf, hstkf, hmono, ?_⟩
      intro a ha
      rcases List.mem_cons.mp ha with rfl | ha2
      · exact hmono _ hkD
      · exact hall a ha2
    | none =>
      have hkU : (k : Int) ∈ intRange n := hks k (List.mem_cons_self _ _)
      have hcard : ((intRange n).filter
          (fun x => mapFind st.indices x = none)).card < fuel :=
        lt_of_le_of_lt (Finset.card_filter_le _ _) hfuel
      obtain ⟨t, st', hsc, hcp⟩ := strongConnect_wf hV fuel st [] (k : Int)
        hkU hfind hInv (by intro g hg; exact absurd hg (List.not_mem_nil g))
        hcard
      have hkroot : (k : Int) ∈ preT t := by
        cases t with
        | node r ts =>
          have : r = (k : Int) := hcp.root
          subst this
          exact List.mem_cons_self _ _
      have hstk' : st'.stack = [] := by
        rcases hcp.emitCase with ⟨_, _, hse⟩ | ⟨hlt, rest, hse, hsub⟩
        · rw [hse, hstk]
        · exfalso
          have hvstk' : (k : Int) ∈ st'.stack := by
            rw [hse]
            exact List.mem_append_right _ (List.mem_cons_self _ _)
          obtain ⟨hle, hd⟩ := hcp.inv.lowSound (k : Int) hvstk'
          rcases hd with h1 | ⟨p, hp1, hp2, _⟩
          · omega
          · rw [hse, hstk, List.nil_append] at hp1
            rcases List.mem_cons.mp hp1 with rfl | hp3
            · omega
            · have hpm : p ∈ preT t := hsub p hp3
              have h2 := hcp.idxNew p hpm
              have h3 := hcp.idxV
              omega
      obtain ⟨stf, heq, hinvf, hstkf, hmono, hall⟩ :=
        ihk (fun a ha => hks a (List.mem_cons_of_mem _ ha)) st' hcp.inv hstk'
      refine ⟨stf, ?_, hinvf, hstkf, ?_, ?_⟩
      · show List.foldl (fun (st : TarjanState) (i : Nat) =>
          match mapFind st.indices (i : Int) with
          | none => strongConnect nb fuel (i : Int) st
          | some _ => st) (strongConnect nb fuel (k : Int) st) ks' = stf
        rw [hsc]
        exact heq
      · intro x hx
        apply hmono
        rw [hcp.dEq]
        exact Set.mem_union_left _ hx
      · intro a ha
        rcases List.mem_cons.mp ha with rfl | ha2
        · apply hmono
          rw [hcp.dEq]
          exact Set.mem_union_right _ hkroot
        · exact hall a ha2

/-- Tarjan's output on a valid graph names exactly the semantic partition
of the ids into strongly connected components. -/
theorem tarjan_partition {nb : List (Int × List Int)} {n : Int}
    (hV : ValidGraph nb n) :
    partsOf (Tarjan nb n) = sccPartition nb n := by
  have hfuel : (intRange n).card <
      n.toNat + ((nb.map fun p => p.2.length).sum) + 2 := by
    have h1 : (intRange n).card ≤ n.toNat := by
      unfold intRange
      exact le_trans Finset.card_image_le (le_of_eq (Finset.card_range _))
    omega
  have hInv0 : TInv nb n [] { index := 0, stack := [], onStack := [], indices := [], lowlinks := [], sccs := [] } := by
    have hD0 : tD { index := 0, stack := [], onStack := [], indices := [], lowlinks := [], sccs := [] } = ∅ := by
      ext x
      show mapFind ([] : List (Int × Int)) x ≠ none ↔ x ∈ (∅ : Set Int)
      simp [mapFind, List.lookup]
    have hE0 : tE { index := 0, stack := [], onStack := [], indices := [], lowlinks := [], sccs := [] } = ∅ := by
      ext x
      show (∃ c ∈ ([] : List (List Int)), x ∈ c) ↔ _
      simp
    refine ⟨List.nodup_nil, ?_, ?_, ?_, List.Pairwise.nil, ?_, ?_, ?_, ?_,
      ?_, ?_, ?_, le_refl 0⟩
    · intro x
      rw [hD0, hE0]
      simp
    · intro x hx
      exact absurd hx (List.not_mem_nil x)
    · intro x
      show mapGet ([] : List (Int × Bool)) x false = true ↔ x ∈ ([] : List Int)
      simp [mapGet, List.lookup]
    · intro x hx
      rw [hD0] at hx
      exact absurd hx (Set.not_mem_empty x)
    · intro x hx
      exact absurd hx (List.not_mem_nil x)
    · intro x hx _
      exact absurd hx (List.not_mem_nil x)
    · intro g hg
      exact absurd hg (List.not_mem_nil g)
    · intro c hc
      exact absurd hc (List.not_mem_nil c)
    · intro z hz
      rw [hE0] at hz
      exact absurd hz (Set.not_mem_empty z)
    · intro x hx
      rw [hD0] at hx
      exact absurd hx (Set.not_mem_empty x)
  obtain ⟨stf, heq, hinvf, hstkf, _, hall⟩ :=
    tarjanLoop_wf hV (n.toNat + ((nb.map fun p => p.2.length).sum) + 2) hfuel
      (List.range n.toNat)
      (by
        intro k hk
        rw [List.mem_range] at hk
        rw [mem_intRange]
        omega)
      { index := 0, stack := [], onStack := [], indices := [], lowlinks := [], sccs := [] }
      hInv0 rfl
  have hT : Tarjan nb n = stf.sccs := by
    simp only [Tarjan, heq]
  rw [hT]
  ext S
  simp only [partsOf, sccPartition, Set.mem_setOf_eq]
  constructor
  · rintro ⟨c, hc, rfl⟩
    obtain ⟨r, hrD, hre⟩ := hinvf.comps c hc
    have hrU := hinvf.dRange r hrD
    rw [mem_intRange] at hrU
    exact ⟨r, hrU.1, hrU.2, hre⟩
  · rintro ⟨x, h1, h2, rfl⟩
    have hxD : x ∈ tD stf := by
      have hk : x.toNat ∈ List.range n.toNat := by
        rw [List.mem_range]
        omega
      have := hall x.toNat hk
      have hxe : ((x.toNat : Nat) : Int) = x := by omega
      rw [hxe] at this
      exact this
    have hxE : x ∈ tE stf := by
      rcases (hinvf.dIff x).mp hxD with h3 | h3
      · rw [hstkf] at h3
        exact absurd h3 (List.not_mem_nil x)
      · exact h3
    obtain ⟨c, hc, hxc⟩ := hxE
    obtain ⟨r, hrD, hre⟩ := hinvf.comps c hc
    refine ⟨c, hc, ?_⟩
    have hmut : Mut nb r x := by
      have : x ∈ setL c := hxc
      rw [hre] at this
      exact this
    rw [hre]
    exact (scc_eq_of_mut hmut).symm

/-- C7: For every directed graph of the data model (adjacency map keyed by
distinct ids 0..numNodes-1 with in-range neighbor lists), Tarjan and Kosaraju
compute the same partition of the node set into strongly connected
components: the component lists may differ in order and in internal order,
but as a family of sets of ids the two outputs are equal. -/
theorem tarjan_kosaraju_same_partition {nb : List (Int × List Int)} {n : Int}
    (hV : ValidGraph nb n) :
    partsOf (Tarjan nb n) = partsOf (Kosaraju nb n) := by
  rw [tarjan_partition hV, kosaraju_partition hV]

theorem tarjan_kosaraju_same_partition_witness :
    partsOf (Tarjan [(0, [1]), (1, [0]), (2, [])] 3) =
    partsOf (Kosaraju [(0, [1]), (1, [0]), (2, [])] 3) :=
  tarjan_kosaraju_same_partition (by decide)
